import Mathlib

/-!
# Naive-Bayes weight setting and scoring (`naivebayes.c`)

A shallow embedding of `bow_naivebayes_set_weights` and
`bow_naivebayes_score_loo`.

Conventions of the embedding.

* Floating-point values (`float`, `double`) are elements of an arbitrary
  linearly ordered field `K`: arithmetic is exact.  Every definition is
  computable, so it can be evaluated at `K = ℚ`; statements about `exp` and
  `log` are made at `K = ℝ`.
* `exp` and `log` come from `<math.h>`; they are passed in as a record
  `libm K`.  `pow (x, n)` with an integer `n` is the field power `x ^ n`.
* A division whose divisor is `0` has no exact value; the run then ends with
  `Abort.division_by_zero` (IEEE arithmetic would continue with an infinity or
  a NaN).
* A failed `assert` ends the run with `Abort.assertion line`, where `line` is
  the line of the `assert` in `naivebayes.c`.
* `int` counters hold mathematical integers (no wrap-around); array indices
  are natural numbers.
* Output that is only printed (`bow_print_word_scores`) is left out.
-/

set_option linter.unusedSectionVars false

namespace NaiveBayes

/-! ## Data model -/

/-- Ways in which a run stops without producing a result. -/
inductive Abort where
  /-- An `assert` on the given source line failed. -/
  | assertion (line : Nat)
  /-- A division by exactly zero. -/
  | division_by_zero
  /-- An array was indexed outside its bounds. -/
  | index_out_of_bounds
  /-- A slot of the result buffer was read before it was written. -/
  | uninitialised_read
  deriving DecidableEq, Repr

/-- The `type` tag of a `bow_cdoc`. -/
inductive bow_doc_type where
  | model
  | test
  | ignore
  deriving DecidableEq, Repr

/-- A class record (`bow_cdoc`): one aggregate document per class. -/
structure bow_cdoc (K : Type) where
  type : bow_doc_type
  prior : K
  word_count : Int

/-- One entry of a document vector (`bow_de`): the count and the weight of a
word in the class `di`. -/
structure bow_de (K : Type) where
  di : Nat
  count : Int
  weight : K

/-- A document vector (`bow_dv`): the entries of one word, with its IDF. -/
structure bow_dv (K : Type) where
  idf : K
  entry : List (bow_de K)

/-- The word table (`bow_wi2dvf`).  `entry` is the array indexed by word index;
a slot holding `none` is a `NULL` document vector. -/
structure bow_wi2dvf (K : Type) where
  num_words : Int
  entry : List (Option (bow_dv K))

/-- The field `size` of a `bow_wi2dvf`: the length of its array. -/
def bow_wi2dvf.size {K : Type} (w : bow_wi2dvf K) : Nat := w.entry.length

/-- The method parameters (`bow_params_naivebayes`). -/
structure bow_params_naivebayes where
  uniform_priors : Bool
  normalize_scores : Bool
  score_with_log_probabilities : Bool
  deriving DecidableEq, Repr

/-- The part of a `bow_method` that the two functions look at. -/
structure bow_method where
  name : String
  params : bow_params_naivebayes

/-- A `bow_barrel`: the class records, the word table and the method. -/
structure bow_barrel (K : Type) where
  method : bow_method
  cdocs : List (bow_cdoc K)
  wi2dvf : bow_wi2dvf K

/-- One entry of a query word vector (`bow_we`).  Its `weight` is only
printed, so it is not kept. -/
structure bow_we where
  wi : Nat
  count : Int
  deriving DecidableEq, Repr

/-- A query word vector (`bow_wv`); `num_entries` is the length of `entry`. -/
structure bow_wv where
  entry : List bow_we

/-- One slot of the result (`bow_score`). -/
structure bow_score (K : Type) where
  di : Nat
  weight : K

/-- The two functions of `<math.h>` that the scorer calls. -/
structure libm (K : Type) where
  exp : K → K
  log : K → K

/-- The value `bow_naivebayes_params`. -/
def bow_naivebayes_params : bow_params_naivebayes :=
  { uniform_priors := false, normalize_scores := true,
    score_with_log_probabilities := false }

/-- The value `bow_crossentropy_params`. -/
def bow_crossentropy_params : bow_params_naivebayes :=
  { uniform_priors := false, normalize_scores := true,
    score_with_log_probabilities := true }

/-- The value `bow_method_naivebayes`. -/
def bow_method_naivebayes : bow_method :=
  { name := "naivebayes", params := bow_naivebayes_params }

/-- The value `bow_method_crossentropy`. -/
def bow_method_crossentropy : bow_method :=
  { name := "crossentropy", params := bow_crossentropy_params }

section Code

variable {K : Type} [LinearOrderedField K]

/-! ## Constants of `<float.h>` -/

/-- The largest finite `float`. -/
def FLT_MAX : K := (2 ^ 24 - 1) * 2 ^ 104

/-- The smallest positive normal `float`. -/
def FLT_MIN : K := 1 / 2 ^ 126

/-- The largest finite `double`. -/
def DBL_MAX : K := (2 ^ 53 - 1) * 2 ^ 971

/-! ## Helpers shared by both functions -/

/-- Exact division; a zero divisor ends the run. -/
def fdiv (x y : K) : Except Abort K :=
  if y = 0 then .error .division_by_zero else .ok (x / y)

/-- Modelled from the spec: `bow_wi2dvf_dv` of libbow is not part of the
source.  It returns the entry list of a word index, and `NULL` when the word
table has none for it. -/
def bow_wi2dvf_dv (w : bow_wi2dvf K) (wi : Nat) : Option (bow_dv K) :=
  match w.entry[wi]? with
  | some (some dv) => some dv
  | _ => none

/-- Modelled from the spec: `bow_array_entry_at_index` of libbow is not part of
the source.  It returns the class record at an index of the catalog; an index
outside the catalog ends the run. -/
def bow_array_entry_at_index (cdocs : List (bow_cdoc K)) (i : Nat) :
    Except Abort (bow_cdoc K) :=
  match cdocs[i]? with
  | some c => .ok c
  | none => .error .index_out_of_bounds

/-! ## `bow_naivebayes_set_weights` -/

/-- Lines 47-51: every prior is checked with `assert (cdoc->prior >= 0)`. -/
def check_priors : List (bow_cdoc K) → Except Abort Unit
  | [] => .ok ()
  | c :: cs => if 0 ≤ c.prior then check_priors cs else .error (.assertion 50)

/-- Lines 76-80: every `word_count` is set to `0`. -/
def reset_word_counts (cdocs : List (bow_cdoc K)) : List (bow_cdoc K) :=
  cdocs.map fun c => { c with word_count := 0 }

/-- Lines 86-91: the counts of one document vector are added to the
`word_count` of the classes they name.  The sum of line 90 is taken over the
integers; `add_dv_counts_int32` keeps it at the width of `int`. -/
def add_dv_counts : List (bow_de K) → List (bow_cdoc K) →
    Except Abort (List (bow_cdoc K))
  | [], cdocs => .ok cdocs
  | e :: es, cdocs =>
    match bow_array_entry_at_index cdocs e.di with
    | .error a => .error a
    | .ok c =>
      add_dv_counts es (cdocs.set e.di { c with word_count := c.word_count + e.count })

/-- Lines 81-92: the loop over the word indices `wi`, given as a list. -/
def count_words (w : bow_wi2dvf K) : List Nat → List (bow_cdoc K) →
    Except Abort (List (bow_cdoc K))
  | [], cdocs => .ok cdocs
  | wi :: wis, cdocs =>
    match bow_wi2dvf_dv w wi with
    | none => count_words w wis cdocs
    | some dv =>
      match add_dv_counts dv.entry cdocs with
      | .error a => .error a
      | .ok cdocs1 => count_words w wis cdocs1

/-- Lines 105-116: the weights of one document vector. -/
def set_dv_weights (num_words : Int) (cdocs : List (bow_cdoc K)) :
    List (bow_de K) → Except Abort (List (bow_de K))
  | [] => .ok []
  | e :: es =>
    match bow_array_entry_at_index cdocs e.di with
    | .error a => .error a
    | .ok c =>
      match fdiv (((1 + e.count : Int) : K)) (((num_words + c.word_count : Int) : K)) with
      | .error a => .error a
      | .ok wt =>
        if 0 < wt then
          match set_dv_weights num_words cdocs es with
          | .error a => .error a
          | .ok es1 => .ok ({ e with weight := wt } :: es1)
        else .error (.assertion 115)

/-- Lines 96-120: the loop over the word indices `wi`, given as a list; the
word table is updated in place. -/
def weight_words (cdocs : List (bow_cdoc K)) : List Nat → bow_wi2dvf K →
    Except Abort (bow_wi2dvf K)
  | [], w => .ok w
  | wi :: wis, w =>
    match bow_wi2dvf_dv w wi with
    | none => weight_words cdocs wis w
    | some dv =>
      match set_dv_weights w.num_words cdocs dv.entry with
      | .error a => .error a
      | .ok es1 =>
        weight_words cdocs wis
          { w with entry := w.entry.set wi (some { idf := 1, entry := es1 }) }

/-- The function `bow_naivebayes_set_weights`.  `bow_num_words` is the value
of the call `bow_num_words ()`, the size of the global vocabulary. -/
def bow_naivebayes_set_weights (bow_num_words : Nat) (barrel : bow_barrel K) :
    Except Abort (bow_barrel K) :=
  if barrel.method.name = "naivebayes" ∨ barrel.method.name = "crossentropy" then
    let max_wi := min barrel.wi2dvf.size bow_num_words
    match check_priors barrel.cdocs with
    | .error a => .error a
    | .ok _ =>
      match count_words barrel.wi2dvf (List.range max_wi)
          (reset_word_counts barrel.cdocs) with
      | .error a => .error a
      | .ok cdocs1 =>
        match weight_words cdocs1 (List.range max_wi) barrel.wi2dvf with
        | .error a => .error a
        | .ok w1 => .ok { barrel with cdocs := cdocs1, wi2dvf := w1 }
  else .error (.assertion 41)

/-! ### `bow_naivebayes_set_weights` at the width of `int`

The definitions above take the integer sums of lines 90, 111 and 112 over the
integers.  In the source `count`, `word_count` and `num_words` are C `int`s of
32 bits; the definitions below keep every integer sum at that width. -/

/-- The value that an `int` of 32 bits holds for the exact result `x`: `x`
reduced modulo `2^32` into the range from `-2^31` to `2^31 - 1`. -/
def int_wrap (x : Int) : Int := (x + 2147483648) % 4294967296 - 2147483648

/-- Lines 86-91 at the width of `int`: line 90, `cdoc->word_count +=
dv->entry[dvi].count`, keeps the sum modulo `2^32`. -/
def add_dv_counts_int32 : List (bow_de K) → List (bow_cdoc K) →
    Except Abort (List (bow_cdoc K))
  | [], cdocs => .ok cdocs
  | e :: es, cdocs =>
    match bow_array_entry_at_index cdocs e.di with
    | .error a => .error a
    | .ok c =>
      add_dv_counts_int32 es
        (cdocs.set e.di { c with word_count := int_wrap (c.word_count + e.count) })

/-- Lines 81-92 at the width of `int`. -/
def count_words_int32 (w : bow_wi2dvf K) : List Nat → List (bow_cdoc K) →
    Except Abort (List (bow_cdoc K))
  | [], cdocs => .ok cdocs
  | wi :: wis, cdocs =>
    match bow_wi2dvf_dv w wi with
    | none => count_words_int32 w wis cdocs
    | some dv =>
      match add_dv_counts_int32 dv.entry cdocs with
      | .error a => .error a
      | .ok cdocs1 => count_words_int32 w wis cdocs1

/-- Lines 105-116 at the width of `int`: the sums `1 + count` and
`num_words + word_count` are `int` sums, the quotient is exact. -/
def set_dv_weights_int32 (num_words : Int) (cdocs : List (bow_cdoc K)) :
    List (bow_de K) → Except Abort (List (bow_de K))
  | [] => .ok []
  | e :: es =>
    match bow_array_entry_at_index cdocs e.di with
    | .error a => .error a
    | .ok c =>
      match fdiv ((int_wrap (1 + e.count) : Int) : K)
          ((int_wrap (num_words + c.word_count) : Int) : K) with
      | .error a => .error a
      | .ok wt =>
        if 0 < wt then
          match set_dv_weights_int32 num_words cdocs es with
          | .error a => .error a
          | .ok es1 => .ok ({ e with weight := wt } :: es1)
        else .error (.assertion 115)

/-- Lines 96-120 at the width of `int`. -/
def weight_words_int32 (cdocs : List (bow_cdoc K)) : List Nat → bow_wi2dvf K →
    Except Abort (bow_wi2dvf K)
  | [], w => .ok w
  | wi :: wis, w =>
    match bow_wi2dvf_dv w wi with
    | none => weight_words_int32 cdocs wis w
    | some dv =>
      match set_dv_weights_int32 w.num_words cdocs dv.entry with
      | .error a => .error a
      | .ok es1 =>
        weight_words_int32 cdocs wis
          { w with entry := w.entry.set wi (some { idf := 1, entry := es1 }) }

/-- The function `bow_naivebayes_set_weights` at the width of `int`. -/
def bow_naivebayes_set_weights_int32 (bow_num_words : Nat) (barrel : bow_barrel K) :
    Except Abort (bow_barrel K) :=
  if barrel.method.name = "naivebayes" ∨ barrel.method.name = "crossentropy" then
    let max_wi := min barrel.wi2dvf.size bow_num_words
    match check_priors barrel.cdocs with
    | .error a => .error a
    | .ok _ =>
      match count_words_int32 barrel.wi2dvf (List.range max_wi)
          (reset_word_counts barrel.cdocs) with
      | .error a => .error a
      | .ok cdocs1 =>
        match weight_words_int32 cdocs1 (List.range max_wi) barrel.wi2dvf with
        | .error a => .error a
        | .ok w1 => .ok { barrel with cdocs := cdocs1, wi2dvf := w1 }
  else .error (.assertion 41)

/-- The catalog with every `word_count` reduced to the width of `int`. -/
def wrap_counts (cdocs : List (bow_cdoc K)) : List (bow_cdoc K) :=
  cdocs.map fun c => { c with word_count := int_wrap c.word_count }

/-! ## `bow_naivebayes_score_loo` -/

/-- The macro `M_EST_M` (lines 136-138).  Its division is guarded by the test
`cdoc->word_count`, so its divisor is never zero. -/
def M_EST_M (barrel : bow_barrel K) (cdoc : bow_cdoc K) : K :=
  if cdoc.word_count ≠ 0 then (barrel.wi2dvf.num_words : K) / (cdoc.word_count : K)
  else 1

/-- The macro `M_EST_P` (line 139). -/
def M_EST_P (barrel : bow_barrel K) : Except Abort K :=
  fdiv 1 (barrel.wi2dvf.num_words : K)

/-- The check `assert (pr_w_c > 0 && pr_w_c <= 1)` placed on `line`. -/
def assert_pr_w_c (line : Nat) (pr : Except Abort K) : Except Abort K :=
  match pr with
  | .error a => .error a
  | .ok pr_w_c => if 0 < pr_w_c ∧ pr_w_c ≤ 1 then .ok pr_w_c else .error (.assertion line)

/-- Lines 233-274: the value of `pr_w_c` for the class record `cdoc`.  `de` is
the entry of the word for this class when the test of line 233 holds, `loo`
tells whether `loo_class == ci`, and `q` is the query entry.  The check of
line 274 repeats the check that closes each branch. -/
def pr_w_c_of (barrel : bow_barrel K) (cdoc : bow_cdoc K) (de : Option (bow_de K))
    (loo : Bool) (q : bow_we) : Except Abort K :=
  match M_EST_P barrel with
  | .error a => .error a
  | .ok p =>
    let m := M_EST_M barrel cdoc
    match de, loo with
    | some e, true =>
      assert_pr_w_c 245
        (fdiv (m * p + (e.count : K) - (q.count : K))
          (m + (cdoc.word_count : K) - (q.count : K)))
    | some e, false =>
      assert_pr_w_c 252 (fdiv (m * p + (e.count : K)) (m + (cdoc.word_count : K)))
    | none, true =>
      assert_pr_w_c 265 (fdiv (m * p) (m + (cdoc.word_count : K) - (q.count : K)))
    | none, false =>
      assert_pr_w_c 271 (fdiv (m * p) (m + (cdoc.word_count : K)))

/-- Lines 230-232: the loop `while (dvi < dv->length && dv->entry[dvi].di < ci)
dvi++`.  The first argument bounds the number of rounds; `dv->length` rounds
are always enough. -/
def advance_dvi (entry : List (bow_de K)) (ci : Nat) : Nat → Nat → Nat
  | 0, dvi => dvi
  | fuel + 1, dvi =>
    match entry[dvi]? with
    | some e => if e.di < ci then advance_dvi entry ci fuel (dvi + 1) else dvi
    | none => dvi

/-- Line 233: the entry at the cursor, when it belongs to the class `ci`. -/
def entry_at (entry : List (bow_de K)) (dvi ci : Nat) : Option (bow_de K) :=
  match entry[dvi]? with
  | some e => if e.di = ci then some e else none
  | none => none

/-- The constant `min_pr_tf` of line 221. -/
def min_pr_tf : K := FLT_MIN * 100000

/-- Lines 278-291: from `pr_w_c` to the term that is added to `scores[ci]`. -/
def log_pr_tf_of (L : libm K) (log_mode : Bool) (pr_w_c : K) (q : bow_we) :
    Except Abort K :=
  let pr_tf := pr_w_c ^ q.count
  let pr_tf := if pr_tf < min_pr_tf then min_pr_tf else pr_tf
  let log_pr_tf := L.log pr_tf
  if -FLT_MAX + 100000 < log_pr_tf then
    .ok (if log_mode then -log_pr_tf else log_pr_tf)
  else .error (.assertion 287)

/-- Lines 218-305: the loop over the classes for one query word.  The class
records and the scores are walked together; `ci` is the index of the head,
`dvi` the cursor into `dv`, `rescaler` the least score seen so far.  It
returns the new scores and the final `rescaler`. -/
def class_loop (L : libm K) (barrel : bow_barrel K) (dv : bow_dv K) (q : bow_we)
    (loo_class : Int) :
    List (bow_cdoc K) → List K → Nat → Nat → K → Except Abort (List K × K)
  | [], _, _, _, rescaler => .ok ([], rescaler)
  | _ :: _, [], _, _, _ => .error .index_out_of_bounds
  | cdoc :: cdocs, s :: ss, ci, dvi, rescaler =>
    if cdoc.type = bow_doc_type.model then
      let dvi1 := advance_dvi dv.entry ci dv.entry.length dvi
      match pr_w_c_of barrel cdoc (entry_at dv.entry dvi1 ci)
          (decide (loo_class = (ci : Int))) q with
      | .error a => .error a
      | .ok pr_w_c =>
        match log_pr_tf_of L barrel.method.params.score_with_log_probabilities pr_w_c q with
        | .error a => .error a
        | .ok log_pr_tf =>
          let s1 := s + log_pr_tf
          let rescaler1 := if rescaler > s1 then s1 else rescaler
          match class_loop L barrel dv q loo_class cdocs ss (ci + 1) dvi1 rescaler1 with
          | .error a => .error a
          | .ok (ss1, rescaler2) => .ok (s1 :: ss1, rescaler2)
    else .error (.assertion 225)

/-- Lines 315-324: `-rescaler` is added to every score. -/
def rescale_scores (rescaler : K) : List K → Except Abort (List K)
  | [] => .ok []
  | s :: ss =>
    let s1 := s + -rescaler
    if -DBL_MAX + 100000 < s1 ∧ s1 < DBL_MAX - 100000 then
      match rescale_scores rescaler ss with
      | .error a => .error a
      | .ok ss1 => .ok (s1 :: ss1)
    else .error (.assertion 322)

/-- Lines 196-327: the loop over the entries of the query. -/
def word_loop (L : libm K) (barrel : bow_barrel K) (loo_class : Int) :
    List bow_we → List K → Except Abort (List K)
  | [], scores => .ok scores
  | q :: qs, scores =>
    match bow_wi2dvf_dv barrel.wi2dvf q.wi with
    | none => word_loop L barrel loo_class qs scores
    | some dv =>
      match class_loop L barrel dv q loo_class barrel.cdocs scores 0 0 DBL_MAX with
      | .error a => .error a
      | .ok (scores1, rescaler) =>
        if barrel.method.params.score_with_log_probabilities = false then
          if rescaler < 0 then
            match rescale_scores rescaler scores1 with
            | .error a => .error a
            | .ok scores2 => word_loop L barrel loo_class qs scores2
          else word_loop L barrel loo_class qs scores1
        else word_loop L barrel loo_class qs scores1

/-- Lines 169-192: the initial score of every class. -/
def init_scores (L : libm K) (bow_uniform_class_priors : Bool) (log_mode : Bool)
    (loo_class : Int) : List (bow_cdoc K) → Except Abort (List K)
  | [] => .ok []
  | cdoc :: cdocs =>
    let s0 : Except Abort K :=
      if bow_uniform_class_priors then .ok 1
      else if loo_class = -1 then
        if 0 < cdoc.prior ∧ cdoc.prior ≤ 1 then
          .ok (if log_mode then -L.log cdoc.prior else L.log cdoc.prior)
        else .error (.assertion 180)
      else .error (.assertion 179)
    match s0 with
    | .error a => .error a
    | .ok s =>
      if -FLT_MAX + 100000 < s then
        match init_scores L bow_uniform_class_priors log_mode loo_class cdocs with
        | .error a => .error a
        | .ok ss => .ok (s :: ss)
      else .error (.assertion 186)

/-- Lines 337-340: the running maximum, started at `-DBL_MAX`. -/
def max_score (scores : List K) : K :=
  scores.foldl (fun rescaler s => if s > rescaler then s else rescaler) (-DBL_MAX)

/-- Lines 357-358: every score is replaced by its reciprocal. -/
def reciprocal_scores : List K → Except Abort (List K)
  | [] => .ok []
  | s :: ss =>
    match fdiv 1 s with
    | .error a => .error a
    | .ok r =>
      match reciprocal_scores ss with
      | .error a => .error a
      | .ok rs => .ok (r :: rs)

/-- Lines 330-359: back from the accumulators to per-class values. -/
def finish_scores (L : libm K) (log_mode : Bool) (scores : List K) :
    Except Abort (List K) :=
  if log_mode = false then
    let rescaler := max_score scores
    .ok ((scores.map fun s => s - rescaler).map L.exp)
  else reciprocal_scores scores

/-- Lines 366-370: every score is divided by `scores_sum`. -/
def divide_scores (scores_sum : K) : List K → Except Abort (List K)
  | [] => .ok []
  | s :: ss =>
    match fdiv s scores_sum with
    | .error a => .error a
    | .ok r =>
      match divide_scores scores_sum ss with
      | .error a => .error a
      | .ok rs => .ok (r :: rs)

/-- Lines 361-371: the normalisation step. -/
def normalize_scores (scores : List K) : Except Abort (List K) :=
  let scores_sum := scores.foldl (fun acc s => acc + s) 0
  divide_scores scores_sum scores

/-! ### The result buffer -/

/-- A read of `bscores[i]`. -/
def buf_read (bscores : List (Option (bow_score K))) (i : Nat) :
    Except Abort (bow_score K) :=
  match bscores[i]? with
  | none => .error .index_out_of_bounds
  | some none => .error .uninitialised_read
  | some (some s) => .ok s

/-- A write of `bscores[i]`. -/
def buf_write (bscores : List (Option (bow_score K))) (i : Nat) (s : bow_score K) :
    Except Abort (List (Option (bow_score K))) :=
  if i < bscores.length then .ok (bscores.set i (some s)) else .error .index_out_of_bounds

/-- The read `bscores[num_scores-1]` of line 380; with `num_scores = 0` it is a
read at index `-1`. -/
def read_last (bscores : List (Option (bow_score K))) (num_scores : Nat) :
    Except Abort (bow_score K) :=
  match num_scores with
  | 0 => .error .index_out_of_bounds
  | n + 1 => buf_read bscores n

/-- Lines 391-392: the loop that shifts down the entries smaller than `x`,
started at `dsi`.  It returns the final `dsi` and the buffer. -/
def shift_down (x : K) : Nat → List (Option (bow_score K)) →
    Except Abort (Nat × List (Option (bow_score K)))
  | 0, bscores => .ok (0, bscores)
  | dsi + 1, bscores =>
    match buf_read bscores dsi with
    | .error a => .error a
    | .ok e =>
      if e.weight < x then
        match buf_write bscores (dsi + 1) e with
        | .error a => .error a
        | .ok bscores1 => shift_down x dsi bscores1
      else .ok (dsi + 1, bscores)

/-- Lines 379-396: the body of the selection loop for the class `ci` with the
score `x`. -/
def topk_step (bscores_len : Nat) (ci : Nat) (x : K)
    (st : Nat × List (Option (bow_score K))) :
    Except Abort (Nat × List (Option (bow_score K))) :=
  let num_scores := st.1
  let bscores := st.2
  let guard : Except Abort Bool :=
    if num_scores < bscores_len then .ok true
    else
      match read_last bscores num_scores with
      | .error a => .error a
      | .ok e => .ok (decide (e.weight < x))
  match guard with
  | .error a => .error a
  | .ok false => .ok (num_scores, bscores)
  | .ok true =>
    let num_scores1 := if num_scores < bscores_len then num_scores + 1 else num_scores
    match shift_down x (num_scores1 - 1) bscores with
    | .error a => .error a
    | .ok (dsi, bscores1) =>
      match buf_write bscores1 dsi { di := ci, weight := x } with
      | .error a => .error a
      | .ok bscores2 => .ok (num_scores1, bscores2)

/-- Lines 377-397: the selection loop over the classes; `ci` is the index of
the head of the list of scores. -/
def topk_loop (bscores_len : Nat) : List K → Nat →
    Nat × List (Option (bow_score K)) → Except Abort (Nat × List (Option (bow_score K)))
  | [], _, st => .ok st
  | x :: xs, ci, st =>
    match topk_step bscores_len ci x st with
    | .error a => .error a
    | .ok st1 => topk_loop bscores_len xs (ci + 1) st1

/-- Lines 375-400: the selection of the best classes into the buffer
`bscores`.  It returns `num_scores` and the buffer. -/
def select_scores (scores : List K) (bscores : List (Option (bow_score K)))
    (bscores_len : Nat) : Except Abort (Nat × List (Option (bow_score K))) :=
  topk_loop bscores_len scores 0 (0, bscores)

/-- Lines 169-327: the accumulators of all classes after the last query
word. -/
def accumulate_scores (L : libm K) (bow_uniform_class_priors : Bool)
    (barrel : bow_barrel K) (query_wv : bow_wv) (loo_class : Int) :
    Except Abort (List K) :=
  match init_scores L bow_uniform_class_priors
      barrel.method.params.score_with_log_probabilities loo_class barrel.cdocs with
  | .error a => .error a
  | .ok scores => word_loop L barrel loo_class query_wv.entry scores

/-- Lines 169-371: the normalised scores of all classes. -/
def class_scores (L : libm K) (bow_uniform_class_priors : Bool)
    (barrel : bow_barrel K) (query_wv : bow_wv) (loo_class : Int) :
    Except Abort (List K) :=
  match accumulate_scores L bow_uniform_class_priors barrel query_wv loo_class with
  | .error a => .error a
  | .ok scores =>
    match finish_scores L barrel.method.params.score_with_log_probabilities scores with
    | .error a => .error a
    | .ok scores1 => normalize_scores scores1

/-- The function `bow_naivebayes_score_loo`.  `bow_uniform_class_priors` is the
global flag of that name, `bscores` the buffer of the caller.  The result is
the returned `num_scores` with the buffer as the call leaves it. -/
def bow_naivebayes_score_loo (L : libm K) (bow_uniform_class_priors : Bool)
    (barrel : bow_barrel K) (query_wv : bow_wv)
    (bscores : List (Option (bow_score K))) (bscores_len : Nat) (loo_class : Int) :
    Except Abort (Nat × List (Option (bow_score K))) :=
  match class_scores L bow_uniform_class_priors barrel query_wv loo_class with
  | .error a => .error a
  | .ok scores => select_scores scores bscores bscores_len

/-- The function `bow_naivebayes_score`. -/
def bow_naivebayes_score (L : libm K) (bow_uniform_class_priors : Bool)
    (barrel : bow_barrel K) (query_wv : bow_wv)
    (bscores : List (Option (bow_score K))) (bscores_len : Nat) :
    Except Abort (Nat × List (Option (bow_score K))) :=
  bow_naivebayes_score_loo L bow_uniform_class_priors barrel query_wv bscores bscores_len (-1)

/-! ## Specification-level notions -/

/-- All entries of the word table, word by word. -/
def all_entries (b : bow_barrel K) : List (bow_de K) :=
  b.wi2dvf.entry.reduceOption.flatMap fun dv => dv.entry

/-- The sum of the counts of the entries of `es` that name the class `ci`. -/
def count_in (es : List (bow_de K)) (ci : Nat) : Int :=
  ((es.filter fun e => e.di = ci).map fun e => e.count).sum

/-- The total number of terms of the class `ci`: the sum of `rawCount` over
the entries of the whole word table whose class index is `ci`. -/
def class_total (b : bow_barrel K) (ci : Nat) : Int :=
  count_in (all_entries b) ci

/-- Every entry of the word table names a class of the catalog. -/
def valid_class_indices (b : bow_barrel K) : Prop :=
  ∀ e ∈ all_entries b, e.di < b.cdocs.length

/-- The word table has no entry list at a word index outside the global
vocabulary of `bow_num_words` words. -/
def table_within_vocabulary (bow_num_words : Nat) (b : bow_barrel K) : Prop :=
  ∀ slot ∈ b.wi2dvf.entry.drop bow_num_words, slot = none

/-- The `word_count` of the class `di` in a catalog (`0` outside it). -/
def word_count_at (cdocs : List (bow_cdoc K)) (di : Nat) : Int :=
  match cdocs[di]? with
  | some c => c.word_count
  | none => 0

/-- The Laplace estimate `(1 + rawCount) / (V + classWordCount)`. -/
def laplace_weight (V : Int) (cdocs : List (bow_cdoc K)) (e : bow_de K) : K :=
  ((1 + e.count : Int) : K) / ((V + word_count_at cdocs e.di : Int) : K)

/-- An entry with its weight replaced by the Laplace estimate. -/
def laplace_entry (V : Int) (cdocs : List (bow_cdoc K)) (e : bow_de K) : bow_de K :=
  { e with weight := laplace_weight V cdocs e }

/-- A document vector with Laplace weights and IDF `1`. -/
def laplace_dv (V : Int) (cdocs : List (bow_cdoc K)) (dv : bow_dv K) : bow_dv K :=
  { idf := 1, entry := dv.entry.map (laplace_entry V cdocs) }

/-- The catalog after the counts of `es` have been added. -/
def add_counts (es : List (bow_de K)) (cdocs : List (bow_cdoc K)) : List (bow_cdoc K) :=
  cdocs.mapIdx fun i c => { c with word_count := c.word_count + count_in es i }

/-- The entries that the loops over the word indices `wis` visit. -/
def visited (w : bow_wi2dvf K) (wis : List Nat) : List (bow_de K) :=
  (wis.filterMap (bow_wi2dvf_dv w)).flatMap fun dv => dv.entry

/-- The conditions under which line 111 computes the weight of `e` and the
check of line 115 accepts it. -/
def weight_accepted (V : Int) (cdocs : List (bow_cdoc K)) (e : bow_de K) : Prop :=
  e.di < cdocs.length ∧ ((V + word_count_at cdocs e.di : Int) : K) ≠ 0 ∧
    0 < laplace_weight V cdocs e

/-- The array of the word table after the slots `s, …, s + n - 1` have
received their weights. -/
def weigh_slots (V : Int) (cdocs : List (bow_cdoc K)) (s n : Nat)
    (entry : List (Option (bow_dv K))) : List (Option (bow_dv K)) :=
  entry.mapIdx fun i slot =>
    if s ≤ i ∧ i < s + n then slot.map (laplace_dv V cdocs) else slot

/-- The model of the worked example: a vocabulary of four words, the class
`A` (index `0`) with the counts `w1 : 3` and `w2 : 1`, the class `B` (index
`1`) with the count `w3 : 2`.  The stored word counts and weights are stale. -/
def two_class_barrel : bow_barrel ℚ :=
  { method := bow_method_naivebayes
    cdocs := [⟨.model, 1 / 2, 7⟩, ⟨.model, 1 / 2, -3⟩]
    wi2dvf :=
      { num_words := 4
        entry := [some ⟨0, [⟨0, 3, 0⟩]⟩, some ⟨0, [⟨0, 1, 0⟩]⟩, some ⟨0, [⟨1, 2, 0⟩]⟩, none] } }

/-- The model of the worked example after its weights have been set. -/
def two_class_barrel_weighted : bow_barrel ℚ :=
  { method := bow_method_naivebayes
    cdocs := [⟨.model, 1 / 2, 4⟩, ⟨.model, 1 / 2, 2⟩]
    wi2dvf :=
      { num_words := 4
        entry := [some ⟨1, [⟨0, 3, 1 / 2⟩]⟩, some ⟨1, [⟨0, 1, 1 / 4⟩]⟩,
          some ⟨1, [⟨1, 2, 1 / 2⟩]⟩, none] } }

/-! ### Specification of the selection -/

/-- The pairs (class index, score) in scan order, the first class having the
index `ci`. -/
def indexed_scores (ci : Nat) : List K → List (bow_score K)
  | [] => []
  | x :: xs => { di := ci, weight := x } :: indexed_scores (ci + 1) xs

/-- The order of a descending sort by score in which ties are kept in ascending
class-index order: `a` is placed before `b`. -/
def score_before (a b : bow_score K) : Prop :=
  b.weight < a.weight ∨ (b.weight = a.weight ∧ a.di ≤ b.di)

instance score_before_decidable : DecidableRel (score_before : bow_score K → bow_score K → Prop) :=
  fun a b => inferInstanceAs (Decidable (b.weight < a.weight ∨ (b.weight = a.weight ∧ a.di ≤ b.di)))

/-- The full sort of all classes by `score_before`, truncated to `k`. -/
def sorted_top (k : Nat) (scores : List K) : List (bow_score K) :=
  ((indexed_scores 0 scores).insertionSort score_before).take k

/-- The content of a buffer of `k` slots whose first slots hold `bs` and whose
other slots have not been written. -/
def buffer_of (k : Nat) (bs : List (bow_score K)) : List (Option (bow_score K)) :=
  bs.map some ++ List.replicate (k - bs.length) none

/-- The insertion of `x` behind the entries that are not smaller than it. -/
def insert_score (x : bow_score K) : List (bow_score K) → List (bow_score K)
  | [] => [x]
  | b :: bs => if b.weight < x.weight then x :: b :: bs else b :: insert_score x bs

/-- The selection loop on the list of the entries kept so far: every class
is inserted and the list is cut back to `k` entries. -/
def select_kept (k : Nat) : List K → Nat → List (bow_score K) → List (bow_score K)
  | [], _, bs => bs
  | x :: xs, ci, bs =>
    select_kept k xs (ci + 1) ((insert_score { di := ci, weight := x } bs).take k)

/-- A cross-entropy model with a single class, of prior `1`, and an empty
word table. -/
def one_class_barrel : bow_barrel K :=
  { method := bow_method_crossentropy
    cdocs := [⟨.model, 1, 0⟩]
    wi2dvf := { num_words := 1, entry := [] } }

/-! ### Order properties of `score_before` -/

instance score_before_total : IsTotal (bow_score K) score_before where
  total a b := by
    unfold score_before
    rcases lt_trichotomy a.weight b.weight with h | h | h
    · exact Or.inr (Or.inl h)
    · rcases Nat.le_total a.di b.di with hd | hd
      · exact Or.inl (Or.inr ⟨h.symm, hd⟩)
      · exact Or.inr (Or.inr ⟨h, hd⟩)
    · exact Or.inl (Or.inl h)

instance score_before_trans : IsTrans (bow_score K) score_before where
  trans a b c := by
    unfold score_before
    rintro (h1 | ⟨h1, d1⟩) (h2 | ⟨h2, d2⟩)
    · exact Or.inl (lt_trans h2 h1)
    · exact Or.inl (by rw [h2]; exact h1)
    · exact Or.inl (by rw [← h1]; exact h2)
    · exact Or.inr ⟨by rw [h2, h1], le_trans d1 d2⟩

instance score_before_antisymm : IsAntisymm (bow_score K) score_before where
  antisymm a b := by
    unfold score_before
    rintro (h1 | ⟨h1, d1⟩) (h2 | ⟨h2, d2⟩)
    · exact absurd h1 (lt_asymm h2)
    · rw [h2] at h1; exact absurd h1 (lt_irrefl _)
    · rw [h1] at h2; exact absurd h2 (lt_irrefl _)
    · cases a; cases b
      simp only [bow_score.mk.injEq]
      exact ⟨le_antisymm d1 d2, h2⟩

/-- The worked example with the priors `0` and `1`. -/
def zero_prior_barrel : bow_barrel ℚ :=
  { two_class_barrel with cdocs := [⟨.model, 0, 0⟩, ⟨.model, 1, 0⟩] }

/-- The worked example with the prior `-1` for the class `A`. -/
def negative_prior_barrel : bow_barrel ℚ :=
  { two_class_barrel with cdocs := [⟨.model, -1, 0⟩, ⟨.model, 1, 0⟩] }

/-- A model whose vocabulary size is recorded as `0` although its word table
holds one word, with the count `3` in the only class. -/
def empty_vocabulary_barrel : bow_barrel ℚ :=
  { method := bow_method_naivebayes
    cdocs := [⟨.model, 1, 0⟩]
    wi2dvf := { num_words := 0, entry := [some ⟨0, [⟨0, 3, 0⟩]⟩] } }

/-- A model with a corrupted count: the only word has the count `-1` in the
only class. -/
def negative_count_barrel : bow_barrel ℚ :=
  { method := bow_method_naivebayes
    cdocs := [⟨.model, 1, 0⟩]
    wi2dvf := { num_words := 4, entry := [some ⟨0, [⟨0, -1, 0⟩]⟩] } }

/-- The model `b` with its option `normalize_scores` set to `x`. -/
def set_normalize_scores (b : bow_barrel K) (x : Bool) : bow_barrel K :=
  { b with method := { b.method with params := { b.method.params with normalize_scores := x } } }

/-- A probability-mode model of two classes, with an empty word table, whose
option `normalize_scores` is switched off. -/
def unnormalized_barrel : bow_barrel K :=
  { method :=
      { name := "naivebayes"
        params := { uniform_priors := false, normalize_scores := false,
                    score_with_log_probabilities := false } }
    cdocs := [⟨.model, 1 / 2, 0⟩, ⟨.model, 1 / 2, 0⟩]
    wi2dvf := { num_words := 1, entry := [] } }

/-! ### Specification of the class loop by independent lookup -/

/-- The cursor `dvi` with which the round of the class `ci` reaches line 233:
it starts at `0` for the word and is advanced in the round of every class. -/
def cursor_at (entry : List (bow_de K)) : Nat → Nat
  | 0 => advance_dvi entry 0 entry.length 0
  | ci + 1 => advance_dvi entry (ci + 1) entry.length (cursor_at entry ci)

/-- The independent lookup of the entry of the class `ci` in an entry list. -/
def lookup_entry (entry : List (bow_de K)) (ci : Nat) : Option (bow_de K) :=
  entry.find? fun e => decide (e.di = ci)

/-- The class loop in which every class looks its entry up independently, with
no cursor. -/
def class_loop_by_lookup (L : libm K) (barrel : bow_barrel K) (dv : bow_dv K) (q : bow_we)
    (loo_class : Int) : List (bow_cdoc K) → List K → Nat → K → Except Abort (List K × K)
  | [], _, _, rescaler => .ok ([], rescaler)
  | _ :: _, [], _, _ => .error .index_out_of_bounds
  | cdoc :: cdocs, s :: ss, ci, rescaler =>
    if cdoc.type = bow_doc_type.model then
      match pr_w_c_of barrel cdoc (lookup_entry dv.entry ci)
          (decide (loo_class = (ci : Int))) q with
      | .error a => .error a
      | .ok pr_w_c =>
        match log_pr_tf_of L barrel.method.params.score_with_log_probabilities pr_w_c q with
        | .error a => .error a
        | .ok log_pr_tf =>
          let s1 := s + log_pr_tf
          let rescaler1 := if rescaler > s1 then s1 else rescaler
          match class_loop_by_lookup L barrel dv q loo_class cdocs ss (ci + 1) rescaler1 with
          | .error a => .error a
          | .ok (ss1, rescaler2) => .ok (s1 :: ss1, rescaler2)
    else .error (.assertion 225)

/-- A cross-entropy model of two classes, of priors `1/4` and `3/4`, with an
empty word table. -/
def entropy_barrel : bow_barrel K :=
  { method := bow_method_crossentropy
    cdocs := [⟨.model, 1 / 4, 0⟩, ⟨.model, 3 / 4, 0⟩]
    wi2dvf := { num_words := 1, entry := [] } }

/-! ### Specification of probability mode without rescaling -/

/-- The loop over the entries of the query when no rescaling is done: the
term of every known word is added to the accumulator of every class, and the
accumulators are left as they are between two words. -/
def unrescaled_word_loop (L : libm K) (barrel : bow_barrel K) (loo_class : Int) :
    List bow_we → List K → Except Abort (List K)
  | [], scores => .ok scores
  | q :: qs, scores =>
    match bow_wi2dvf_dv barrel.wi2dvf q.wi with
    | none => unrescaled_word_loop L barrel loo_class qs scores
    | some dv =>
      match class_loop L barrel dv q loo_class barrel.cdocs scores 0 0 DBL_MAX with
      | .error a => .error a
      | .ok (scores1, _) => unrescaled_word_loop L barrel loo_class qs scores1

/-- The un-rescaled sums `L_c`: the initial value of every class plus its
terms for the words of the query. -/
def unrescaled_accumulators (L : libm K) (bow_uniform_class_priors : Bool)
    (barrel : bow_barrel K) (query_wv : bow_wv) (loo_class : Int) :
    Except Abort (List K) :=
  match init_scores L bow_uniform_class_priors
      barrel.method.params.score_with_log_probabilities loo_class barrel.cdocs with
  | .error a => .error a
  | .ok scores => unrescaled_word_loop L barrel loo_class query_wv.entry scores

/-- The shares `exp (L_c) / sum_j exp (L_j)` of a list of sums. -/
def exp_shares (L : libm K) (sums : List K) : List K :=
  sums.map fun l => L.exp l / (sums.map L.exp).sum

/-- A probability-mode model of two classes, of priors `1/4` and `3/4`, whose
table holds one word that occurs in no class. -/
def rescaled_barrel : bow_barrel K :=
  { method := bow_method_naivebayes
    cdocs := [⟨.model, 1 / 4, 0⟩, ⟨.model, 3 / 4, 0⟩]
    wi2dvf := { num_words := 1, entry := [some ⟨1, []⟩] } }

/-- A model of one class and three words, each of which occurs `2000000000`
times in the class: every count is an `int`, their sum is not. -/
def overflow_barrel : bow_barrel ℚ :=
  { method := bow_method_naivebayes
    cdocs := [⟨.model, 1, 0⟩]
    wi2dvf :=
      { num_words := 3
        entry := [some ⟨0, [⟨0, 2000000000, 0⟩]⟩, some ⟨0, [⟨0, 2000000000, 0⟩]⟩,
          some ⟨0, [⟨0, 2000000000, 0⟩]⟩] } }

/-- A cross-entropy model of two words and two classes, with its weights set:
the class `A` (index `0`) holds each word once, the class `B` (index `1`)
holds the second word once. -/
def two_word_barrel : bow_barrel K :=
  { method := bow_method_crossentropy
    cdocs := [⟨.model, 1 / 2, 2⟩, ⟨.model, 1 / 2, 1⟩]
    wi2dvf :=
      { num_words := 2
        entry := [some ⟨1, [⟨0, 1, 1 / 2⟩]⟩, some ⟨1, [⟨0, 1, 1 / 2⟩, ⟨1, 1, 2 / 3⟩]⟩] } }

theorem count_in_nil (ci : Nat) : count_in ([] : List (bow_de K)) ci = 0 := by
  simp [count_in]

theorem count_in_cons (e : bow_de K) (es : List (bow_de K)) (ci : Nat) :
    count_in (e :: es) ci = (if e.di = ci then e.count else 0) + count_in es ci := by
  by_cases h : e.di = ci <;> simp [count_in, List.filter_cons, h]

theorem count_in_append (es₁ es₂ : List (bow_de K)) (ci : Nat) :
    count_in (es₁ ++ es₂) ci = count_in es₁ ci + count_in es₂ ci := by
  simp [count_in]

theorem length_add_counts (es : List (bow_de K)) (cdocs : List (bow_cdoc K)) :
    (add_counts es cdocs).length = cdocs.length := by
  simp [add_counts]

theorem add_counts_nil (cdocs : List (bow_cdoc K)) : add_counts [] cdocs = cdocs := by
  apply List.ext_getElem?
  intro i
  simp only [add_counts, List.getElem?_mapIdx, count_in_nil, add_zero]
  cases cdocs[i]? <;> rfl

theorem add_counts_cons (e : bow_de K) (es : List (bow_de K)) (cdocs : List (bow_cdoc K))
    (c : bow_cdoc K) (hc : cdocs[e.di]? = some c) :
    add_counts es (cdocs.set e.di { c with word_count := c.word_count + e.count })
      = add_counts (e :: es) cdocs := by
  have hlt : e.di < cdocs.length := (List.getElem?_eq_some.1 hc).1
  apply List.ext_getElem?
  intro i
  simp only [add_counts, List.getElem?_mapIdx, List.getElem?_set, count_in_cons]
  by_cases h : e.di = i
  · subst h
    simp [hlt, hc, add_assoc]
  · simp only [h, if_false, zero_add]

theorem add_counts_append (es₁ es₂ : List (bow_de K)) (cdocs : List (bow_cdoc K)) :
    add_counts es₂ (add_counts es₁ cdocs) = add_counts (es₁ ++ es₂) cdocs := by
  apply List.ext_getElem?
  intro i
  simp only [add_counts, List.getElem?_mapIdx, count_in_append]
  cases cdocs[i]? <;> simp [add_assoc]

theorem add_dv_counts_iff (es : List (bow_de K)) (cdocs cdocs1 : List (bow_cdoc K)) :
    add_dv_counts es cdocs = .ok cdocs1 ↔
      (∀ e ∈ es, e.di < cdocs.length) ∧ cdocs1 = add_counts es cdocs := by
  induction es generalizing cdocs with
  | nil => simp [add_dv_counts, add_counts_nil, eq_comm]
  | cons e es ih =>
    simp only [add_dv_counts, bow_array_entry_at_index]
    cases hc : cdocs[e.di]? with
    | none =>
      have : cdocs.length ≤ e.di := List.getElem?_eq_none_iff.1 hc
      simp
      intro h
      omega
    | some c =>
      have hlt : e.di < cdocs.length := (List.getElem?_eq_some.1 hc).1
      simp only [ih, List.length_set, add_counts_cons e es cdocs c hc]
      simp [hlt]

theorem visited_cons_none (w : bow_wi2dvf K) (wi : Nat) (wis : List Nat)
    (h : bow_wi2dvf_dv w wi = none) : visited w (wi :: wis) = visited w wis := by
  simp [visited, List.filterMap_cons, h]

theorem visited_cons_some (w : bow_wi2dvf K) (wi : Nat) (wis : List Nat) (dv : bow_dv K)
    (h : bow_wi2dvf_dv w wi = some dv) :
    visited w (wi :: wis) = dv.entry ++ visited w wis := by
  simp [visited, List.filterMap_cons, h]

theorem count_words_iff (w : bow_wi2dvf K) (wis : List Nat) (cdocs cdocs1 : List (bow_cdoc K)) :
    count_words w wis cdocs = .ok cdocs1 ↔
      (∀ e ∈ visited w wis, e.di < cdocs.length) ∧ cdocs1 = add_counts (visited w wis) cdocs := by
  induction wis generalizing cdocs with
  | nil => simp [count_words, visited, add_counts_nil, eq_comm]
  | cons wi wis ih =>
    simp only [count_words]
    cases h : bow_wi2dvf_dv w wi with
    | none => simp only [ih, visited_cons_none w wi wis h]
    | some dv =>
      simp only [visited_cons_some w wi wis dv h, List.mem_append]
      cases h2 : add_dv_counts dv.entry cdocs with
      | error a =>
        simp only [false_iff, reduceCtorEq]
        rintro ⟨hall, -⟩
        have := (add_dv_counts_iff dv.entry cdocs (add_counts dv.entry cdocs)).2
          ⟨fun e he => hall e (Or.inl he), rfl⟩
        rw [h2] at this
        cases this
      | ok cdocs2 =>
        obtain ⟨hall, rfl⟩ := (add_dv_counts_iff _ _ _).1 h2
        simp only [ih, length_add_counts, add_counts_append]
        constructor
        · rintro ⟨h3, rfl⟩
          exact ⟨fun e he => he.elim (hall e) (h3 e), rfl⟩
        · rintro ⟨h3, rfl⟩
          exact ⟨fun e he => h3 e (Or.inr he), rfl⟩

theorem set_dv_weights_iff (V : Int) (cdocs : List (bow_cdoc K)) (es es1 : List (bow_de K)) :
    set_dv_weights V cdocs es = .ok es1 ↔
      (∀ e ∈ es, weight_accepted V cdocs e) ∧ es1 = es.map (laplace_entry V cdocs) := by
  induction es generalizing es1 with
  | nil => simp [set_dv_weights, eq_comm]
  | cons e es ih =>
    simp only [set_dv_weights, bow_array_entry_at_index, List.forall_mem_cons, List.map_cons]
    cases hc : cdocs[e.di]? with
    | none =>
      have : cdocs.length ≤ e.di := List.getElem?_eq_none_iff.1 hc
      simp only [false_iff, reduceCtorEq]
      rintro ⟨⟨⟨h, -⟩, -⟩, -⟩
      omega
    | some c =>
      have hlt : e.di < cdocs.length := (List.getElem?_eq_some.1 hc).1
      have hwc : word_count_at cdocs e.di = c.word_count := by simp [word_count_at, hc]
      by_cases hz : ((V + c.word_count : Int) : K) = 0
      · simp only [fdiv, hz, if_true, false_iff, reduceCtorEq]
        rintro ⟨⟨⟨-, h, -⟩, -⟩, -⟩
        exact h (by rw [hwc]; exact hz)
      · simp only [fdiv, hz, if_false]
        have hw : laplace_weight V cdocs e
            = ((1 + e.count : Int) : K) / ((V + c.word_count : Int) : K) := by
          simp [laplace_weight, hwc]
        by_cases hp : 0 < ((1 + e.count : Int) : K) / ((V + c.word_count : Int) : K)
        · simp only [hp, if_true]
          cases h2 : set_dv_weights V cdocs es with
          | error a =>
            simp only [false_iff, reduceCtorEq]
            rintro ⟨⟨-, hall⟩, -⟩
            have := (ih (es.map (laplace_entry V cdocs))).2 ⟨hall, rfl⟩
            rw [h2] at this
            cases this
          | ok es2 =>
            obtain ⟨hall, rfl⟩ := (ih es2).1 h2
            have hacc : weight_accepted V cdocs e := ⟨hlt, by rw [hwc]; exact hz, by rw [hw]; exact hp⟩
            simp only [Except.ok.injEq, hacc, true_and]
            simp only [laplace_entry, hw, eq_comm]
            exact ⟨fun h => ⟨hall, h⟩, fun h => h.2⟩
        · simp only [hp, if_false, false_iff, reduceCtorEq]
          rintro ⟨⟨⟨-, -, h⟩, -⟩, -⟩
          exact hp (by rw [← hw]; exact h)

theorem visited_congr (w w2 : bow_wi2dvf K) (wis : List Nat)
    (h : ∀ i ∈ wis, bow_wi2dvf_dv w2 i = bow_wi2dvf_dv w i) :
    visited w2 wis = visited w wis := by
  induction wis with
  | nil => rfl
  | cons i wis ih =>
    have hi := h i (List.mem_cons_self _ _)
    have ih2 := ih fun j hj => h j (List.mem_cons_of_mem _ hj)
    simp only [visited, List.filterMap_cons, hi] at ih2 ⊢
    cases bow_wi2dvf_dv w i <;> simp [ih2]

theorem bow_wi2dvf_dv_set_ne (w : bow_wi2dvf K) (s i : Nat) (x : Option (bow_dv K))
    (h : s ≠ i) :
    bow_wi2dvf_dv { w with entry := w.entry.set s x } i = bow_wi2dvf_dv w i := by
  simp [bow_wi2dvf_dv, List.getElem?_set, h]

theorem weigh_slots_zero (V : Int) (cdocs : List (bow_cdoc K)) (s : Nat)
    (entry : List (Option (bow_dv K))) : weigh_slots V cdocs s 0 entry = entry := by
  apply List.ext_getElem?
  intro i
  simp only [weigh_slots, List.getElem?_mapIdx]
  have : ¬ (s ≤ i ∧ i < s + 0) := by omega
  simp only [this, if_false]
  cases entry[i]? <;> rfl

theorem weigh_slots_succ_none (V : Int) (cdocs : List (bow_cdoc K)) (s n : Nat)
    (w : bow_wi2dvf K) (h : bow_wi2dvf_dv w s = none) :
    weigh_slots V cdocs s (n + 1) w.entry = weigh_slots V cdocs (s + 1) n w.entry := by
  apply List.ext_getElem?
  intro i
  simp only [weigh_slots, List.getElem?_mapIdx]
  by_cases hi : i = s
  · subst hi
    have h1 : ¬ (i + 1 ≤ i ∧ i < i + 1 + n) := by omega
    have h2 : (i ≤ i ∧ i < i + (n + 1)) := by omega
    simp only [h1, h2, if_true, if_false]
    unfold bow_wi2dvf_dv at h
    cases hs : w.entry[i]? with
    | none => rfl
    | some slot =>
      cases slot with
      | none => rfl
      | some dv => simp [hs] at h
  · have : (s ≤ i ∧ i < s + (n + 1)) ↔ (s + 1 ≤ i ∧ i < s + 1 + n) := by omega
    simp only [this]

theorem weigh_slots_succ_some (V : Int) (cdocs : List (bow_cdoc K)) (s n : Nat)
    (w : bow_wi2dvf K) (dv : bow_dv K) (h : bow_wi2dvf_dv w s = some dv) :
    weigh_slots V cdocs (s + 1) n (w.entry.set s (some (laplace_dv V cdocs dv)))
      = weigh_slots V cdocs s (n + 1) w.entry := by
  have hs : w.entry[s]? = some (some dv) := by
    unfold bow_wi2dvf_dv at h
    cases hs : w.entry[s]? with
    | none => simp [hs] at h
    | some slot =>
      cases slot with
      | none => simp [hs] at h
      | some dv2 => simp [hs] at h; rw [h]
  have hlt : s < w.entry.length := (List.getElem?_eq_some.1 hs).1
  apply List.ext_getElem?
  intro i
  simp only [weigh_slots, List.getElem?_mapIdx, List.getElem?_set]
  by_cases hi : s = i
  · subst hi
    have h1 : ¬ (s + 1 ≤ s ∧ s < s + 1 + n) := by omega
    have h2 : (s ≤ s ∧ s < s + (n + 1)) := by omega
    simp [h1, h2, hlt, hs]
  · have : (s ≤ i ∧ i < s + (n + 1)) ↔ (s + 1 ≤ i ∧ i < s + 1 + n) := by omega
    simp only [hi, this, if_false]

theorem weight_words_iff (cdocs : List (bow_cdoc K)) (n s : Nat) (w w1 : bow_wi2dvf K) :
    weight_words cdocs (List.range' s n) w = .ok w1 ↔
      (∀ e ∈ visited w (List.range' s n), weight_accepted w.num_words cdocs e) ∧
        w1 = { w with entry := weigh_slots w.num_words cdocs s n w.entry } := by
  induction n generalizing s w with
  | zero => simp [weight_words, visited, weigh_slots_zero, eq_comm]
  | succ n ih =>
    simp only [List.range'_succ, weight_words]
    cases h : bow_wi2dvf_dv w s with
    | none =>
      simp only [ih, visited_cons_none w s _ h, weigh_slots_succ_none _ _ _ _ _ h]
    | some dv =>
      simp only [visited_cons_some w s _ dv h, List.mem_append]
      cases h2 : set_dv_weights w.num_words cdocs dv.entry with
      | error a =>
        simp only [false_iff, reduceCtorEq]
        rintro ⟨hall, -⟩
        have := (set_dv_weights_iff w.num_words cdocs dv.entry _).2
          ⟨fun e he => hall e (Or.inl he), rfl⟩
        rw [h2] at this
        cases this
      | ok es1 =>
        obtain ⟨hall, rfl⟩ := (set_dv_weights_iff _ _ _ _).1 h2
        have hv : visited { w with entry := w.entry.set s (some (laplace_dv w.num_words cdocs dv)) }
            (List.range' (s + 1) n) = visited w (List.range' (s + 1) n) := by
          apply visited_congr
          intro i hi
          apply bow_wi2dvf_dv_set_ne
          have := (List.mem_range'_1.1 hi).1
          omega
        have := ih (s + 1) { w with entry := w.entry.set s (some (laplace_dv w.num_words cdocs dv)) }
        simp only [laplace_dv] at this hv
        simp only [this, hv]
        have hws := weigh_slots_succ_some w.num_words cdocs s n w dv h
        simp only [laplace_dv] at hws
        simp only [hws]
        constructor
        · rintro ⟨h3, rfl⟩
          exact ⟨fun e he => he.elim (hall e) (h3 e), rfl⟩
        · rintro ⟨h3, rfl⟩
          exact ⟨fun e he => h3 e (Or.inr he), rfl⟩

theorem filterMap_dv_range (w : bow_wi2dvf K) (m : Nat) :
    (List.range m).filterMap (bow_wi2dvf_dv w) = (w.entry.take m).reduceOption := by
  induction m with
  | zero => simp
  | succ m ih =>
    rw [List.range_succ, List.filterMap_append, ih, List.take_succ, List.reduceOption_append]
    congr 1
    cases hs : w.entry[m]? with
    | none => simp [bow_wi2dvf_dv, hs]
    | some slot => cases slot <;> simp [bow_wi2dvf_dv, hs, List.reduceOption]

theorem reduceOption_all_none {α : Type} (l : List (Option α)) (h : ∀ x ∈ l, x = none) :
    l.reduceOption = [] := by
  induction l with
  | nil => rfl
  | cons x l ih =>
    have hx := h x (List.mem_cons_self _ _)
    subst hx
    simpa [List.reduceOption] using ih fun y hy => h y (List.mem_cons_of_mem _ hy)

theorem take_min_length {α : Type} (l : List α) (n : Nat) :
    l.take (min l.length n) = l.take n := by
  rcases Nat.le_total l.length n with h | h
  · rw [Nat.min_eq_left h, List.take_of_length_le h, List.take_of_length_le (le_refl _)]
  · rw [Nat.min_eq_right h]

theorem visited_range (nw : Nat) (b : bow_barrel K) (h : table_within_vocabulary nw b) :
    visited b.wi2dvf (List.range (min b.wi2dvf.size nw)) = all_entries b := by
  unfold visited all_entries
  rw [filterMap_dv_range, bow_wi2dvf.size, take_min_length]
  have h2 : (b.wi2dvf.entry.drop nw).reduceOption = [] := reduceOption_all_none _ h
  conv_rhs => rw [← List.take_append_drop nw b.wi2dvf.entry, List.reduceOption_append, h2,
    List.append_nil]

theorem weigh_slots_all (nw : Nat) (b : bow_barrel K) (cdocs : List (bow_cdoc K))
    (h : table_within_vocabulary nw b) :
    weigh_slots b.wi2dvf.num_words cdocs 0 (min b.wi2dvf.size nw) b.wi2dvf.entry
      = b.wi2dvf.entry.map (Option.map (laplace_dv b.wi2dvf.num_words cdocs)) := by
  apply List.ext_getElem?
  intro i
  simp only [weigh_slots, List.getElem?_mapIdx, List.getElem?_map, bow_wi2dvf.size]
  cases hs : b.wi2dvf.entry[i]? with
  | none => rfl
  | some slot =>
    have hlt : i < b.wi2dvf.entry.length := (List.getElem?_eq_some.1 hs).1
    by_cases hi : i < nw
    · have : 0 ≤ i ∧ i < 0 + min b.wi2dvf.entry.length nw := by
        constructor
        · omega
        · rw [Nat.zero_add]; exact lt_min hlt hi
      simp only [Option.map_some', this, and_self, if_true]
    · have hnone : slot = none := by
        apply h
        apply List.mem_iff_getElem?.2
        refine ⟨i - nw, ?_⟩
        rw [List.getElem?_drop]
        have : nw + (i - nw) = i := by omega
        rw [this, hs]
      subst hnone
      simp

theorem check_priors_iff (cdocs : List (bow_cdoc K)) :
    check_priors cdocs = .ok () ↔ ∀ c ∈ cdocs, 0 ≤ c.prior := by
  induction cdocs with
  | nil => simp [check_priors]
  | cons c cs ih =>
    by_cases h : 0 ≤ c.prior <;> simp [check_priors, h, ih]

theorem length_reset_word_counts (cdocs : List (bow_cdoc K)) :
    (reset_word_counts cdocs).length = cdocs.length := by
  simp [reset_word_counts]

/-- A run of `bow_naivebayes_set_weights` completes exactly when its checks
pass, and then leaves the class totals and the Laplace weights. -/
theorem set_weights_iff (nw : Nat) (b b1 : bow_barrel K) (h : table_within_vocabulary nw b) :
    bow_naivebayes_set_weights nw b = .ok b1 ↔
      (b.method.name = "naivebayes" ∨ b.method.name = "crossentropy") ∧
      (∀ c ∈ b.cdocs, 0 ≤ c.prior) ∧
      valid_class_indices b ∧
      (∀ e ∈ all_entries b, weight_accepted b.wi2dvf.num_words
          (add_counts (all_entries b) (reset_word_counts b.cdocs)) e) ∧
      b1 = { b with
        cdocs := add_counts (all_entries b) (reset_word_counts b.cdocs)
        wi2dvf := { b.wi2dvf with
          entry := b.wi2dvf.entry.map (Option.map (laplace_dv b.wi2dvf.num_words
            (add_counts (all_entries b) (reset_word_counts b.cdocs)))) } } := by
  have hcw := count_words_iff b.wi2dvf (List.range (min b.wi2dvf.size nw))
    (reset_word_counts b.cdocs)
  have hww := weight_words_iff (add_counts (all_entries b) (reset_word_counts b.cdocs))
    (min b.wi2dvf.size nw) 0 b.wi2dvf
  rw [← List.range_eq_range'] at hww
  rw [visited_range nw b h] at hcw hww
  rw [weigh_slots_all nw b _ h] at hww
  rw [length_reset_word_counts] at hcw
  unfold bow_naivebayes_set_weights
  constructor
  · intro hrun
    by_cases hm : b.method.name = "naivebayes" ∨ b.method.name = "crossentropy"
    swap
    · simp only [hm, if_false, reduceCtorEq] at hrun
    simp only [hm, if_true] at hrun
    cases hp : check_priors b.cdocs with
    | error a => simp only [hp, reduceCtorEq] at hrun
    | ok u =>
      simp only [hp] at hrun
      cases hc : count_words b.wi2dvf (List.range (min b.wi2dvf.size nw))
          (reset_word_counts b.cdocs) with
      | error a => simp only [hc, reduceCtorEq] at hrun
      | ok cdocs1 =>
        simp only [hc] at hrun
        obtain ⟨hv, rfl⟩ := (hcw cdocs1).1 hc
        cases hw : weight_words (add_counts (all_entries b) (reset_word_counts b.cdocs))
            (List.range (min b.wi2dvf.size nw)) b.wi2dvf with
        | error a => simp only [hw, reduceCtorEq] at hrun
        | ok w1 =>
          simp only [hw, Except.ok.injEq] at hrun
          obtain ⟨hall, rfl⟩ := (hww w1).1 hw
          exact ⟨hm, (check_priors_iff _).1 hp, hv, hall, hrun.symm⟩
  · rintro ⟨hm, hp, hv, hall, rfl⟩
    simp only [hm, if_true, (check_priors_iff _).2 hp, (hcw _).2 ⟨hv, rfl⟩,
      (hww _).2 ⟨hall, rfl⟩]

theorem getElem?_add_counts_reset (es : List (bow_de K)) (cdocs : List (bow_cdoc K)) (ci : Nat) :
    (add_counts es (reset_word_counts cdocs))[ci]?
      = (cdocs[ci]?).map fun c => { c with word_count := count_in es ci } := by
  simp only [add_counts, reset_word_counts, List.getElem?_mapIdx, List.getElem?_map]
  cases cdocs[ci]? <;> simp

theorem length_add_counts_reset (es : List (bow_de K)) (cdocs : List (bow_cdoc K)) :
    (add_counts es (reset_word_counts cdocs)).length = cdocs.length := by
  rw [length_add_counts, length_reset_word_counts]

theorem word_count_at_add_counts_reset (es : List (bow_de K)) (cdocs : List (bow_cdoc K))
    (ci : Nat) (h : ci < cdocs.length) :
    word_count_at (add_counts es (reset_word_counts cdocs)) ci = count_in es ci := by
  unfold word_count_at
  rw [getElem?_add_counts_reset, List.getElem?_eq_getElem h]
  rfl

theorem map_word_count_add_counts_reset (es : List (bow_de K)) (cdocs : List (bow_cdoc K)) :
    (add_counts es (reset_word_counts cdocs)).map (fun c => c.word_count)
      = (List.range cdocs.length).map (count_in es) := by
  apply List.ext_getElem?
  intro i
  rw [List.getElem?_map, getElem?_add_counts_reset, List.getElem?_map]
  by_cases h : i < cdocs.length
  · rw [List.getElem?_eq_getElem h, List.getElem?_range h]
    rfl
  · rw [List.getElem?_eq_none_iff.2 (not_lt.1 h),
      List.getElem?_eq_none_iff.2 (by simpa using not_lt.1 h)]
    rfl

theorem sum_count_in_range (es : List (bow_de K)) (n : Nat) (h : ∀ e ∈ es, e.di < n) :
    ((List.range n).map (count_in es)).sum = (es.map fun e => e.count).sum := by
  induction es with
  | nil =>
    have : count_in ([] : List (bow_de K)) = fun _ => 0 := funext count_in_nil
    simp [this]
  | cons e es ih =>
    have hlt : e.di < n := h e (List.mem_cons_self _ _)
    have ih2 := ih fun x hx => h x (List.mem_cons_of_mem _ hx)
    have hfun : count_in (e :: es) = fun ci => (if e.di = ci then e.count else 0) + count_in es ci :=
      funext fun ci => count_in_cons e es ci
    rw [hfun, List.sum_map_add, ih2, List.map_cons, List.sum_cons]
    congr 1
    rw [← List.sum_toFinset _ (List.nodup_range n), Finset.sum_ite_eq]
    simp [hlt]

theorem count_le_count_in (es : List (bow_de K)) (h : ∀ e ∈ es, 0 ≤ e.count) :
    ∀ e ∈ es, e.count ≤ count_in es e.di := by
  induction es with
  | nil => simp
  | cons x es ih =>
    have hx : 0 ≤ x.count := h x (List.mem_cons_self _ _)
    have h2 : ∀ e ∈ es, 0 ≤ e.count := fun e he => h e (List.mem_cons_of_mem _ he)
    have hnn : ∀ ci, 0 ≤ count_in es ci := by
      intro ci
      unfold count_in
      apply List.sum_nonneg
      intro y hy
      obtain ⟨e, he, rfl⟩ := List.mem_map.1 hy
      exact h2 e (List.mem_filter.1 he).1
    intro e he
    rw [count_in_cons]
    rcases List.mem_cons.1 he with rfl | he2
    · simp only [if_true]
      have := hnn e.di
      omega
    · have := ih h2 e he2
      split <;> omega

/-- On a model with a vocabulary of at least one word and no negative count,
line 111 divides by a positive number and the weight lies in `(0, 1]`. -/
theorem laplace_weight_bounds (b : bow_barrel K) (hV : 1 ≤ b.wi2dvf.num_words)
    (hcount : ∀ e ∈ all_entries b, 0 ≤ e.count) (hvalid : valid_class_indices b) :
    ∀ e ∈ all_entries b,
      weight_accepted b.wi2dvf.num_words
          (add_counts (all_entries b) (reset_word_counts b.cdocs)) e ∧
        laplace_weight b.wi2dvf.num_words
          (add_counts (all_entries b) (reset_word_counts b.cdocs)) e ≤ 1 := by
  intro e he
  have hlt : e.di < b.cdocs.length := hvalid e he
  have hwc := word_count_at_add_counts_reset (all_entries b) b.cdocs e.di hlt
  have hle := count_le_count_in (all_entries b) hcount e he
  have hc := hcount e he
  have hnum : (0 : K) < ((1 + e.count : Int) : K) := by
    exact_mod_cast (by omega : (0 : Int) < 1 + e.count)
  have hden : (0 : K) < ((b.wi2dvf.num_words + count_in (all_entries b) e.di : Int) : K) := by
    exact_mod_cast (by omega : (0 : Int) < b.wi2dvf.num_words + count_in (all_entries b) e.di)
  have hnd : ((1 + e.count : Int) : K)
      ≤ ((b.wi2dvf.num_words + count_in (all_entries b) e.di : Int) : K) := by
    exact_mod_cast (by omega : 1 + e.count ≤ b.wi2dvf.num_words + count_in (all_entries b) e.di)
  refine ⟨⟨?_, ?_, ?_⟩, ?_⟩
  · rw [length_add_counts_reset]; exact hlt
  · rw [hwc]; exact ne_of_gt hden
  · unfold laplace_weight; rw [hwc]; exact div_pos hnum hden
  · unfold laplace_weight; rw [hwc]; exact (div_le_one hden).2 hnd

/-- On such a model the run is stopped by nothing but the two checks of its
first lines. -/
theorem set_weights_completes (nw : Nat) (b : bow_barrel K)
    (hvoc : table_within_vocabulary nw b) (hV : 1 ≤ b.wi2dvf.num_words)
    (hcount : ∀ e ∈ all_entries b, 0 ≤ e.count) (hvalid : valid_class_indices b)
    (hm : b.method.name = "naivebayes" ∨ b.method.name = "crossentropy")
    (hp : ∀ c ∈ b.cdocs, 0 ≤ c.prior) :
    ∃ b1, bow_naivebayes_set_weights nw b = .ok b1 :=
  ⟨_, (set_weights_iff nw b _ hvoc).2
    ⟨hm, hp, hvalid, fun e he => (laplace_weight_bounds b hV hcount hvalid e he).1, rfl⟩⟩

theorem all_entries_weighted (b : bow_barrel K) (V : Int) (cdocs : List (bow_cdoc K))
    (b1 : bow_barrel K)
    (h : b1.wi2dvf.entry = b.wi2dvf.entry.map (Option.map (laplace_dv V cdocs))) :
    all_entries b1 = (all_entries b).map (laplace_entry V cdocs) := by
  unfold all_entries
  rw [h, List.reduceOption_map, List.flatMap_map, List.map_flatMap]
  rfl

theorem two_class_barrel_run :
    bow_naivebayes_set_weights 4 two_class_barrel = .ok two_class_barrel_weighted := by
  simp [bow_naivebayes_set_weights, two_class_barrel, two_class_barrel_weighted,
    bow_method_naivebayes, bow_wi2dvf.size, check_priors, count_words, reset_word_counts,
    List.range, List.range.loop, bow_wi2dvf_dv, add_dv_counts, bow_array_entry_at_index,
    weight_words, set_dv_weights, fdiv]
  norm_num

theorem two_class_barrel_valid : valid_class_indices two_class_barrel := by
  intro e he
  simp [all_entries, two_class_barrel, List.reduceOption] at he
  rcases he with rfl | rfl | rfl <;> simp [two_class_barrel]

theorem two_class_barrel_vocabulary : table_within_vocabulary 4 two_class_barrel := by
  intro slot hs
  simp [two_class_barrel] at hs

/-- C1: on a model whose entries all name classes of the catalog, a completed
run of `bow_naivebayes_set_weights` leaves every entry of the word table with
its class index and count unchanged and with the weight
`(1 + rawCount) / (V + classWordCount)`, where `V` is `wi2dvf->num_words` and
`classWordCount` the `word_count` that this run stored for the class of the
entry.  The run completes exactly when the two checks of its first lines pass
and every such quotient has a non-zero divisor and is positive. -/
theorem set_weights_laplace (nw : Nat) (b : bow_barrel K)
    (hvalid : valid_class_indices b) (hvoc : table_within_vocabulary nw b) :
    (∀ b1, bow_naivebayes_set_weights nw b = .ok b1 →
      b1.wi2dvf.num_words = b.wi2dvf.num_words ∧
      b1.wi2dvf.entry = b.wi2dvf.entry.map (Option.map fun dv =>
        { idf := 1
          entry := dv.entry.map fun e =>
            { e with
              weight := ((1 + e.count : Int) : K)
                / ((b.wi2dvf.num_words + word_count_at b1.cdocs e.di : Int) : K) } })) ∧
    ((∃ b1, bow_naivebayes_set_weights nw b = .ok b1) ↔
      (b.method.name = "naivebayes" ∨ b.method.name = "crossentropy") ∧
      (∀ c ∈ b.cdocs, 0 ≤ c.prior) ∧
      ∀ e ∈ all_entries b,
        ((b.wi2dvf.num_words + class_total b e.di : Int) : K) ≠ 0 ∧
        0 < ((1 + e.count : Int) : K) / ((b.wi2dvf.num_words + class_total b e.di : Int) : K)) := by
  have hwc : ∀ e ∈ all_entries b,
      word_count_at (add_counts (all_entries b) (reset_word_counts b.cdocs)) e.di
        = class_total b e.di := fun e he =>
    word_count_at_add_counts_reset (all_entries b) b.cdocs e.di (hvalid e he)
  constructor
  · intro b1 hrun
    obtain ⟨-, -, -, -, rfl⟩ := (set_weights_iff nw b b1 hvoc).1 hrun
    exact ⟨rfl, rfl⟩
  · constructor
    · rintro ⟨b1, hrun⟩
      obtain ⟨hm, hp, -, hacc, -⟩ := (set_weights_iff nw b b1 hvoc).1 hrun
      refine ⟨hm, hp, fun e he => ?_⟩
      obtain ⟨-, h1, h2⟩ := hacc e he
      unfold laplace_weight at h2
      rw [hwc e he] at h1 h2
      exact ⟨h1, h2⟩
    · rintro ⟨hm, hp, hacc⟩
      refine ⟨_, (set_weights_iff nw b _ hvoc).2 ⟨hm, hp, hvalid, fun e he => ?_, rfl⟩⟩
      obtain ⟨h1, h2⟩ := hacc e he
      refine ⟨by rw [length_add_counts_reset]; exact hvalid e he, ?_, ?_⟩
      · rw [hwc e he]; exact h1
      · unfold laplace_weight; rw [hwc e he]; exact h2

/-- Witness for C1: the worked example (`V = 4`, class `A` with `w1 : 3` and
`w2 : 1`, class `B` with `w3 : 2`) gets the weights `1/2`, `1/4` and `1/2`. -/
theorem set_weights_laplace_witness :
    bow_naivebayes_set_weights 4 two_class_barrel = .ok two_class_barrel_weighted ∧
    two_class_barrel_weighted.wi2dvf.entry
      = [some ⟨1, [⟨0, 3, 1 / 2⟩]⟩, some ⟨1, [⟨0, 1, 1 / 4⟩]⟩, some ⟨1, [⟨1, 2, 1 / 2⟩]⟩, none] ∧
    two_class_barrel_weighted.wi2dvf.entry
      = two_class_barrel.wi2dvf.entry.map (Option.map fun dv =>
        { idf := 1
          entry := dv.entry.map fun e =>
            { e with
              weight := ((1 + e.count : Int) : ℚ)
                / ((two_class_barrel.wi2dvf.num_words
                    + word_count_at two_class_barrel_weighted.cdocs e.di : Int) : ℚ) } }) :=
  ⟨two_class_barrel_run, rfl,
    ((set_weights_laplace 4 two_class_barrel two_class_barrel_valid
      two_class_barrel_vocabulary).1 _ two_class_barrel_run).2⟩

/-- With the sums of line 90 taken over the integers: on a model whose entries
all name classes of the catalog, a completed run of
`bow_naivebayes_set_weights` leaves in every class record, whatever its
`word_count` was before, the sum of the counts of exactly the entries of the
word table that name this class; so the word counts of all classes sum to the
sum of all counts of the word table.  On a model with a non-empty vocabulary,
no negative count and no negative prior the run completes. -/
theorem set_weights_word_count (nw : Nat) (b : bow_barrel K)
    (hvalid : valid_class_indices b) (hvoc : table_within_vocabulary nw b) :
    (∀ b1, bow_naivebayes_set_weights nw b = .ok b1 →
      b1.cdocs.length = b.cdocs.length ∧
      (∀ (ci : Nat) (c : bow_cdoc K), b.cdocs[ci]? = some c →
        b1.cdocs[ci]? = some { c with
          word_count := (((all_entries b).filter fun e => e.di = ci).map fun e => e.count).sum }) ∧
      (b1.cdocs.map fun c => c.word_count).sum = ((all_entries b).map fun e => e.count).sum) ∧
    ((b.method.name = "naivebayes" ∨ b.method.name = "crossentropy") →
      (∀ c ∈ b.cdocs, 0 ≤ c.prior) → 1 ≤ b.wi2dvf.num_words →
      (∀ e ∈ all_entries b, 0 ≤ e.count) →
      ∃ b1, bow_naivebayes_set_weights nw b = .ok b1) := by
  constructor
  · intro b1 hrun
    obtain ⟨-, -, -, -, rfl⟩ := (set_weights_iff nw b b1 hvoc).1 hrun
    refine ⟨length_add_counts_reset _ _, ?_, ?_⟩
    · intro ci c hc
      show (add_counts (all_entries b) (reset_word_counts b.cdocs))[ci]? = _
      rw [getElem?_add_counts_reset, hc]
      rfl
    · show ((add_counts (all_entries b) (reset_word_counts b.cdocs)).map
        fun c => c.word_count).sum = _
      rw [map_word_count_add_counts_reset, sum_count_in_range _ _ hvalid]
  · intro hm hp hV hcount
    exact set_weights_completes nw b hvoc hV hcount hvalid hm hp

/-- The worked example: the stale word counts `7` and `-3` are replaced by `4`
and `2`, which sum to `3 + 1 + 2`. -/
theorem set_weights_word_count_witness :
    bow_naivebayes_set_weights 4 two_class_barrel = .ok two_class_barrel_weighted ∧
    (two_class_barrel.cdocs.map fun c => c.word_count) = [7, -3] ∧
    (two_class_barrel_weighted.cdocs.map fun c => c.word_count) = [4, 2] ∧
    (two_class_barrel_weighted.cdocs.map fun c => c.word_count).sum
      = ((all_entries two_class_barrel).map fun e => e.count).sum :=
  ⟨two_class_barrel_run, rfl, rfl,
    ((set_weights_word_count 4 two_class_barrel two_class_barrel_valid
      two_class_barrel_vocabulary).1 _ two_class_barrel_run).2.2⟩

/-- C3: on a valid model (a vocabulary of at least one word, no negative
count, every entry naming a class of the catalog) every weight that a
completed run of `bow_naivebayes_set_weights` has written satisfies
`0 < w ≤ 1`; and the run completes as soon as the checks of the method name
and of the priors pass, so the check of line 115 never stops it. -/
theorem set_weights_weight_bounds (nw : Nat) (b : bow_barrel K)
    (hV : 1 ≤ b.wi2dvf.num_words) (hcount : ∀ e ∈ all_entries b, 0 ≤ e.count)
    (hvalid : valid_class_indices b) (hvoc : table_within_vocabulary nw b) :
    (∀ b1, bow_naivebayes_set_weights nw b = .ok b1 →
      (all_entries b1).length = (all_entries b).length ∧
      ∀ e ∈ all_entries b1, 0 < e.weight ∧ e.weight ≤ 1) ∧
    ((b.method.name = "naivebayes" ∨ b.method.name = "crossentropy") →
      (∀ c ∈ b.cdocs, 0 ≤ c.prior) →
      ∃ b1, bow_naivebayes_set_weights nw b = .ok b1) := by
  constructor
  · intro b1 hrun
    obtain ⟨-, -, -, -, hb1⟩ := (set_weights_iff nw b b1 hvoc).1 hrun
    have hall := all_entries_weighted b b.wi2dvf.num_words
      (add_counts (all_entries b) (reset_word_counts b.cdocs)) b1 (by rw [hb1])
    rw [hall]
    refine ⟨List.length_map _ _, ?_⟩
    intro e1 he1
    obtain ⟨e, he, rfl⟩ := List.mem_map.1 he1
    obtain ⟨⟨-, -, hpos⟩, hle⟩ := laplace_weight_bounds b hV hcount hvalid e he
    exact ⟨hpos, hle⟩
  · intro hm hp
    exact set_weights_completes nw b hvoc hV hcount hvalid hm hp

/-- Witness for C3: the three weights of the worked example lie in `(0, 1]`. -/
theorem set_weights_weight_bounds_witness :
    bow_naivebayes_set_weights 4 two_class_barrel = .ok two_class_barrel_weighted ∧
    (all_entries two_class_barrel_weighted).map (fun e => e.weight) = [1 / 2, 1 / 4, 1 / 2] ∧
    ∀ e ∈ all_entries two_class_barrel_weighted, 0 < e.weight ∧ e.weight ≤ 1 :=
  ⟨two_class_barrel_run, rfl,
    ((set_weights_weight_bounds 4 two_class_barrel (by decide)
      (by
        intro e he
        simp [all_entries, two_class_barrel, List.reduceOption] at he
        rcases he with rfl | rfl | rfl <;> decide)
      two_class_barrel_valid two_class_barrel_vocabulary).1 _ two_class_barrel_run).2⟩

/-! ## Lemmas on the selection loop -/

theorem length_insert_score (x : bow_score K) (bs : List (bow_score K)) :
    (insert_score x bs).length = bs.length + 1 := by
  induction bs with
  | nil => rfl
  | cons b bs ih =>
    unfold insert_score
    split <;> simp [ih]

theorem insert_score_take (x : bow_score K) (bs : List (bow_score K)) (k : Nat) :
    (insert_score x (bs.take k)).take k = (insert_score x bs).take k := by
  induction bs generalizing k with
  | nil => simp
  | cons b bs ih =>
    cases k with
    | zero => simp
    | succ k =>
      simp only [List.take_succ_cons, insert_score]
      split
      · simp only [List.take_succ_cons]
        congr 1
        cases k with
        | zero => simp
        | succ k => simp [List.take_take]
      · simp only [List.take_succ_cons, ih]

theorem insert_score_append_small (x l : bow_score K) (bs : List (bow_score K))
    (h : l.weight < x.weight) : insert_score x (bs ++ [l]) = insert_score x bs ++ [l] := by
  induction bs with
  | nil => simp [insert_score, h]
  | cons b bs ih =>
    by_cases hb : b.weight < x.weight
    · simp [insert_score, hb]
    · simp only [List.cons_append, insert_score, hb, if_false]
      exact congrArg (b :: ·) ih

theorem insert_score_all_ge (x : bow_score K) (bs : List (bow_score K))
    (h : ∀ e ∈ bs, ¬ e.weight < x.weight) : insert_score x bs = bs ++ [x] := by
  induction bs with
  | nil => rfl
  | cons b bs ih =>
    have hb := h b (List.mem_cons_self _ _)
    simp only [insert_score, hb, if_false, List.cons_append]
    rw [ih fun e he => h e (List.mem_cons_of_mem _ he)]

/-- In a list sorted by non-increasing weight the insertion splits the list
into the entries not smaller than `x` and the entries smaller than `x`. -/
theorem insert_score_split (x : bow_score K) (bs : List (bow_score K))
    (hs : bs.Pairwise fun a b => b.weight ≤ a.weight) :
    ∃ p1 p2, bs = p1 ++ p2 ∧ insert_score x bs = p1 ++ x :: p2 ∧
      (∀ e ∈ p1, ¬ e.weight < x.weight) ∧ (∀ e ∈ p2, e.weight < x.weight) := by
  induction bs with
  | nil => exact ⟨[], [], rfl, rfl, by simp, by simp⟩
  | cons b bs ih =>
    obtain ⟨hb, hs2⟩ := List.pairwise_cons.1 hs
    by_cases h : b.weight < x.weight
    · refine ⟨[], b :: bs, rfl, by simp [insert_score, h], by simp, ?_⟩
      intro e he
      rcases List.mem_cons.1 he with rfl | he2
      · exact h
      · exact lt_of_le_of_lt (hb e he2) h
    · obtain ⟨p1, p2, h1, h2, h3, h4⟩ := ih hs2
      refine ⟨b :: p1, p2, by rw [h1]; rfl, by simp [insert_score, h, h2], ?_, h4⟩
      intro e he
      rcases List.mem_cons.1 he with rfl | he2
      · exact h
      · exact h3 e he2

theorem insert_score_sorted (x : bow_score K) (bs : List (bow_score K))
    (hs : bs.Pairwise fun a b => b.weight ≤ a.weight) :
    (insert_score x bs).Pairwise fun a b => b.weight ≤ a.weight := by
  obtain ⟨p1, p2, h1, h2, h3, h4⟩ := insert_score_split x bs hs
  rw [h2]
  rw [h1] at hs
  obtain ⟨hp1, hp2, hp12⟩ := List.pairwise_append.1 hs
  refine List.pairwise_append.2 ⟨hp1, List.pairwise_cons.2 ⟨fun e he => le_of_lt (h4 e he), hp2⟩, ?_⟩
  intro a ha b hb
  rcases List.mem_cons.1 hb with rfl | hb2
  · exact not_lt.1 (h3 a ha)
  · exact hp12 a ha b hb2

theorem buf_read_append_some (pre : List (bow_score K)) (e : bow_score K)
    (rest : List (Option (bow_score K))) :
    buf_read (pre.map some ++ some e :: rest) pre.length = .ok e := by
  have h : (pre.map some ++ some e :: rest)[pre.length]? = some (some e) := by
    rw [List.getElem?_append_right (by simp)]
    simp
  simp only [buf_read, h]

theorem set_append_length {α : Type} (pre : List α) (a b : α) (rest : List α) :
    (pre ++ a :: rest).set pre.length b = pre ++ b :: rest := by
  induction pre with
  | nil => rfl
  | cons p pre ih => simp [ih]

/-- The loop of lines 391-392 on a buffer that holds `p1 ++ p2` followed by a
slot `h` that may be overwritten. -/
theorem shift_down_spec (x : K) (p1 p2 : List (bow_score K))
    (hp1 : ∀ e ∈ p1, ¬ e.weight < x) (hp2 : ∀ e ∈ p2, e.weight < x)
    (h : Option (bow_score K)) (rest : List (Option (bow_score K))) :
    ∃ h1, shift_down x (p1.length + p2.length) ((p1 ++ p2).map some ++ h :: rest)
      = .ok (p1.length, p1.map some ++ h1 :: (p2.map some ++ rest)) := by
  induction p2 using List.reverseRecOn generalizing h rest with
  | nil =>
    simp only [List.length_nil, Nat.add_zero, List.append_nil, List.map_nil, List.nil_append]
    induction p1 using List.reverseRecOn with
    | nil => exact ⟨h, rfl⟩
    | append_singleton p l _ =>
      refine ⟨h, ?_⟩
      have hl : ¬ l.weight < x := hp1 l (by simp)
      have hlen : (p ++ [l]).length = p.length + 1 := by simp
      rw [hlen]
      unfold shift_down
      have hread : buf_read (List.map some (p ++ [l]) ++ h :: rest) p.length = .ok l := by
        have := buf_read_append_some p l (h :: rest)
        simpa using this
      simp only [hread, hl, if_false]
  | append_singleton p2 e ih =>
    have he : e.weight < x := hp2 e (by simp)
    have hlen : p1.length + (p2 ++ [e]).length = (p1.length + p2.length) + 1 := by
      simp; omega
    rw [hlen]
    unfold shift_down
    have hbuf : List.map some (p1 ++ (p2 ++ [e])) ++ h :: rest
        = (p1 ++ p2).map some ++ some e :: h :: rest := by simp
    have hlen2 : p1.length + p2.length = ((p1 ++ p2).map some).length := by simp
    have hread : buf_read (List.map some (p1 ++ (p2 ++ [e])) ++ h :: rest)
        (p1.length + p2.length) = .ok e := by
      rw [hbuf]
      have := buf_read_append_some (p1 ++ p2) e (h :: rest)
      simpa using this
    have hwrite : buf_write (List.map some (p1 ++ (p2 ++ [e])) ++ h :: rest)
        (p1.length + p2.length + 1) e
          = .ok ((p1 ++ p2).map some ++ some e :: some e :: rest) := by
      rw [hbuf]
      unfold buf_write
      have hlt : p1.length + p2.length + 1
          < ((p1 ++ p2).map some ++ some e :: h :: rest).length := by simp; omega
      rw [if_pos hlt]
      congr 1
      have h3 : (p1 ++ p2).map some ++ some e :: h :: rest
          = ((p1 ++ p2).map some ++ [some e]) ++ h :: rest := by simp
      have h4 : p1.length + p2.length + 1 = ((p1 ++ p2).map some ++ [some e]).length := by
        simp; omega
      rw [h3, h4, set_append_length]
      simp
    simp only [hread, he, if_true, hwrite]
    obtain ⟨h1, ih2⟩ := ih (fun a ha => hp2 a (by simp [ha])) (some e) (some e :: rest)
    refine ⟨h1, ?_⟩
    rw [ih2]
    simp

theorem buffer_of_lt (k : Nat) (bs : List (bow_score K)) (h : bs.length < k) :
    buffer_of k bs = bs.map some ++ none :: List.replicate (k - bs.length - 1) none := by
  unfold buffer_of
  have : k - bs.length = (k - bs.length - 1) + 1 := by omega
  rw [this, List.replicate_succ]
  simp

theorem buffer_of_full (k : Nat) (bs : List (bow_score K)) (h : bs.length = k) :
    buffer_of k bs = bs.map some := by
  unfold buffer_of
  simp [h]

theorem shift_then_write (x : K) (ci : Nat) (bs : List (bow_score K))
    (hs : bs.Pairwise fun a b => b.weight ≤ a.weight)
    (h : Option (bow_score K)) (rest : List (Option (bow_score K))) :
    ∃ dsi bscores1, shift_down x bs.length (bs.map some ++ h :: rest) = .ok (dsi, bscores1) ∧
      buf_write bscores1 dsi { di := ci, weight := x }
        = .ok ((insert_score { di := ci, weight := x } bs).map some ++ rest) := by
  obtain ⟨p1, p2, h1, h2, h3, h4⟩ := insert_score_split { di := ci, weight := x } bs hs
  obtain ⟨h5, hsd⟩ := shift_down_spec x p1 p2 h3 h4 h rest
  refine ⟨p1.length, p1.map some ++ h5 :: (p2.map some ++ rest), ?_, ?_⟩
  · rw [h1, List.length_append]
    exact hsd
  · unfold buf_write
    have hlt : p1.length < (p1.map some ++ h5 :: (p2.map some ++ rest)).length := by simp
    rw [if_pos hlt, h2]
    congr 1
    have := set_append_length (p1.map some) h5 (some ({ di := ci, weight := x } : bow_score K))
      (p2.map some ++ rest)
    rw [List.length_map] at this
    rw [this]
    simp

/-- One round of the selection loop, on a buffer that holds the sorted list
`bs` in its first slots. -/
theorem topk_step_spec (k : Nat) (hk : 0 < k) (ci : Nat) (x : K) (bs : List (bow_score K))
    (hlen : bs.length ≤ k) (hs : bs.Pairwise fun a b => b.weight ≤ a.weight) :
    topk_step k ci x (bs.length, buffer_of k bs)
      = .ok (((insert_score { di := ci, weight := x } bs).take k).length,
          buffer_of k ((insert_score { di := ci, weight := x } bs).take k)) := by
  rcases Nat.lt_or_ge bs.length k with hlt | hge
  · -- there is room in the buffer
    have htake : (insert_score { di := ci, weight := x } bs).take k
        = insert_score { di := ci, weight := x } bs := by
      apply List.take_of_length_le
      rw [length_insert_score]
      omega
    rw [htake, length_insert_score]
    obtain ⟨dsi, bscores1, hsd, hw⟩ := shift_then_write x ci bs hs none
      (List.replicate (k - bs.length - 1) none)
    rw [← buffer_of_lt k bs hlt] at hsd
    unfold topk_step
    simp only [hlt, if_true, Nat.add_sub_cancel, hsd, hw]
    congr 2
    unfold buffer_of
    rw [length_insert_score]
    congr 2
  · -- the buffer is full
    have hfull : bs.length = k := le_antisymm hlen hge
    have hne : bs ≠ [] := by
      intro h
      rw [h] at hfull
      simp at hfull
      omega
    obtain ⟨bs0, l, rfl⟩ : ∃ bs0 l, bs = bs0 ++ [l] :=
      ⟨bs.dropLast, bs.getLast hne, (List.dropLast_append_getLast hne).symm⟩
    have hlen0 : bs0.length + 1 = k := by simpa using hfull
    have hnlt : ¬ (bs0 ++ [l]).length < k := by omega
    have hbuf : buffer_of k (bs0 ++ [l]) = bs0.map some ++ some l :: [] := by
      rw [buffer_of_full k _ hfull]
      simp
    have hread : read_last (buffer_of k (bs0 ++ [l])) (bs0 ++ [l]).length = .ok l := by
      rw [hbuf, List.length_append, List.length_singleton]
      exact buf_read_append_some bs0 l []
    obtain ⟨hs0, -, hs0l⟩ := List.pairwise_append.1 hs
    by_cases hl : l.weight < x
    · have hins : (insert_score { di := ci, weight := x } (bs0 ++ [l])).take k
          = insert_score { di := ci, weight := x } bs0 := by
        rw [insert_score_append_small _ _ _ hl, List.take_left' (by rw [length_insert_score]; exact hlen0)]
      obtain ⟨dsi, bscores1, hsd, hw⟩ := shift_then_write x ci bs0 hs0 (some l) []
      have hsub : (bs0 ++ [l]).length - 1 = bs0.length := by simp
      unfold topk_step
      simp only [hnlt, if_false, hread, hl, decide_True, hsub]
      rw [hbuf, hsd]
      simp only [hw, hins, length_insert_score]
      congr 2
      · omega
      · rw [buffer_of_full k _ (by rw [length_insert_score]; exact hlen0)]
        simp
    · have hall : ∀ e ∈ bs0 ++ [l], ¬ e.weight < ({ di := ci, weight := x } : bow_score K).weight := by
        intro e he
        rcases List.mem_append.1 he with he0 | hel
        · have := hs0l e he0 l (by simp)
          exact not_lt.2 (le_trans (not_lt.1 hl) this)
        · rw [List.mem_singleton.1 hel]
          exact hl
      have hins : (insert_score { di := ci, weight := x } (bs0 ++ [l])).take k = bs0 ++ [l] := by
        rw [insert_score_all_ge _ _ hall, List.take_left' hfull]
      unfold topk_step
      simp only [hnlt, if_false, hread, hl, decide_False, hins]

theorem topk_loop_spec (k : Nat) (hk : 0 < k) (xs : List K) (ci : Nat) (bs : List (bow_score K))
    (hlen : bs.length ≤ k) (hs : bs.Pairwise fun a b => b.weight ≤ a.weight) :
    topk_loop k xs ci (bs.length, buffer_of k bs)
      = .ok ((select_kept k xs ci bs).length, buffer_of k (select_kept k xs ci bs)) := by
  induction xs generalizing ci bs with
  | nil => rfl
  | cons x xs ih =>
    unfold topk_loop select_kept
    rw [topk_step_spec k hk ci x bs hlen hs]
    exact ih (ci + 1) _ (by simp [List.length_take])
      ((insert_score_sorted _ bs hs).sublist (List.take_sublist _ _))

theorem score_before_weight (a b : bow_score K) (h : score_before a b) : b.weight ≤ a.weight := by
  rcases h with h | ⟨h, -⟩
  · exact le_of_lt h
  · exact le_of_eq h

theorem insert_score_eq_orderedInsert (x : bow_score K) (bs : List (bow_score K))
    (h : ∀ b ∈ bs, b.di < x.di) : insert_score x bs = List.orderedInsert score_before x bs := by
  induction bs with
  | nil => rfl
  | cons b bs ih =>
    have hb : b.di < x.di := h b (List.mem_cons_self _ _)
    have hiff : score_before x b ↔ b.weight < x.weight := by
      unfold score_before
      constructor
      · rintro (h1 | ⟨-, h2⟩)
        · exact h1
        · omega
      · exact Or.inl
    rw [List.orderedInsert, insert_score]
    simp only [hiff]
    rw [ih fun e he => h e (List.mem_cons_of_mem _ he)]

theorem insertionSort_append_singleton (P : List (bow_score K)) (x : bow_score K) :
    (P ++ [x]).insertionSort score_before
      = List.orderedInsert score_before x (P.insertionSort score_before) := by
  apply List.eq_of_perm_of_sorted (r := score_before)
  · refine (List.perm_insertionSort _ _).trans ?_
    refine List.perm_append_singleton x P |>.trans ?_
    refine List.Perm.trans ?_ (List.perm_orderedInsert _ _ _).symm
    exact List.Perm.cons x (List.perm_insertionSort _ _).symm
  · exact List.sorted_insertionSort _ _
  · exact (List.sorted_insertionSort _ _).orderedInsert _ _

theorem indexed_scores_append (ci : Nat) (xs ys : List K) :
    indexed_scores ci (xs ++ ys) = indexed_scores ci xs ++ indexed_scores (ci + xs.length) ys := by
  induction xs generalizing ci with
  | nil => rfl
  | cons x xs ih =>
    have h1 := ih (ci + 1)
    have h2 : ci + 1 + xs.length = ci + (xs.length + 1) := by omega
    rw [h2] at h1
    simp only [List.cons_append, indexed_scores, List.length_cons]
    exact congrArg (_ :: ·) h1

theorem length_indexed_scores (ci : Nat) (xs : List K) :
    (indexed_scores ci xs).length = xs.length := by
  induction xs generalizing ci with
  | nil => rfl
  | cons x xs ih => simp [indexed_scores, ih]

theorem mem_indexed_scores (ci : Nat) (xs : List K) (e : bow_score K) :
    e ∈ indexed_scores ci xs ↔ ∃ i, xs[i]? = some e.weight ∧ e.di = ci + i := by
  induction xs generalizing ci with
  | nil => simp [indexed_scores]
  | cons x xs ih =>
    simp only [indexed_scores, List.mem_cons, ih]
    constructor
    · rintro (rfl | ⟨i, h1, h2⟩)
      · exact ⟨0, by simp, rfl⟩
      · exact ⟨i + 1, by simpa using h1, by omega⟩
    · rintro ⟨i, h1, h2⟩
      cases i with
      | zero =>
        left
        cases e
        simp at h1 h2
        simp [h1, h2]
      | succ i => exact Or.inr ⟨i, by simpa using h1, by omega⟩

/-- The selection loop keeps the first `k` entries of the full sort. -/
theorem select_kept_spec (k : Nat) (xs : List K) (ci : Nat) (P : List (bow_score K))
    (hP : ∀ b ∈ P, b.di < ci) :
    select_kept k xs ci ((P.insertionSort score_before).take k)
      = ((P ++ indexed_scores ci xs).insertionSort score_before).take k := by
  induction xs generalizing ci P with
  | nil => simp [select_kept, indexed_scores]
  | cons x xs ih =>
    have hmem : ∀ b ∈ P.insertionSort score_before,
        b.di < ({ di := ci, weight := x } : bow_score K).di := fun b hb =>
      hP b ((List.perm_insertionSort _ _).mem_iff.1 hb)
    have hstep : (insert_score { di := ci, weight := x }
        ((P.insertionSort score_before).take k)).take k
          = ((P ++ [({ di := ci, weight := x } : bow_score K)]).insertionSort
              score_before).take k := by
      rw [insert_score_take, insert_score_eq_orderedInsert _ _ hmem,
        insertionSort_append_singleton]
    have hP2 : ∀ b ∈ P ++ [({ di := ci, weight := x } : bow_score K)], b.di < ci + 1 := by
      intro b hb
      rcases List.mem_append.1 hb with h1 | h1
      · exact Nat.lt_succ_of_lt (hP b h1)
      · rw [List.mem_singleton.1 h1]
        exact Nat.lt_succ_self ci
    unfold select_kept
    rw [hstep, ih (ci + 1) _ hP2]
    simp [indexed_scores]

theorem length_sorted_top (k : Nat) (scores : List K) :
    (sorted_top k scores).length = min k scores.length := by
  unfold sorted_top
  rw [List.length_take, List.length_insertionSort, length_indexed_scores]

theorem sorted_top_sorted (k : Nat) (scores : List K) :
    (sorted_top k scores).Pairwise fun a b => b.weight ≤ a.weight := by
  unfold sorted_top
  have h : ((indexed_scores 0 scores).insertionSort score_before).Pairwise score_before :=
    List.sorted_insertionSort _ _
  exact (h.imp fun {a b} hab => score_before_weight a b hab).sublist (List.take_sublist _ _)

/-- The selection into an unwritten buffer of `k ≥ 1` slots. -/
theorem select_scores_eq (scores : List K) (k : Nat) (hk : 0 < k) :
    select_scores scores (List.replicate k none) k
      = .ok (min k scores.length, buffer_of k (sorted_top k scores)) := by
  have h := topk_loop_spec k hk scores 0 [] (Nat.zero_le _) List.Pairwise.nil
  have h2 := select_kept_spec k scores 0 [] (by simp)
  simp only [List.insertionSort, List.take_nil, List.nil_append] at h2
  rw [h2] at h
  have hb : buffer_of k ([] : List (bow_score K)) = List.replicate k none := by
    simp [buffer_of]
  rw [hb] at h
  unfold select_scores
  rw [List.length_nil] at h
  rw [h]
  rw [← length_sorted_top k scores]
  rfl

theorem sorted_top_one (scores : List K) (hne : scores ≠ []) :
    ∃ e, sorted_top 1 scores = [e] ∧ scores[e.di]? = some e.weight ∧
      ∀ s ∈ scores, s ≤ e.weight := by
  have hsorted : ((indexed_scores 0 scores).insertionSort score_before).Pairwise score_before :=
    List.sorted_insertionSort _ _
  have hmem : ∀ a, a ∈ (indexed_scores 0 scores).insertionSort score_before
      ↔ a ∈ indexed_scores 0 scores := fun a => (List.perm_insertionSort _ _).mem_iff
  have hlen : ((indexed_scores 0 scores).insertionSort score_before).length = scores.length := by
    rw [List.length_insertionSort, length_indexed_scores]
  unfold sorted_top
  cases hS : (indexed_scores 0 scores).insertionSort score_before with
  | nil =>
    rw [hS] at hlen
    exact absurd (List.length_eq_zero.1 hlen.symm) hne
  | cons e S =>
    rw [hS] at hsorted hmem
    refine ⟨e, rfl, ?_, ?_⟩
    · obtain ⟨i, h1, h2⟩ := (mem_indexed_scores 0 scores e).1 ((hmem e).1 (List.mem_cons_self _ _))
      rw [h2, Nat.zero_add]
      exact h1
    · intro s hs
      obtain ⟨i, hi⟩ := List.mem_iff_getElem?.1 hs
      have hin : ({ di := 0 + i, weight := s } : bow_score K) ∈ e :: S :=
        (hmem _).2 ((mem_indexed_scores 0 scores _).2 ⟨i, hi, rfl⟩)
      rcases List.mem_cons.1 hin with h | h
      · rw [← h]
      · exact score_before_weight _ _ ((List.pairwise_cons.1 hsorted).1 _ h)

/-- C4, as amended: for every list of final scores of `n` classes and every
capacity `k ≥ 1` (or with no class at all), the selection at the end of
`bow_naivebayes_score_loo`, run on an unwritten buffer of `k` slots, returns
`num_scores = min k n`, and the first `num_scores` slots of the buffer hold
entries sorted by non-increasing weight. -/
theorem select_scores_length_sorted (scores : List K) (k : Nat) (hk : 0 < k ∨ scores = []) :
    ∃ bscores, select_scores scores (List.replicate k none) k
        = .ok (min k scores.length, bscores) ∧
      ∃ bs : List (bow_score K), bscores.take (min k scores.length) = bs.map some ∧
        bs.length = min k scores.length ∧ bs.Pairwise fun a b => b.weight ≤ a.weight := by
  rcases hk with hk | rfl
  · refine ⟨_, select_scores_eq scores k hk, sorted_top k scores, ?_, length_sorted_top k scores,
      sorted_top_sorted k scores⟩
    unfold buffer_of
    rw [← length_sorted_top k scores]
    have : (sorted_top k scores).length = ((sorted_top k scores).map some).length := by simp
    rw [this, List.take_left]
  · exact ⟨List.replicate k none, by simp [select_scores, topk_loop], [], by simp, by simp,
      List.Pairwise.nil⟩

/-- Witness for C4: two slots for the three scores `1/5, 1/2, 3/10`. -/
theorem select_scores_length_sorted_witness :
    ∃ bscores, select_scores ([1 / 5, 1 / 2, 3 / 10] : List ℚ) (List.replicate 2 none) 2
        = .ok (min 2 ([1 / 5, 1 / 2, 3 / 10] : List ℚ).length, bscores) ∧
      ∃ bs : List (bow_score ℚ),
        bscores.take (min 2 ([1 / 5, 1 / 2, 3 / 10] : List ℚ).length) = bs.map some ∧
        bs.length = min 2 ([1 / 5, 1 / 2, 3 / 10] : List ℚ).length ∧
        bs.Pairwise fun a b => b.weight ≤ a.weight :=
  select_scores_length_sorted [1 / 5, 1 / 2, 3 / 10] 2 (Or.inl (by decide))

/-- Counterexample to C4 as stated: with the capacity `k = 0` and one class the
guard of line 380 reads `bscores[-1]`, outside the buffer, and the selection
does not return `num_scores = min 0 1`. -/
theorem select_scores_capacity_zero :
    select_scores ([1] : List ℚ) (List.replicate 0 none) 0 = .error .index_out_of_bounds ∧
    ¬ ∃ bscores, select_scores ([1] : List ℚ) (List.replicate 0 none) 0
        = .ok (min 0 ([1] : List ℚ).length, bscores) := by
  have h : select_scores ([1] : List ℚ) (List.replicate 0 none) 0
      = .error .index_out_of_bounds := by
    simp [select_scores, topk_loop, topk_step, read_last]
  refine ⟨h, ?_⟩
  rintro ⟨bscores, hb⟩
  rw [h] at hb
  cases hb

/-- C5: for every list of final scores and every capacity `k ≥ 1`, the bounded
insertion of lines 375-398, run on an unwritten buffer of `k` slots, returns
exactly the first `k` entries of the full sort of the (class index, score)
pairs by descending score with ties in ascending class-index order; the other
slots stay unwritten.  For `k = 1` and at least one class the single entry
returned is a class of maximal score. -/
theorem select_scores_sorted_top (scores : List K) (k : Nat) (hk : 0 < k) :
    select_scores scores (List.replicate k none) k
      = .ok (min k scores.length,
          (((indexed_scores 0 scores).insertionSort score_before).take k).map some
            ++ List.replicate (k - min k scores.length) none) ∧
    (k = 1 → scores ≠ [] →
      ∃ e, select_scores scores (List.replicate k none) k = .ok (1, [some e]) ∧
        scores[e.di]? = some e.weight ∧ ∀ s ∈ scores, s ≤ e.weight) := by
  have h := select_scores_eq scores k hk
  constructor
  · rw [h]
    unfold buffer_of
    rw [length_sorted_top]
    rfl
  · rintro rfl hne
    obtain ⟨e, he, h1, h2⟩ := sorted_top_one scores hne
    refine ⟨e, ?_, h1, h2⟩
    rw [h, he]
    have hpos : 1 ≤ scores.length := by
      cases scores with
      | nil => exact absurd rfl hne
      | cons x xs => simp
    rw [Nat.min_eq_left hpos]
    rfl

/-- Witness for C5: with `k = 1` the scores `1/5, 1/2, 3/10` return the class
`1`, whose score is `1/2`. -/
theorem select_scores_sorted_top_witness :
    select_scores ([1 / 5, 1 / 2, 3 / 10] : List ℚ) (List.replicate 1 none) 1
      = .ok (1, [some { di := 1, weight := 1 / 2 }]) := by
  have h := (select_scores_sorted_top ([1 / 5, 1 / 2, 3 / 10] : List ℚ) 1 (by decide)).1
  have h1 : ¬ score_before ({ di := 0, weight := 1 / 5 } : bow_score ℚ)
      { di := 1, weight := 1 / 2 } := by
    unfold score_before
    norm_num
  have h2 : score_before ({ di := 1, weight := 1 / 2 } : bow_score ℚ)
      { di := 2, weight := 3 / 10 } := by
    unfold score_before
    norm_num
  rw [h]
  simp only [indexed_scores, List.insertionSort, List.orderedInsert, h1, h2, if_true, if_false]
  rfl

/-! ## Lemmas on the scorer -/

theorem divide_scores_eq (s : K) (hs : s ≠ 0) (xs : List K) :
    divide_scores s xs = .ok (xs.map fun x => x / s) := by
  induction xs with
  | nil => rfl
  | cons x xs ih => simp [divide_scores, fdiv, hs, ih]

theorem normalize_scores_eq (xs : List K) (h : xs.sum ≠ 0) :
    normalize_scores xs = .ok (xs.map fun x => x / xs.sum) := by
  unfold normalize_scores
  rw [← List.sum_eq_foldl]
  exact divide_scores_eq _ h xs

theorem sum_map_div_sum (xs : List K) (h : xs.sum ≠ 0) :
    (xs.map fun x => x / xs.sum).sum = 1 := by
  have : (xs.map fun x => x / xs.sum) = xs.map fun x => id x * (xs.sum)⁻¹ := by
    simp [div_eq_mul_inv]
  rw [this, List.sum_map_mul_right, List.map_id, mul_inv_cancel₀ h]

theorem reciprocal_scores_eq (xs : List K) (h : ∀ a ∈ xs, a ≠ 0) :
    reciprocal_scores xs = .ok (xs.map fun a => 1 / a) := by
  induction xs with
  | nil => rfl
  | cons x xs ih =>
    have hx : x ≠ 0 := h x (List.mem_cons_self _ _)
    simp [reciprocal_scores, fdiv, hx, ih fun a ha => h a (List.mem_cons_of_mem _ ha)]

theorem length_init_scores (L : libm K) (u lm : Bool) (loo : Int) (cdocs : List (bow_cdoc K))
    (scores : List K) (h : init_scores L u lm loo cdocs = .ok scores) :
    scores.length = cdocs.length := by
  induction cdocs generalizing scores with
  | nil =>
    simp only [init_scores, Except.ok.injEq] at h
    subst h
    rfl
  | cons c cs ih =>
    unfold init_scores at h
    simp only at h
    split at h
    · cases h
    · split at h
      · split at h
        · cases h
        · rename_i ss hss
          simp only [Except.ok.injEq] at h
          rw [← h, List.length_cons, List.length_cons, ih ss hss]
      · cases h

theorem length_class_loop (L : libm K) (barrel : bow_barrel K) (dv : bow_dv K) (q : bow_we)
    (loo : Int) (cdocs : List (bow_cdoc K)) (ss : List K) (ci dvi : Nat) (r : K)
    (out : List K × K) (h : class_loop L barrel dv q loo cdocs ss ci dvi r = .ok out) :
    out.1.length = cdocs.length := by
  induction cdocs generalizing ss ci dvi r out with
  | nil =>
    simp only [class_loop, Except.ok.injEq] at h
    rw [← h]
    rfl
  | cons c cs ih =>
    cases ss with
    | nil => simp [class_loop] at h
    | cons s ss =>
      unfold class_loop at h
      simp only at h
      split at h
      · split at h
        · cases h
        · split at h
          · cases h
          · split at h
            · cases h
            · rename_i ss1 r2 hrec
              simp only [Except.ok.injEq] at h
              rw [← h]
              simp only [List.length_cons]
              rw [ih _ _ _ _ _ hrec]
      · cases h

theorem length_rescale_scores (r : K) (ss out : List K)
    (h : rescale_scores r ss = .ok out) : out.length = ss.length := by
  induction ss generalizing out with
  | nil =>
    simp only [rescale_scores, Except.ok.injEq] at h
    subst h
    rfl
  | cons s ss ih =>
    unfold rescale_scores at h
    simp only at h
    split at h
    · split at h
      · cases h
      · rename_i ss1 hrec
        simp only [Except.ok.injEq] at h
        rw [← h, List.length_cons, List.length_cons, ih ss1 hrec]
    · cases h

theorem length_word_loop (L : libm K) (barrel : bow_barrel K) (loo : Int) (qs : List bow_we)
    (scores out : List K) (hlen : scores.length = barrel.cdocs.length)
    (h : word_loop L barrel loo qs scores = .ok out) : out.length = barrel.cdocs.length := by
  induction qs generalizing scores with
  | nil =>
    simp only [word_loop, Except.ok.injEq] at h
    rw [← h, hlen]
  | cons q qs ih =>
    unfold word_loop at h
    split at h
    · exact ih scores hlen h
    · split at h
      · cases h
      · rename_i dv hdv scores1 rescaler hcl
        have hl1 : scores1.length = barrel.cdocs.length :=
          length_class_loop L barrel _ q loo _ _ _ _ _ _ hcl
        split at h
        · split at h
          · split at h
            · cases h
            · rename_i scores2 hrs
              exact ih scores2 (by rw [length_rescale_scores _ _ _ hrs, hl1]) h
          · exact ih scores1 hl1 h
        · exact ih scores1 hl1 h

theorem length_accumulate_scores (L : libm K) (u : Bool) (barrel : bow_barrel K)
    (query_wv : bow_wv) (loo : Int) (acc : List K)
    (h : accumulate_scores L u barrel query_wv loo = .ok acc) :
    acc.length = barrel.cdocs.length := by
  unfold accumulate_scores at h
  split at h
  · cases h
  · rename_i scores hinit
    exact length_word_loop L barrel loo _ scores acc (length_init_scores _ _ _ _ _ _ hinit) h

/-- The normalised scores sum to `1` whenever the normalisation is reached with
per-class values whose sum is not zero; in probability mode this is always so
for a model with at least one class. -/
theorem class_scores_sum_one (u : Bool) (barrel : bow_barrel ℝ) (query_wv : bow_wv)
    (loo : Int) (acc : List ℝ) (hn : barrel.cdocs ≠ [])
    (hacc : accumulate_scores ⟨Real.exp, Real.log⟩ u barrel query_wv loo = .ok acc)
    (hlog : barrel.method.params.score_with_log_probabilities = true →
      (∀ a ∈ acc, a ≠ 0) ∧ (acc.map fun a => 1 / a).sum ≠ 0) :
    ∃ out, class_scores ⟨Real.exp, Real.log⟩ u barrel query_wv loo = .ok out ∧
      out.length = barrel.cdocs.length ∧ out.sum = 1 := by
  have hlen := length_accumulate_scores _ u barrel query_wv loo acc hacc
  have hne : acc ≠ [] := by
    intro h
    rw [h] at hlen
    exact hn (List.length_eq_zero.1 hlen.symm)
  unfold class_scores
  rw [hacc]
  simp only
  cases hm : barrel.method.params.score_with_log_probabilities with
  | false =>
    simp only [finish_scores, if_true]
    have hpos : 0 < ((acc.map fun s => s - max_score acc).map Real.exp).sum := by
      apply List.sum_pos
      · intro x hx
        obtain ⟨y, -, rfl⟩ := List.mem_map.1 hx
        exact Real.exp_pos y
      · simpa using hne
    refine ⟨_, normalize_scores_eq _ (ne_of_gt hpos), by simp [hlen],
      sum_map_div_sum _ (ne_of_gt hpos)⟩
  | true =>
    obtain ⟨h1, h2⟩ := hlog hm
    simp only [finish_scores, Bool.true_eq_false, if_false, reciprocal_scores_eq acc h1]
    exact ⟨_, normalize_scores_eq _ h2, by simp [hlen], sum_map_div_sum _ h2⟩

/-- C6 at its failing input: a cross-entropy model with one class of prior `1`,
stored priors in use, an empty query.  The accumulator of the class is
`-log 1 = 0`, so the reciprocal of line 358 divides by zero and no normalised
values summing to `1` are produced. -/
theorem class_scores_zero_entropy :
    accumulate_scores ⟨Real.exp, Real.log⟩ false (one_class_barrel : bow_barrel ℝ) ⟨[]⟩ (-1)
      = .ok [0] ∧
    class_scores ⟨Real.exp, Real.log⟩ false (one_class_barrel : bow_barrel ℝ) ⟨[]⟩ (-1)
      = .error .division_by_zero ∧
    bow_naivebayes_score_loo ⟨Real.exp, Real.log⟩ false (one_class_barrel : bow_barrel ℝ) ⟨[]⟩
      (List.replicate 1 none) 1 (-1) = .error .division_by_zero := by
  have hacc : accumulate_scores ⟨Real.exp, Real.log⟩ false (one_class_barrel : bow_barrel ℝ)
      ⟨[]⟩ (-1) = .ok [0] := by
    have h : -(FLT_MAX : ℝ) + 100000 < 0 := by
      unfold FLT_MAX
      norm_num
    simp [accumulate_scores, init_scores, one_class_barrel, bow_method_crossentropy,
      bow_crossentropy_params, word_loop, Real.log_one, h]
  have hcs : class_scores ⟨Real.exp, Real.log⟩ false (one_class_barrel : bow_barrel ℝ)
      ⟨[]⟩ (-1) = .error .division_by_zero := by
    unfold class_scores
    rw [hacc]
    simp [finish_scores, one_class_barrel, bow_method_crossentropy, bow_crossentropy_params,
      reciprocal_scores, fdiv]
  refine ⟨hacc, hcs, ?_⟩
  unfold bow_naivebayes_score_loo
  rw [hcs]

theorem flt_max_bound : -(FLT_MAX : K) + 100000 < 0 := by
  unfold FLT_MAX
  norm_num

theorem dbl_max_pos : (0 : K) < DBL_MAX := by
  unfold DBL_MAX
  positivity

theorem init_scores_uniform (L : libm K) (lm : Bool) (loo : Int) (cdocs : List (bow_cdoc K)) :
    init_scores L true lm loo cdocs = .ok (List.replicate cdocs.length 1) := by
  induction cdocs with
  | nil => rfl
  | cons c cs ih =>
    have h : -(FLT_MAX : K) + 100000 < 1 := lt_trans flt_max_bound one_pos
    simp only [init_scores, if_true, h, ih, List.length_cons, List.replicate_succ]

theorem foldl_max_replicate (n : Nat) (c : K) :
    (List.replicate n c).foldl (fun rescaler s => if s > rescaler then s else rescaler) c = c := by
  induction n with
  | zero => rfl
  | succ n ih => simp [List.replicate_succ, ih]

theorem max_score_replicate (n : Nat) (hn : 0 < n) (c : K) (hc : -DBL_MAX < c) :
    max_score (List.replicate n c) = c := by
  obtain ⟨m, rfl⟩ : ∃ m, n = m + 1 := ⟨n - 1, by omega⟩
  unfold max_score
  rw [List.replicate_succ, List.foldl_cons]
  have : c > -DBL_MAX := hc
  simp only [this, if_true]
  exact foldl_max_replicate m c

theorem normalize_scores_replicate_one (n : Nat) (hn : 0 < n) :
    normalize_scores (List.replicate n (1 : K)) = .ok (List.replicate n (1 / (n : K))) := by
  have hsum : (List.replicate n (1 : K)).sum = (n : K) := by
    rw [List.sum_replicate]
    simp
  have hne : (List.replicate n (1 : K)).sum ≠ 0 := by
    rw [hsum]
    exact_mod_cast (by omega : n ≠ 0)
  rw [normalize_scores_eq _ hne, hsum, List.map_replicate]

theorem indexed_scores_replicate (ci n : Nat) (c : K) :
    indexed_scores ci (List.replicate n c)
      = (List.range' ci n).map fun i => ({ di := i, weight := c } : bow_score K) := by
  induction n generalizing ci with
  | zero => rfl
  | succ n ih =>
    simp only [List.replicate_succ, indexed_scores, List.range'_succ, List.map_cons, ih]

theorem sorted_top_replicate (k n : Nat) (c : K) :
    sorted_top k (List.replicate n c)
      = (List.range (min k n)).map fun i => ({ di := i, weight := c } : bow_score K) := by
  unfold sorted_top
  rw [indexed_scores_replicate]
  have hs : ((List.range' 0 n).map fun i => ({ di := i, weight := c } : bow_score K)).Sorted
      score_before := by
    unfold List.Sorted
    rw [List.pairwise_map]
    refine (List.pairwise_lt_range' 0 n).imp ?_
    intro i j hij
    exact Or.inr ⟨rfl, le_of_lt hij⟩
  rw [hs.insertionSort_eq, ← List.range_eq_range', ← List.map_take, List.take_range]

/-- C7: in a model with `n ≥ 1` classes, with `bow_uniform_class_priors` set and
a query without entries, every accumulator stays at its initial value `1`, the
normalised score of every class is `1 / n`, in probability mode and in log
mode alike, and the call returns, for a capacity `k ≥ 1`, the classes
`0, …, min k n - 1` in index order, each with the weight `1 / n`. -/
theorem score_loo_uniform_empty_query (barrel : bow_barrel ℝ) (k : Nat) (loo_class : Int)
    (hn : barrel.cdocs ≠ []) (hk : 0 < k) :
    accumulate_scores ⟨Real.exp, Real.log⟩ true barrel ⟨[]⟩ loo_class
      = .ok (List.replicate barrel.cdocs.length 1) ∧
    class_scores ⟨Real.exp, Real.log⟩ true barrel ⟨[]⟩ loo_class
      = .ok (List.replicate barrel.cdocs.length (1 / (barrel.cdocs.length : ℝ))) ∧
    bow_naivebayes_score_loo ⟨Real.exp, Real.log⟩ true barrel ⟨[]⟩ (List.replicate k none) k
        loo_class
      = .ok (min k barrel.cdocs.length,
          ((List.range (min k barrel.cdocs.length)).map fun i =>
              some { di := i, weight := 1 / (barrel.cdocs.length : ℝ) })
            ++ List.replicate (k - min k barrel.cdocs.length) none) := by
  have hpos : 0 < barrel.cdocs.length := List.length_pos.2 hn
  have hacc : accumulate_scores ⟨Real.exp, Real.log⟩ true barrel ⟨[]⟩ loo_class
      = .ok (List.replicate barrel.cdocs.length 1) := by
    unfold accumulate_scores
    rw [init_scores_uniform]
    rfl
  have hfin : finish_scores ⟨Real.exp, Real.log⟩
      barrel.method.params.score_with_log_probabilities (List.replicate barrel.cdocs.length 1)
        = .ok (List.replicate barrel.cdocs.length 1) := by
    unfold finish_scores
    cases barrel.method.params.score_with_log_probabilities with
    | false =>
      have hm := max_score_replicate barrel.cdocs.length hpos (1 : ℝ)
        (lt_trans (neg_lt_zero.2 dbl_max_pos) one_pos)
      simp only [if_true, hm, List.map_replicate, sub_self, Real.exp_zero]
    | true =>
      simp only [Bool.true_eq_false, if_false]
      rw [reciprocal_scores_eq _ (by
        intro a ha
        rw [List.eq_of_mem_replicate ha]
        exact one_ne_zero)]
      simp
  have hcs : class_scores ⟨Real.exp, Real.log⟩ true barrel ⟨[]⟩ loo_class
      = .ok (List.replicate barrel.cdocs.length (1 / (barrel.cdocs.length : ℝ))) := by
    unfold class_scores
    rw [hacc]
    simp only [hfin]
    exact normalize_scores_replicate_one _ hpos
  refine ⟨hacc, hcs, ?_⟩
  unfold bow_naivebayes_score_loo
  rw [hcs]
  simp only
  rw [select_scores_eq _ k hk, List.length_replicate]
  unfold buffer_of
  rw [sorted_top_replicate]
  simp

/-- Witness for C7: two classes, three slots; both classes get `1/2`. -/
theorem score_loo_uniform_empty_query_witness :
    bow_naivebayes_score_loo ⟨Real.exp, Real.log⟩ true
        ({ method := bow_method_naivebayes
           cdocs := [⟨.model, 1 / 4, 0⟩, ⟨.model, 3 / 4, 0⟩]
           wi2dvf := { num_words := 1, entry := [] } } : bow_barrel ℝ)
        ⟨[]⟩ (List.replicate 3 none) 3 (-1)
      = .ok (2, [some { di := 0, weight := 1 / 2 }, some { di := 1, weight := 1 / 2 }, none]) := by
  have h := (score_loo_uniform_empty_query
    ({ method := bow_method_naivebayes
       cdocs := [⟨.model, 1 / 4, 0⟩, ⟨.model, 3 / 4, 0⟩]
       wi2dvf := { num_words := 1, entry := [] } } : bow_barrel ℝ) 3 (-1)
    (by simp) (by decide)).2.2
  rw [h]
  simp [List.range, List.range.loop]

theorem assert_pr_w_c_fdiv_iff (line : Nat) (x y v : K) :
    assert_pr_w_c line (fdiv x y) = .ok v ↔ y ≠ 0 ∧ v = x / y ∧ 0 < v ∧ v ≤ 1 := by
  unfold assert_pr_w_c fdiv
  by_cases hy : y = 0
  · simp [hy]
  · simp only [hy, if_false, ne_eq, not_false_eq_true, true_and]
    by_cases hb : 0 < x / y ∧ x / y ≤ 1
    · simp only [hb, and_self, if_true, Except.ok.injEq]
      constructor
      · rintro rfl
        exact ⟨rfl, hb⟩
      · rintro ⟨rfl, -⟩
        rfl
    · simp only [hb, if_false, reduceCtorEq, false_iff]
      rintro ⟨rfl, h⟩
      exact hb h

theorem pr_w_c_of_iff (barrel : bow_barrel K) (cdoc : bow_cdoc K) (de : Option (bow_de K))
    (loo : Bool) (q : bow_we) (v : K) :
    pr_w_c_of barrel cdoc de loo q = .ok v ↔
      (barrel.wi2dvf.num_words : K) ≠ 0 ∧
      (match de, loo with
        | some e, true =>
          assert_pr_w_c 245
            (fdiv (M_EST_M barrel cdoc * (1 / (barrel.wi2dvf.num_words : K))
                + (e.count : K) - (q.count : K))
              (M_EST_M barrel cdoc + (cdoc.word_count : K) - (q.count : K)))
        | some e, false =>
          assert_pr_w_c 252
            (fdiv (M_EST_M barrel cdoc * (1 / (barrel.wi2dvf.num_words : K)) + (e.count : K))
              (M_EST_M barrel cdoc + (cdoc.word_count : K)))
        | none, true =>
          assert_pr_w_c 265
            (fdiv (M_EST_M barrel cdoc * (1 / (barrel.wi2dvf.num_words : K)))
              (M_EST_M barrel cdoc + (cdoc.word_count : K) - (q.count : K)))
        | none, false =>
          assert_pr_w_c 271
            (fdiv (M_EST_M barrel cdoc * (1 / (barrel.wi2dvf.num_words : K)))
              (M_EST_M barrel cdoc + (cdoc.word_count : K)))) = .ok v := by
  unfold pr_w_c_of M_EST_P fdiv
  by_cases hV : (barrel.wi2dvf.num_words : K) = 0
  · simp [hV]
  · simp only [hV, if_false, ne_eq, not_false_eq_true, true_and]

/-- The value of `pr_w_c` in the four branches of lines 233-273.  The
constants are `m = M_EST_M = V / classWordCount` (`1` when `classWordCount` is
`0`) and `p = M_EST_P = 1 / V`.  For the leave-one-out class `pr_w_c` is
`(m p + rawCount - q) / (m + classWordCount - q)` with an entry and
`(m p) / (m + classWordCount - q)` without one, `q` being the count of the word
in the query; for every other class it is `(m p + rawCount) / (m + classWordCount)`
with an entry and `(m p) / (m + classWordCount)` without one.  A branch yields
a value exactly when no divisor is zero and the value passes the check
`0 < pr_w_c ≤ 1`. -/
theorem pr_w_c_leave_one_out (barrel : bow_barrel K) (cdoc : bow_cdoc K) (q : bow_we)
    (loo_class : Int) (ci : Nat) (v : K) :
    M_EST_M barrel cdoc = (if cdoc.word_count = 0 then (1 : K)
      else (barrel.wi2dvf.num_words : K) / (cdoc.word_count : K)) ∧
    (M_EST_P barrel = .ok v ↔
      (barrel.wi2dvf.num_words : K) ≠ 0 ∧ v = 1 / (barrel.wi2dvf.num_words : K)) ∧
    (∀ e : bow_de K,
      pr_w_c_of barrel cdoc (some e) (decide (loo_class = (ci : Int))) q = .ok v ↔
        (barrel.wi2dvf.num_words : K) ≠ 0 ∧
        (if loo_class = (ci : Int) then
          M_EST_M barrel cdoc + (cdoc.word_count : K) - (q.count : K) ≠ 0 ∧
          v = (M_EST_M barrel cdoc * (1 / (barrel.wi2dvf.num_words : K))
                + (e.count : K) - (q.count : K))
              / (M_EST_M barrel cdoc + (cdoc.word_count : K) - (q.count : K))
        else
          M_EST_M barrel cdoc + (cdoc.word_count : K) ≠ 0 ∧
          v = (M_EST_M barrel cdoc * (1 / (barrel.wi2dvf.num_words : K)) + (e.count : K))
              / (M_EST_M barrel cdoc + (cdoc.word_count : K))) ∧
        0 < v ∧ v ≤ 1) ∧
    (pr_w_c_of barrel cdoc none (decide (loo_class = (ci : Int))) q = .ok v ↔
        (barrel.wi2dvf.num_words : K) ≠ 0 ∧
        (if loo_class = (ci : Int) then
          M_EST_M barrel cdoc + (cdoc.word_count : K) - (q.count : K) ≠ 0 ∧
          v = (M_EST_M barrel cdoc * (1 / (barrel.wi2dvf.num_words : K)))
              / (M_EST_M barrel cdoc + (cdoc.word_count : K) - (q.count : K))
        else
          M_EST_M barrel cdoc + (cdoc.word_count : K) ≠ 0 ∧
          v = (M_EST_M barrel cdoc * (1 / (barrel.wi2dvf.num_words : K)))
              / (M_EST_M barrel cdoc + (cdoc.word_count : K))) ∧
        0 < v ∧ v ≤ 1) := by
  refine ⟨?_, ?_, ?_, ?_⟩
  · unfold M_EST_M
    by_cases h : cdoc.word_count = 0 <;> simp [h]
  · unfold M_EST_P fdiv
    by_cases hV : (barrel.wi2dvf.num_words : K) = 0
    · simp [hV]
    · simp only [hV, if_false, Except.ok.injEq, ne_eq, not_false_eq_true, true_and]
      exact eq_comm
  · intro e
    rw [pr_w_c_of_iff]
    by_cases h : loo_class = (ci : Int)
    · simp only [h, decide_True, if_true, assert_pr_w_c_fdiv_iff, and_assoc]
    · simp only [h, decide_False, if_false, assert_pr_w_c_fdiv_iff, and_assoc]
  · rw [pr_w_c_of_iff]
    by_cases h : loo_class = (ci : Int)
    · simp only [h, decide_True, if_true, assert_pr_w_c_fdiv_iff, and_assoc]
    · simp only [h, decide_False, if_false, assert_pr_w_c_fdiv_iff, and_assoc]

theorem m_estimate_bounds (V wc c : Int) (hV : 1 ≤ V) (hc : 0 ≤ c) (hcw : c ≤ wc) :
    (V : K) ≠ 0 ∧
    (if wc ≠ 0 then (V : K) / (wc : K) else 1) + (wc : K) ≠ 0 ∧
    0 < ((if wc ≠ 0 then (V : K) / (wc : K) else 1) * (1 / (V : K)) + (c : K))
        / ((if wc ≠ 0 then (V : K) / (wc : K) else 1) + (wc : K)) ∧
    ((if wc ≠ 0 then (V : K) / (wc : K) else 1) * (1 / (V : K)) + (c : K))
        / ((if wc ≠ 0 then (V : K) / (wc : K) else 1) + (wc : K)) ≤ 1 := by
  have hVk : (1 : K) ≤ (V : K) := by exact_mod_cast hV
  have hVpos : (0 : K) < (V : K) := lt_of_lt_of_le one_pos hVk
  have hck : (0 : K) ≤ (c : K) := by exact_mod_cast hc
  have hcwk : (c : K) ≤ (wc : K) := by exact_mod_cast hcw
  by_cases hw : wc = 0
  · subst hw
    have hc0 : c = 0 := le_antisymm hcw hc
    subst hc0
    simp only [ne_eq, not_true_eq_false, if_false, Int.cast_zero, add_zero, one_mul, div_one]
    refine ⟨ne_of_gt hVpos, one_ne_zero, by positivity, ?_⟩
    rw [div_le_one hVpos]
    exact hVk
  · have hwpos : (0 : K) < (wc : K) := by
      have : 0 < wc := by omega
      exact_mod_cast this
    simp only [ne_eq, hw, not_false_eq_true, if_true]
    have hden : 0 < (V : K) / (wc : K) + (wc : K) := by positivity
    have hnum : 0 < (V : K) / (wc : K) * (1 / (V : K)) + (c : K) := by positivity
    refine ⟨ne_of_gt hVpos, ne_of_gt hden, div_pos hnum hden, ?_⟩
    rw [div_le_one hden]
    have h1 : (V : K) / (wc : K) * (1 / (V : K)) = 1 / (wc : K) := by
      field_simp
      ring
    rw [h1]
    have h2 : 1 / (wc : K) ≤ (V : K) / (wc : K) := by
      apply div_le_div_of_nonneg_right hVk (le_of_lt hwpos)
    linarith

/-- C8, as amended: on a model on which `bow_naivebayes_set_weights` has run
(vocabulary of at least one word, no negative count), for every entry of the
word table and every query entry, when the class of the entry is not the
leave-one-out class, the stored weight of the entry is
`(1 + rawCount) / (V + classWordCount)`, but the `pr_w_c` of lines 249-251 is
recomputed from the counts as `(m p + rawCount) / (m + classWordCount)` with
`m = M_EST_M` and `p = 1 / V`; this is `(1 + rawCount * classWordCount) /
(V + classWordCount²)` when `classWordCount ≠ 0`, and the stored weight is not
read. -/
theorem pr_w_c_after_set_weights (nw : Nat) (b0 b : bow_barrel K)
    (hvoc : table_within_vocabulary nw b0) (hV : 1 ≤ b0.wi2dvf.num_words)
    (hcount : ∀ e ∈ all_entries b0, 0 ≤ e.count)
    (hrun : bow_naivebayes_set_weights nw b0 = .ok b)
    (e : bow_de K) (he : e ∈ all_entries b) (cdoc : bow_cdoc K)
    (hc : b.cdocs[e.di]? = some cdoc) (q : bow_we) (loo_class : Int)
    (hloo : loo_class ≠ (e.di : Int)) :
    e.weight = ((1 + e.count : Int) : K) / ((b.wi2dvf.num_words + cdoc.word_count : Int) : K) ∧
    pr_w_c_of b cdoc (some e) (decide (loo_class = (e.di : Int))) q
      = .ok ((M_EST_M b cdoc * (1 / (b.wi2dvf.num_words : K)) + (e.count : K))
          / (M_EST_M b cdoc + (cdoc.word_count : K))) ∧
    (cdoc.word_count ≠ 0 →
      (M_EST_M b cdoc * (1 / (b.wi2dvf.num_words : K)) + (e.count : K))
          / (M_EST_M b cdoc + (cdoc.word_count : K))
        = (1 + (e.count : K) * (cdoc.word_count : K))
          / ((b.wi2dvf.num_words : K) + (cdoc.word_count : K) * (cdoc.word_count : K))) := by
  obtain ⟨-, -, hvalid, -, hb⟩ := (set_weights_iff nw b0 b hvoc).1 hrun
  have hall := all_entries_weighted b0 b0.wi2dvf.num_words
    (add_counts (all_entries b0) (reset_word_counts b0.cdocs)) b (by rw [hb])
  rw [hall] at he
  obtain ⟨e0, he0, rfl⟩ := List.mem_map.1 he
  have hV' : b.wi2dvf.num_words = b0.wi2dvf.num_words := by rw [hb]
  have hcd : b.cdocs = add_counts (all_entries b0) (reset_word_counts b0.cdocs) := by rw [hb]
  have hdi : (laplace_entry b0.wi2dvf.num_words
      (add_counts (all_entries b0) (reset_word_counts b0.cdocs)) e0).di = e0.di := rfl
  have hcnt : (laplace_entry b0.wi2dvf.num_words
      (add_counts (all_entries b0) (reset_word_counts b0.cdocs)) e0).count = e0.count := rfl
  rw [hdi] at hc hloo
  have hlt : e0.di < b0.cdocs.length := hvalid e0 he0
  have hwc : word_count_at (add_counts (all_entries b0) (reset_word_counts b0.cdocs)) e0.di
      = cdoc.word_count := by
    unfold word_count_at
    rw [← hcd, hc]
  have hwc2 : cdoc.word_count = count_in (all_entries b0) e0.di := by
    rw [← hwc]
    exact word_count_at_add_counts_reset _ _ _ hlt
  have hle : e0.count ≤ cdoc.word_count := by
    rw [hwc2]
    exact count_le_count_in _ hcount e0 he0
  have hnn : 0 ≤ e0.count := hcount e0 he0
  obtain ⟨h1, h2, h3, h4⟩ := m_estimate_bounds (K := K) b.wi2dvf.num_words cdoc.word_count e0.count
    (by rw [hV']; exact hV) hnn hle
  have hM : M_EST_M b cdoc = (if cdoc.word_count ≠ 0
      then (b.wi2dvf.num_words : K) / (cdoc.word_count : K) else 1) := rfl
  rw [hdi, hcnt]
  refine ⟨?_, ?_, ?_⟩
  · show laplace_weight _ _ e0 = _
    unfold laplace_weight
    rw [hwc, hV']
  · have hdec : decide (loo_class = (e0.di : Int)) = false := by simp [hloo]
    rw [hdec, pr_w_c_of_iff]
    refine ⟨h1, ?_⟩
    rw [assert_pr_w_c_fdiv_iff, hM]
    exact ⟨h2, rfl, h3, h4⟩
  · intro hne
    have hwk : (cdoc.word_count : K) ≠ 0 := by exact_mod_cast hne
    have hVk : (1 : K) ≤ (b.wi2dvf.num_words : K) := by
      rw [hV']
      exact_mod_cast hV
    have hVpos : (0 : K) < (b.wi2dvf.num_words : K) := lt_of_lt_of_le one_pos hVk
    have hd1 : (b.wi2dvf.num_words : K) + (cdoc.word_count : K) * (cdoc.word_count : K) ≠ 0 := by
      have := mul_self_nonneg (cdoc.word_count : K)
      exact ne_of_gt (by linarith)
    rw [hM]
    simp only [ne_eq, hne, not_false_eq_true, if_true] at h2 ⊢
    rw [div_eq_div_iff h2 hd1]
    field_simp
    ring

theorem two_class_barrel_counts : ∀ e ∈ all_entries two_class_barrel, 0 ≤ e.count := by
  intro e he
  simp [all_entries, two_class_barrel, List.reduceOption] at he
  rcases he with rfl | rfl | rfl <;> decide

/-- Witness for C8 as amended: the entry of `w1` for the class `A` in the worked
example, scored with no leave-one-out class. -/
theorem pr_w_c_after_set_weights_witness :
    (⟨0, 3, 1 / 2⟩ : bow_de ℚ).weight
      = ((1 + 3 : Int) : ℚ) / ((4 + 4 : Int) : ℚ) ∧
    pr_w_c_of two_class_barrel_weighted ⟨.model, 1 / 2, 4⟩ (some ⟨0, 3, 1 / 2⟩)
        (decide ((-1 : Int) = ((0 : Nat) : Int))) ⟨0, 1⟩
      = .ok ((M_EST_M two_class_barrel_weighted ⟨.model, 1 / 2, 4⟩ * (1 / ((4 : Int) : ℚ))
            + ((3 : Int) : ℚ))
          / (M_EST_M two_class_barrel_weighted ⟨.model, 1 / 2, 4⟩ + ((4 : Int) : ℚ))) := by
  have h := pr_w_c_after_set_weights 4 two_class_barrel two_class_barrel_weighted
    two_class_barrel_vocabulary (by decide) two_class_barrel_counts two_class_barrel_run
    ⟨0, 3, 1 / 2⟩ (by simp [all_entries, two_class_barrel_weighted, List.reduceOption])
    ⟨.model, 1 / 2, 4⟩ rfl ⟨0, 1⟩ (-1) (by decide)
  exact ⟨h.1, h.2.1⟩

/-- Counterexample to C8 as stated: in the worked example, after the weights
have been set, the entry of `w1` for the class `A` has the stored weight
`1/2`, while the `pr_w_c` computed for it in a call without leave-one-out class
is `13/20`. -/
theorem pr_w_c_differs_from_weight :
    bow_naivebayes_set_weights 4 two_class_barrel = .ok two_class_barrel_weighted ∧
    bow_wi2dvf_dv two_class_barrel_weighted.wi2dvf 0
      = some { idf := 1, entry := [⟨0, 3, 1 / 2⟩] } ∧
    bow_array_entry_at_index two_class_barrel_weighted.cdocs 0 = .ok ⟨.model, 1 / 2, 4⟩ ∧
    entry_at [(⟨0, 3, 1 / 2⟩ : bow_de ℚ)] (advance_dvi [(⟨0, 3, 1 / 2⟩ : bow_de ℚ)] 0 1 0) 0
      = some ⟨0, 3, 1 / 2⟩ ∧
    pr_w_c_of two_class_barrel_weighted ⟨.model, 1 / 2, 4⟩ (some ⟨0, 3, 1 / 2⟩)
        (decide ((-1 : Int) = ((0 : Nat) : Int))) ⟨0, 1⟩ = .ok (13 / 20) ∧
    (13 / 20 : ℚ) ≠ (⟨0, 3, 1 / 2⟩ : bow_de ℚ).weight := by
  refine ⟨two_class_barrel_run, rfl, rfl, ?_, ?_, ?_⟩
  · simp [entry_at, advance_dvi]
  · simp [pr_w_c_of, M_EST_P, M_EST_M, fdiv, assert_pr_w_c, two_class_barrel_weighted]
    norm_num
  · norm_num

theorem fdiv_ne_179 (x y : K) : fdiv x y ≠ .error (.assertion 179) := by
  unfold fdiv
  split <;> simp

theorem assert_pr_w_c_ne_179 (line : Nat) (hl : line ≠ 179) (x y : K) :
    assert_pr_w_c line (fdiv x y) ≠ .error (.assertion 179) := by
  unfold assert_pr_w_c fdiv
  split
  · rename_i a h
    split at h
    · cases h
      simp
    · cases h
  · split
    · simp
    · simp [hl]

theorem pr_w_c_of_ne_179 (barrel : bow_barrel K) (cdoc : bow_cdoc K) (de : Option (bow_de K))
    (loo : Bool) (q : bow_we) : pr_w_c_of barrel cdoc de loo q ≠ .error (.assertion 179) := by
  unfold pr_w_c_of M_EST_P
  split
  · rename_i a h
    intro h2
    rw [Except.error.injEq] at h2
    rw [h2] at h
    exact fdiv_ne_179 _ _ h
  · split
    · exact assert_pr_w_c_ne_179 _ (by decide) _ _
    · exact assert_pr_w_c_ne_179 _ (by decide) _ _
    · exact assert_pr_w_c_ne_179 _ (by decide) _ _
    · exact assert_pr_w_c_ne_179 _ (by decide) _ _

theorem log_pr_tf_of_ne_179 (L : libm K) (lm : Bool) (pr : K) (q : bow_we) :
    log_pr_tf_of L lm pr q ≠ .error (.assertion 179) := by
  unfold log_pr_tf_of
  simp only
  split <;> split <;> simp

theorem class_loop_ne_179 (L : libm K) (barrel : bow_barrel K) (dv : bow_dv K) (q : bow_we)
    (loo : Int) (cdocs : List (bow_cdoc K)) (ss : List K) (ci dvi : Nat) (r : K) :
    class_loop L barrel dv q loo cdocs ss ci dvi r ≠ .error (.assertion 179) := by
  induction cdocs generalizing ss ci dvi r with
  | nil => simp [class_loop]
  | cons c cs ih =>
    cases ss with
    | nil => simp [class_loop]
    | cons s ss =>
      unfold class_loop
      simp only
      split
      · split
        · rename_i a h
          intro h2
          rw [Except.error.injEq] at h2
          rw [h2] at h
          exact pr_w_c_of_ne_179 _ _ _ _ _ h
        · split
          · rename_i a h
            intro h2
            rw [Except.error.injEq] at h2
            rw [h2] at h
            exact log_pr_tf_of_ne_179 _ _ _ _ h
          · split
            · rename_i a h
              intro h2
              rw [Except.error.injEq] at h2
              rw [h2] at h
              exact ih _ _ _ _ h
            · simp
      · simp

theorem rescale_scores_ne_179 (r : K) (ss : List K) :
    rescale_scores r ss ≠ .error (.assertion 179) := by
  induction ss with
  | nil => simp [rescale_scores]
  | cons s ss ih =>
    unfold rescale_scores
    simp only
    split
    · split
      · rename_i a h
        intro h2
        rw [Except.error.injEq] at h2
        rw [h2] at h
        exact ih h
      · simp
    · simp

theorem word_loop_ne_179 (L : libm K) (barrel : bow_barrel K) (loo : Int) (qs : List bow_we)
    (scores : List K) : word_loop L barrel loo qs scores ≠ .error (.assertion 179) := by
  induction qs generalizing scores with
  | nil => simp [word_loop]
  | cons q qs ih =>
    unfold word_loop
    split
    · exact ih _
    · split
      · rename_i a h
        intro h2
        rw [Except.error.injEq] at h2
        rw [h2] at h
        exact class_loop_ne_179 _ _ _ _ _ _ _ _ _ _ h
      · split
        · split
          · split
            · rename_i a h
              intro h2
              rw [Except.error.injEq] at h2
              rw [h2] at h
              exact rescale_scores_ne_179 _ _ h
            · exact ih _
          · exact ih _
        · exact ih _

theorem reciprocal_scores_ne_179 (ss : List K) :
    reciprocal_scores ss ≠ .error (.assertion 179) := by
  induction ss with
  | nil => simp [reciprocal_scores]
  | cons s ss ih =>
    unfold reciprocal_scores
    split
    · rename_i a h
      intro h2
      rw [Except.error.injEq] at h2
      rw [h2] at h
      exact fdiv_ne_179 _ _ h
    · split
      · rename_i a h
        intro h2
        rw [Except.error.injEq] at h2
        rw [h2] at h
        exact ih h
      · simp

theorem divide_scores_ne_179 (s : K) (ss : List K) :
    divide_scores s ss ≠ .error (.assertion 179) := by
  induction ss with
  | nil => simp [divide_scores]
  | cons x ss ih =>
    unfold divide_scores
    split
    · rename_i a h
      intro h2
      rw [Except.error.injEq] at h2
      rw [h2] at h
      exact fdiv_ne_179 _ _ h
    · split
      · rename_i a h
        intro h2
        rw [Except.error.injEq] at h2
        rw [h2] at h
        exact ih h
      · simp

theorem buf_read_ne_179 (bscores : List (Option (bow_score K))) (i : Nat) :
    buf_read bscores i ≠ .error (.assertion 179) := by
  unfold buf_read
  split <;> simp

theorem buf_write_ne_179 (bscores : List (Option (bow_score K))) (i : Nat) (s : bow_score K) :
    buf_write bscores i s ≠ .error (.assertion 179) := by
  unfold buf_write
  split <;> simp

theorem shift_down_ne_179 (x : K) (dsi : Nat) (bscores : List (Option (bow_score K))) :
    shift_down x dsi bscores ≠ .error (.assertion 179) := by
  induction dsi generalizing bscores with
  | zero => simp [shift_down]
  | succ dsi ih =>
    unfold shift_down
    split
    · rename_i a h
      intro h2
      rw [Except.error.injEq] at h2
      rw [h2] at h
      exact buf_read_ne_179 _ _ h
    · split
      · split
        · rename_i a h
          intro h2
          rw [Except.error.injEq] at h2
          rw [h2] at h
          exact buf_write_ne_179 _ _ _ h
        · exact ih _
      · simp

theorem topk_step_ne_179 (k ci : Nat) (x : K) (st : Nat × List (Option (bow_score K))) :
    topk_step k ci x st ≠ .error (.assertion 179) := by
  unfold topk_step
  simp only
  split
  · rename_i a h
    intro h2
    rw [Except.error.injEq] at h2
    rw [h2] at h
    split at h
    · cases h
    · split at h
      · rename_i a2 h3
        rw [Except.error.injEq] at h
        rw [h] at h3
        unfold read_last at h3
        split at h3
        · cases h3
        · exact buf_read_ne_179 _ _ h3
      · cases h
  · simp
  · split
    · rename_i a h
      intro h2
      rw [Except.error.injEq] at h2
      rw [h2] at h
      exact shift_down_ne_179 _ _ _ h
    · split
      · rename_i a h
        intro h2
        rw [Except.error.injEq] at h2
        rw [h2] at h
        exact buf_write_ne_179 _ _ _ h
      · simp

theorem topk_loop_ne_179 (k : Nat) (xs : List K) (ci : Nat)
    (st : Nat × List (Option (bow_score K))) :
    topk_loop k xs ci st ≠ .error (.assertion 179) := by
  induction xs generalizing ci st with
  | nil => simp [topk_loop]
  | cons x xs ih =>
    unfold topk_loop
    split
    · rename_i a h
      intro h2
      rw [Except.error.injEq] at h2
      rw [h2] at h
      exact topk_step_ne_179 _ _ _ _ h
    · exact ih _ _

/-- C10: in a model with at least one class, a call of
`bow_naivebayes_score_loo` with a leave-one-out class (`loo_class ≠ -1`) and
with `bow_uniform_class_priors` unset is stopped by the `assert` of line 179
and returns no result; the same call with `bow_uniform_class_priors` set is
never stopped by that `assert`. -/
theorem score_loo_requires_uniform_priors (L : libm K) (barrel : bow_barrel K)
    (query_wv : bow_wv) (bscores : List (Option (bow_score K))) (bscores_len : Nat)
    (loo_class : Int) (hn : barrel.cdocs ≠ []) (hloo : loo_class ≠ -1) :
    bow_naivebayes_score_loo L false barrel query_wv bscores bscores_len loo_class
      = .error (.assertion 179) ∧
    bow_naivebayes_score_loo L true barrel query_wv bscores bscores_len loo_class
      ≠ .error (.assertion 179) := by
  constructor
  · obtain ⟨c, cs, hcs⟩ := List.exists_cons_of_ne_nil hn
    simp [bow_naivebayes_score_loo, class_scores, accumulate_scores, hcs, init_scores, hloo]
  · unfold bow_naivebayes_score_loo class_scores accumulate_scores
    rw [init_scores_uniform]
    simp only
    split
    · rename_i a h
      intro h2
      rw [Except.error.injEq] at h2
      rw [h2] at h
      split at h
      · rename_i a2 h3
        rw [Except.error.injEq] at h
        rw [h] at h3
        exact word_loop_ne_179 _ _ _ _ _ h3
      · split at h
        · rename_i a2 h3
          rw [Except.error.injEq] at h
          rw [h] at h3
          unfold finish_scores at h3
          split at h3
          · cases h3
          · exact reciprocal_scores_ne_179 _ h3
        · unfold normalize_scores at h
          exact divide_scores_ne_179 _ _ h
    · unfold select_scores
      exact topk_loop_ne_179 _ _ _ _

/-- Witness for C10: the single-class model, a query of one word, the only
class left out. -/
theorem score_loo_requires_uniform_priors_witness :
    bow_naivebayes_score_loo ⟨Real.exp, Real.log⟩ false (one_class_barrel : bow_barrel ℝ)
        ⟨[⟨0, 2⟩]⟩ (List.replicate 1 none) 1 0 = .error (.assertion 179) ∧
    bow_naivebayes_score_loo ⟨Real.exp, Real.log⟩ true (one_class_barrel : bow_barrel ℝ)
        ⟨[⟨0, 2⟩]⟩ (List.replicate 1 none) 1 0 ≠ .error (.assertion 179) :=
  score_loo_requires_uniform_priors ⟨Real.exp, Real.log⟩ one_class_barrel ⟨[⟨0, 2⟩]⟩
    (List.replicate 1 none) 1 0 (by simp [one_class_barrel]) (by decide)

/-- The bound on the rounds of the cursor loop is never reached: when the loop
of lines 230-232 is left, its condition is false. -/
theorem advance_dvi_exit (entry : List (bow_de K)) (ci : Nat) (fuel dvi : Nat)
    (hfuel : entry.length ≤ dvi + fuel) (e : bow_de K)
    (he : entry[advance_dvi entry ci fuel dvi]? = some e) : ¬ e.di < ci := by
  induction fuel generalizing dvi with
  | zero =>
    unfold advance_dvi at he
    rw [List.getElem?_eq_none_iff.2 (by omega)] at he
    cases he
  | succ fuel ih =>
    unfold advance_dvi at he
    cases h0 : entry[dvi]? with
    | none =>
      simp only [h0] at he
      cases he
    | some e0 =>
      simp only [h0] at he
      by_cases hlt : e0.di < ci
      · simp only [hlt, if_true] at he
        exact ih (dvi + 1) (by omega) he
      · simp only [hlt, if_false] at he
        rw [h0, Option.some.injEq] at he
        rw [← he]
        exact hlt

/-! ## The ways in which `bow_naivebayes_set_weights` stops -/

theorem check_priors_error (cdocs : List (bow_cdoc K)) (a : Abort)
    (h : check_priors cdocs = .error a) : a = .assertion 50 ∧ ∃ c ∈ cdocs, c.prior < 0 := by
  induction cdocs with
  | nil => simp [check_priors] at h
  | cons c cs ih =>
    unfold check_priors at h
    by_cases hc : 0 ≤ c.prior
    · simp only [hc, if_true] at h
      obtain ⟨h1, c2, hc2, h2⟩ := ih h
      exact ⟨h1, c2, List.mem_cons_of_mem _ hc2, h2⟩
    · simp only [hc, if_false, Except.error.injEq] at h
      exact ⟨h.symm, c, List.mem_cons_self _ _, not_le.1 hc⟩

theorem add_dv_counts_error (es : List (bow_de K)) (cdocs : List (bow_cdoc K)) (a : Abort)
    (h : add_dv_counts es cdocs = .error a) : a = .index_out_of_bounds := by
  induction es generalizing cdocs with
  | nil => simp [add_dv_counts] at h
  | cons e es ih =>
    unfold add_dv_counts bow_array_entry_at_index at h
    cases hc : cdocs[e.di]? with
    | none =>
      simp only [hc, Except.error.injEq] at h
      exact h.symm
    | some c =>
      simp only [hc] at h
      exact ih _ h

theorem count_words_error (w : bow_wi2dvf K) (wis : List Nat) (cdocs : List (bow_cdoc K))
    (a : Abort) (h : count_words w wis cdocs = .error a) : a = .index_out_of_bounds := by
  induction wis generalizing cdocs with
  | nil => simp [count_words] at h
  | cons wi wis ih =>
    unfold count_words at h
    cases hdv : bow_wi2dvf_dv w wi with
    | none =>
      simp only [hdv] at h
      exact ih _ h
    | some dv =>
      simp only [hdv] at h
      cases h2 : add_dv_counts dv.entry cdocs with
      | error a2 =>
        simp only [h2, Except.error.injEq] at h
        rw [← h]
        exact add_dv_counts_error _ _ _ h2
      | ok cdocs1 =>
        simp only [h2] at h
        exact ih _ h

theorem set_dv_weights_error (V : Int) (cdocs : List (bow_cdoc K)) (es : List (bow_de K))
    (a : Abort) (h : set_dv_weights V cdocs es = .error a) :
    (a = .index_out_of_bounds ∧ ∃ e ∈ es, cdocs.length ≤ e.di) ∨
    (a = .division_by_zero ∧ ∃ e ∈ es, ((V + word_count_at cdocs e.di : Int) : K) = 0) ∨
    (a = .assertion 115 ∧ ∃ e ∈ es, ((V + word_count_at cdocs e.di : Int) : K) ≠ 0 ∧
      laplace_weight V cdocs e ≤ 0) := by
  induction es with
  | nil => simp [set_dv_weights] at h
  | cons e es ih =>
    have lift : ((a = .index_out_of_bounds ∧ ∃ e ∈ es, cdocs.length ≤ e.di) ∨
        (a = .division_by_zero ∧ ∃ e ∈ es, ((V + word_count_at cdocs e.di : Int) : K) = 0) ∨
        (a = .assertion 115 ∧ ∃ e ∈ es, ((V + word_count_at cdocs e.di : Int) : K) ≠ 0 ∧
          laplace_weight V cdocs e ≤ 0)) →
        ((a = .index_out_of_bounds ∧ ∃ x ∈ e :: es, cdocs.length ≤ x.di) ∨
        (a = .division_by_zero ∧ ∃ x ∈ e :: es, ((V + word_count_at cdocs x.di : Int) : K) = 0) ∨
        (a = .assertion 115 ∧ ∃ x ∈ e :: es, ((V + word_count_at cdocs x.di : Int) : K) ≠ 0 ∧
          laplace_weight V cdocs x ≤ 0)) := by
      rintro (⟨h1, x, hx, h2⟩ | ⟨h1, x, hx, h2⟩ | ⟨h1, x, hx, h2⟩)
      · exact Or.inl ⟨h1, x, List.mem_cons_of_mem _ hx, h2⟩
      · exact Or.inr (Or.inl ⟨h1, x, List.mem_cons_of_mem _ hx, h2⟩)
      · exact Or.inr (Or.inr ⟨h1, x, List.mem_cons_of_mem _ hx, h2⟩)
    unfold set_dv_weights bow_array_entry_at_index at h
    cases hc : cdocs[e.di]? with
    | none =>
      simp only [hc, Except.error.injEq] at h
      exact Or.inl ⟨h.symm, e, List.mem_cons_self _ _, List.getElem?_eq_none_iff.1 hc⟩
    | some c =>
      simp only [hc] at h
      have hwc : word_count_at cdocs e.di = c.word_count := by simp [word_count_at, hc]
      by_cases hz : ((V + c.word_count : Int) : K) = 0
      · simp only [fdiv, hz, if_true, Except.error.injEq] at h
        exact Or.inr (Or.inl ⟨h.symm, e, List.mem_cons_self _ _, by rw [hwc]; exact hz⟩)
      · simp only [fdiv, hz, if_false] at h
        have hw : laplace_weight V cdocs e
            = ((1 + e.count : Int) : K) / ((V + c.word_count : Int) : K) := by
          simp [laplace_weight, hwc]
        by_cases hp : 0 < ((1 + e.count : Int) : K) / ((V + c.word_count : Int) : K)
        · simp only [hp, if_true] at h
          cases h2 : set_dv_weights V cdocs es with
          | error a2 =>
            simp only [h2, Except.error.injEq] at h
            subst h
            exact lift (ih h2)
          | ok es1 => simp only [h2, reduceCtorEq] at h
        · simp only [hp, if_false, Except.error.injEq] at h
          exact Or.inr (Or.inr ⟨h.symm, e, List.mem_cons_self _ _, by rw [hwc]; exact hz,
            by rw [hw]; exact not_lt.1 hp⟩)

theorem weight_words_error (cdocs : List (bow_cdoc K)) (n s : Nat) (w : bow_wi2dvf K)
    (a : Abort) (h : weight_words cdocs (List.range' s n) w = .error a) :
    (a = .index_out_of_bounds ∧ ∃ e ∈ visited w (List.range' s n), cdocs.length ≤ e.di) ∨
    (a = .division_by_zero ∧ ∃ e ∈ visited w (List.range' s n),
      ((w.num_words + word_count_at cdocs e.di : Int) : K) = 0) ∨
    (a = .assertion 115 ∧ ∃ e ∈ visited w (List.range' s n),
      ((w.num_words + word_count_at cdocs e.di : Int) : K) ≠ 0 ∧
      laplace_weight w.num_words cdocs e ≤ 0) := by
  induction n generalizing s w with
  | zero => simp [weight_words] at h
  | succ n ih =>
    simp only [List.range'_succ] at h ⊢
    unfold weight_words at h
    cases hdv : bow_wi2dvf_dv w s with
    | none =>
      simp only [hdv] at h
      rw [visited_cons_none w s _ hdv]
      exact ih _ _ h
    | some dv =>
      simp only [hdv] at h
      rw [visited_cons_some w s _ dv hdv]
      cases h2 : set_dv_weights w.num_words cdocs dv.entry with
      | error a2 =>
        simp only [h2, Except.error.injEq] at h
        rw [← h]
        rcases set_dv_weights_error _ _ _ _ h2 with ⟨h1, x, hx, h3⟩ | ⟨h1, x, hx, h3⟩ |
          ⟨h1, x, hx, h3⟩
        · exact Or.inl ⟨h1, x, List.mem_append_left _ hx, h3⟩
        · exact Or.inr (Or.inl ⟨h1, x, List.mem_append_left _ hx, h3⟩)
        · exact Or.inr (Or.inr ⟨h1, x, List.mem_append_left _ hx, h3⟩)
      | ok es1 =>
        simp only [h2] at h
        have hv : visited { w with entry := w.entry.set s (some { idf := 1, entry := es1 }) }
            (List.range' (s + 1) n) = visited w (List.range' (s + 1) n) := by
          apply visited_congr
          intro i hi
          apply bow_wi2dvf_dv_set_ne
          have := (List.mem_range'_1.1 hi).1
          omega
        have := ih _ _ h
        rw [hv] at this
        rcases this with ⟨h1, x, hx, h3⟩ | ⟨h1, x, hx, h3⟩ | ⟨h1, x, hx, h3⟩
        · exact Or.inl ⟨h1, x, List.mem_append_right _ hx, h3⟩
        · exact Or.inr (Or.inl ⟨h1, x, List.mem_append_right _ hx, h3⟩)
        · exact Or.inr (Or.inr ⟨h1, x, List.mem_append_right _ hx, h3⟩)

/-- The stops of a run: the check of the method name, the check of the priors,
or a stop inside the two passes over the word table. -/
theorem set_weights_error_kind (nw : Nat) (b : bow_barrel K) (a : Abort)
    (h : bow_naivebayes_set_weights nw b = .error a) :
    (a = .assertion 41 ∧ ¬ (b.method.name = "naivebayes" ∨ b.method.name = "crossentropy")) ∨
    (a = .assertion 50 ∧ (b.method.name = "naivebayes" ∨ b.method.name = "crossentropy") ∧
      ∃ c ∈ b.cdocs, c.prior < 0) ∨
    ((b.method.name = "naivebayes" ∨ b.method.name = "crossentropy") ∧
      (∀ c ∈ b.cdocs, 0 ≤ c.prior) ∧
      (a = .index_out_of_bounds ∨ a = .division_by_zero ∨ a = .assertion 115)) := by
  unfold bow_naivebayes_set_weights at h
  by_cases hm : b.method.name = "naivebayes" ∨ b.method.name = "crossentropy"
  swap
  · simp only [hm, if_false, Except.error.injEq] at h
    exact Or.inl ⟨h.symm, hm⟩
  simp only [hm, if_true] at h
  cases hp : check_priors b.cdocs with
  | error a2 =>
    simp only [hp, Except.error.injEq] at h
    subst h
    obtain ⟨h1, h2⟩ := check_priors_error _ _ hp
    exact Or.inr (Or.inl ⟨h1, hm, h2⟩)
  | ok u =>
    simp only [hp] at h
    have hpr := (check_priors_iff b.cdocs).1 hp
    refine Or.inr (Or.inr ⟨hm, hpr, ?_⟩)
    cases hc : count_words b.wi2dvf (List.range (min b.wi2dvf.size nw))
        (reset_word_counts b.cdocs) with
    | error a2 =>
      simp only [hc, Except.error.injEq] at h
      subst h
      exact Or.inl (count_words_error _ _ _ _ hc)
    | ok cdocs1 =>
      simp only [hc] at h
      cases hw : weight_words cdocs1 (List.range (min b.wi2dvf.size nw)) b.wi2dvf with
      | error a2 =>
        simp only [hw, Except.error.injEq] at h
        subst h
        rw [List.range_eq_range'] at hw
        rcases weight_words_error _ _ _ _ _ hw with ⟨h1, -⟩ | ⟨h1, -⟩ | ⟨h1, -⟩
        · exact Or.inl h1
        · exact Or.inr (Or.inl h1)
        · exact Or.inr (Or.inr h1)
      | ok w1 => simp only [hw, reduceCtorEq] at h

/-- A stop inside the passes over the word table, traced to an entry. -/
theorem set_weights_error_entry (nw : Nat) (b : bow_barrel K) (a : Abort)
    (hvoc : table_within_vocabulary nw b)
    (hm : b.method.name = "naivebayes" ∨ b.method.name = "crossentropy")
    (hp : ∀ c ∈ b.cdocs, 0 ≤ c.prior)
    (h : bow_naivebayes_set_weights nw b = .error a) :
    (a = .index_out_of_bounds ∧ ¬ valid_class_indices b) ∨
    (a = .division_by_zero ∧ ∃ e ∈ all_entries b,
      ((b.wi2dvf.num_words + class_total b e.di : Int) : K) = 0) ∨
    (a = .assertion 115 ∧ ∃ e ∈ all_entries b,
      ((b.wi2dvf.num_words + class_total b e.di : Int) : K) ≠ 0 ∧
      ((1 + e.count : Int) : K) / ((b.wi2dvf.num_words + class_total b e.di : Int) : K) ≤ 0) := by
  have hcw := count_words_iff b.wi2dvf (List.range (min b.wi2dvf.size nw))
    (reset_word_counts b.cdocs)
  rw [visited_range nw b hvoc, length_reset_word_counts] at hcw
  unfold bow_naivebayes_set_weights at h
  simp only [hm, if_true, (check_priors_iff _).2 hp] at h
  cases hc : count_words b.wi2dvf (List.range (min b.wi2dvf.size nw))
      (reset_word_counts b.cdocs) with
  | error a2 =>
    simp only [hc, Except.error.injEq] at h
    subst h
    refine Or.inl ⟨count_words_error _ _ _ _ hc, ?_⟩
    intro hv
    rw [(hcw _).2 ⟨hv, rfl⟩] at hc
    cases hc
  | ok cdocs1 =>
    simp only [hc] at h
    obtain ⟨hv, rfl⟩ := (hcw cdocs1).1 hc
    have hwc : ∀ e ∈ all_entries b,
        word_count_at (add_counts (all_entries b) (reset_word_counts b.cdocs)) e.di
          = class_total b e.di := fun e he =>
      word_count_at_add_counts_reset (all_entries b) b.cdocs e.di (hv e he)
    cases hw : weight_words (add_counts (all_entries b) (reset_word_counts b.cdocs))
        (List.range (min b.wi2dvf.size nw)) b.wi2dvf with
    | error a2 =>
      simp only [hw, Except.error.injEq] at h
      subst h
      rw [List.range_eq_range'] at hw
      have hcl := weight_words_error _ _ _ _ _ hw
      rw [← List.range_eq_range', visited_range nw b hvoc] at hcl
      rcases hcl with ⟨-, e, he, h2⟩ | ⟨h1, e, he, h2⟩ | ⟨h1, e, he, h2, h3⟩
      · rw [length_add_counts_reset] at h2
        exact absurd (hv e he) (not_lt.2 h2)
      · rw [hwc e he] at h2
        exact Or.inr (Or.inl ⟨h1, e, he, h2⟩)
      · unfold laplace_weight at h3
        rw [hwc e he] at h2 h3
        exact Or.inr (Or.inr ⟨h1, e, he, h2, h3⟩)
    | ok w1 => simp only [hw, reduceCtorEq] at h

/-- C11, as amended: `bow_naivebayes_set_weights` is stopped by an `assert` for
every model in which some class has a negative prior (by the check of line 50
when the method name is accepted), and it is not stopped by the check of the
priors when every prior is non-negative; a prior of exactly `0` passes. -/
theorem set_weights_prior_check (nw : Nat) (b : bow_barrel K) :
    ((∃ c ∈ b.cdocs, c.prior < 0) →
      ∃ line, bow_naivebayes_set_weights nw b = .error (.assertion line) ∧
        ((b.method.name = "naivebayes" ∨ b.method.name = "crossentropy") → line = 50)) ∧
    ((∀ c ∈ b.cdocs, 0 ≤ c.prior) →
      bow_naivebayes_set_weights nw b ≠ .error (.assertion 50)) := by
  constructor
  · rintro ⟨c, hc, hneg⟩
    unfold bow_naivebayes_set_weights
    by_cases hm : b.method.name = "naivebayes" ∨ b.method.name = "crossentropy"
    · simp only [hm, if_true]
      cases hp : check_priors b.cdocs with
      | error a =>
        obtain ⟨h1, -⟩ := check_priors_error _ _ hp
        subst h1
        exact ⟨50, rfl, fun _ => rfl⟩
      | ok u =>
        exact absurd ((check_priors_iff _).1 hp c hc) (not_le.2 hneg)
    · simp only [hm, if_false]
      exact ⟨41, rfl, fun h => h.elim⟩
  · intro hall h
    rcases set_weights_error_kind nw b _ h with ⟨h1, -⟩ | ⟨-, -, c, hc, hneg⟩ | ⟨-, -, h1⟩
    · cases h1
    · exact absurd (hall c hc) (not_le.2 hneg)
    · rcases h1 with h1 | h1 | h1 <;> cases h1

/-- Witness for C11 as amended: the prior `-1` stops the run at line 50; the
priors `1/2, 1/2` of the worked example do not. -/
theorem set_weights_prior_check_witness :
    (∃ line, bow_naivebayes_set_weights 4 negative_prior_barrel = .error (.assertion line) ∧
      ((negative_prior_barrel.method.name = "naivebayes"
        ∨ negative_prior_barrel.method.name = "crossentropy") → line = 50)) ∧
    bow_naivebayes_set_weights 4 two_class_barrel ≠ .error (.assertion 50) :=
  ⟨(set_weights_prior_check 4 negative_prior_barrel).1
      ⟨⟨.model, -1, 0⟩, by simp [negative_prior_barrel], by norm_num⟩,
    (set_weights_prior_check 4 two_class_barrel).2 (by
      intro c hc
      simp [two_class_barrel] at hc
      rcases hc with rfl | rfl <;> norm_num)⟩

/-- Counterexample to C11 as stated: a class with the prior exactly `0` does
not stop `bow_naivebayes_set_weights`; the run completes. -/
theorem set_weights_accepts_zero_prior :
    (∃ c ∈ zero_prior_barrel.cdocs, c.prior ≤ 0) ∧
    bow_naivebayes_set_weights 4 zero_prior_barrel
      = .ok { two_class_barrel_weighted with cdocs := [⟨.model, 0, 4⟩, ⟨.model, 1, 2⟩] } := by
  constructor
  · exact ⟨⟨.model, 0, 0⟩, by simp [zero_prior_barrel], le_refl _⟩
  · simp [bow_naivebayes_set_weights, zero_prior_barrel, two_class_barrel,
      two_class_barrel_weighted, bow_method_naivebayes, bow_wi2dvf.size, check_priors,
      count_words, reset_word_counts, List.range, List.range.loop, bow_wi2dvf_dv, add_dv_counts,
      bow_array_entry_at_index, weight_words, set_dv_weights, fdiv]
    norm_num

/-- C12, as amended: on a model that passes the checks of the method name and
of the priors, whose entries name classes of the catalog and whose quotients
`(1 + rawCount) / (V + classWordCount)` all have a non-zero divisor,
`bow_naivebayes_set_weights` is stopped by the `assert` of line 115 whenever
one of these weights is `≤ 0`; when all of them are positive the run completes,
also when some of them are greater than `1`: the upper bound is not checked. -/
theorem set_weights_weight_check (nw : Nat) (b : bow_barrel K)
    (hvoc : table_within_vocabulary nw b)
    (hm : b.method.name = "naivebayes" ∨ b.method.name = "crossentropy")
    (hp : ∀ c ∈ b.cdocs, 0 ≤ c.prior) (hvalid : valid_class_indices b)
    (hdiv : ∀ e ∈ all_entries b,
      ((b.wi2dvf.num_words + class_total b e.di : Int) : K) ≠ 0) :
    ((∃ e ∈ all_entries b,
        ((1 + e.count : Int) : K) / ((b.wi2dvf.num_words + class_total b e.di : Int) : K) ≤ 0) →
      bow_naivebayes_set_weights nw b = .error (.assertion 115)) ∧
    ((∀ e ∈ all_entries b,
        0 < ((1 + e.count : Int) : K) / ((b.wi2dvf.num_words + class_total b e.di : Int) : K)) →
      ∃ b1, bow_naivebayes_set_weights nw b = .ok b1 ∧
        ∀ e1 ∈ all_entries b1, ∃ e ∈ all_entries b, e1.di = e.di ∧ e1.count = e.count ∧
          e1.weight = ((1 + e.count : Int) : K)
            / ((b.wi2dvf.num_words + class_total b e.di : Int) : K)) := by
  have hwc : ∀ e ∈ all_entries b,
      word_count_at (add_counts (all_entries b) (reset_word_counts b.cdocs)) e.di
        = class_total b e.di := fun e he =>
    word_count_at_add_counts_reset (all_entries b) b.cdocs e.di (hvalid e he)
  constructor
  · rintro ⟨e, he, hle⟩
    cases hrun : bow_naivebayes_set_weights nw b with
    | ok b1 =>
      obtain ⟨-, -, -, hacc, -⟩ := (set_weights_iff nw b b1 hvoc).1 hrun
      obtain ⟨-, -, hpos⟩ := hacc e he
      unfold laplace_weight at hpos
      rw [hwc e he] at hpos
      exact absurd hpos (not_lt.2 hle)
    | error a =>
      rcases set_weights_error_entry nw b a hvoc hm hp hrun with ⟨-, h2⟩ | ⟨-, x, hx, h2⟩ |
        ⟨h1, -⟩
      · exact absurd hvalid h2
      · exact absurd h2 (hdiv x hx)
      · rw [h1]
  · intro hall
    refine ⟨_, (set_weights_iff nw b _ hvoc).2 ⟨hm, hp, hvalid, fun e he => ?_, rfl⟩, ?_⟩
    · refine ⟨by rw [length_add_counts_reset]; exact hvalid e he, ?_, ?_⟩
      · rw [hwc e he]; exact hdiv e he
      · unfold laplace_weight; rw [hwc e he]; exact hall e he
    · intro e1 he1
      rw [all_entries_weighted b b.wi2dvf.num_words
        (add_counts (all_entries b) (reset_word_counts b.cdocs)) _ rfl] at he1
      obtain ⟨e, he, rfl⟩ := List.mem_map.1 he1
      refine ⟨e, he, rfl, rfl, ?_⟩
      show laplace_weight _ _ e = _
      unfold laplace_weight
      rw [hwc e he]

theorem mem_all_entries_single (b : bow_barrel ℚ) (dv : bow_dv ℚ) (e0 : bow_de ℚ)
    (hb : b.wi2dvf.entry = [some dv]) (hdv : dv.entry = [e0]) :
    ∀ e, e ∈ all_entries b ↔ e = e0 := by
  intro e
  simp [all_entries, hb, hdv, List.reduceOption]

/-- Counterexample to C12 as stated: with the vocabulary size `0` the weight
computed for the count `3` in a class of three terms is `4/3 > 1`, and
`bow_naivebayes_set_weights` completes and stores it. -/
theorem set_weights_accepts_weight_above_one :
    bow_naivebayes_set_weights 1 empty_vocabulary_barrel
      = .ok { method := bow_method_naivebayes
              cdocs := [⟨.model, 1, 3⟩]
              wi2dvf := { num_words := 0, entry := [some ⟨1, [⟨0, 3, 4 / 3⟩]⟩] } } ∧
    (1 : ℚ) < 4 / 3 := by
  constructor
  · simp [bow_naivebayes_set_weights, empty_vocabulary_barrel, bow_method_naivebayes,
      bow_wi2dvf.size, check_priors, count_words, reset_word_counts, List.range,
      List.range.loop, bow_wi2dvf_dv, add_dv_counts, bow_array_entry_at_index, weight_words,
      set_dv_weights, fdiv]
  · norm_num

/-- Witness for C12 as amended: the count `-1` gives the weight `0` and stops
the run at line 115; the weight `4/3` of the model with the vocabulary size
`0` does not stop it. -/
theorem set_weights_weight_check_witness :
    bow_naivebayes_set_weights 1 negative_count_barrel = .error (.assertion 115) ∧
    ∃ b1, bow_naivebayes_set_weights 1 empty_vocabulary_barrel = .ok b1 ∧
      ∀ e1 ∈ all_entries b1, ∃ e ∈ all_entries empty_vocabulary_barrel,
        e1.di = e.di ∧ e1.count = e.count ∧
        e1.weight = ((1 + e.count : Int) : ℚ)
          / ((empty_vocabulary_barrel.wi2dvf.num_words
              + class_total empty_vocabulary_barrel e.di : Int) : ℚ) := by
  have hn := mem_all_entries_single negative_count_barrel ⟨0, [⟨0, -1, 0⟩]⟩ ⟨0, -1, 0⟩ rfl rfl
  have he := mem_all_entries_single empty_vocabulary_barrel ⟨0, [⟨0, 3, 0⟩]⟩ ⟨0, 3, 0⟩ rfl rfl
  have hcn : class_total negative_count_barrel 0 = -1 := by
    simp [class_total, count_in, all_entries, negative_count_barrel, List.reduceOption]
  have hce : class_total empty_vocabulary_barrel 0 = 3 := by
    simp [class_total, count_in, all_entries, empty_vocabulary_barrel, List.reduceOption]
  constructor
  · refine (set_weights_weight_check 1 negative_count_barrel ?_ (Or.inl rfl) ?_ ?_ ?_).1 ?_
    · intro slot hs
      simp [negative_count_barrel] at hs
    · intro c hc
      simp [negative_count_barrel] at hc
      rw [hc]
      norm_num
    · intro e hmem
      rw [(hn e).1 hmem]
      simp [negative_count_barrel]
    · intro e hmem
      rw [(hn e).1 hmem]
      show ((negative_count_barrel.wi2dvf.num_words + class_total negative_count_barrel 0 : Int) : ℚ) ≠ 0
      rw [hcn]
      simp [negative_count_barrel]
    · refine ⟨⟨0, -1, 0⟩, (hn _).2 rfl, ?_⟩
      show ((1 + (-1) : Int) : ℚ)
        / ((negative_count_barrel.wi2dvf.num_words + class_total negative_count_barrel 0 : Int) : ℚ) ≤ 0
      simp
  · refine (set_weights_weight_check 1 empty_vocabulary_barrel ?_ (Or.inl rfl) ?_ ?_ ?_).2 ?_
    · intro slot hs
      simp [empty_vocabulary_barrel] at hs
    · intro c hc
      simp [empty_vocabulary_barrel] at hc
      rw [hc]
      norm_num
    · intro e hmem
      rw [(he e).1 hmem]
      simp [empty_vocabulary_barrel]
    · intro e hmem
      rw [(he e).1 hmem]
      show ((empty_vocabulary_barrel.wi2dvf.num_words + class_total empty_vocabulary_barrel 0 : Int) : ℚ) ≠ 0
      rw [hce]
      simp [empty_vocabulary_barrel]
    · intro e hmem
      rw [(he e).1 hmem]
      show 0 < ((1 + 3 : Int) : ℚ)
        / ((empty_vocabulary_barrel.wi2dvf.num_words + class_total empty_vocabulary_barrel 0 : Int) : ℚ)
      rw [hce]
      simp [empty_vocabulary_barrel]

/-! ## Query words outside the vocabulary -/

theorem word_loop_filter_known (L : libm K) (barrel : bow_barrel K) (loo : Int)
    (qs : List bow_we) (scores : List K) :
    word_loop L barrel loo (qs.filter fun q => (bow_wi2dvf_dv barrel.wi2dvf q.wi).isSome) scores
      = word_loop L barrel loo qs scores := by
  induction qs generalizing scores with
  | nil => rfl
  | cons q qs ih =>
    cases hdv : bow_wi2dvf_dv barrel.wi2dvf q.wi with
    | none =>
      rw [List.filter_cons_of_neg (by simp [hdv])]
      conv_rhs => unfold word_loop
      simp only [hdv]
      exact ih scores
    | some dv =>
      rw [List.filter_cons_of_pos (by simp [hdv])]
      unfold word_loop
      simp only [hdv]
      cases class_loop L barrel dv q loo barrel.cdocs scores 0 0 DBL_MAX with
      | error a => rfl
      | ok r =>
        obtain ⟨scores1, rescaler⟩ := r
        simp only
        split
        · split
          · cases rescale_scores rescaler scores1 with
            | error a => rfl
            | ok scores2 => exact ih scores2
          · exact ih scores1
        · exact ih scores1

theorem word_loop_unknown (L : libm K) (barrel : bow_barrel K) (loo : Int)
    (qs : List bow_we) (scores : List K) :
    word_loop L barrel loo (qs.filter fun q => (bow_wi2dvf_dv barrel.wi2dvf q.wi).isNone) scores
      = .ok scores := by
  induction qs with
  | nil => rfl
  | cons q qs ih =>
    cases hdv : bow_wi2dvf_dv barrel.wi2dvf q.wi with
    | none =>
      rw [List.filter_cons_of_pos (by simp [hdv])]
      unfold word_loop
      simp only [hdv]
      exact ih
    | some dv =>
      rw [List.filter_cons_of_neg (by simp [hdv])]
      exact ih

/-- C13: query words outside the vocabulary contribute nothing.  For every
model, capacity and query, `bow_naivebayes_score_loo` returns for the query the
result it returns for the query without the entries whose word index has no
entry list in the word table; and the entries without an entry list, taken
alone, are scored exactly like the empty query. -/
theorem score_loo_ignores_unknown_words (L : libm K) (bow_uniform_class_priors : Bool)
    (barrel : bow_barrel K) (query_wv : bow_wv) (bscores : List (Option (bow_score K)))
    (bscores_len : Nat) (loo_class : Int) :
    bow_naivebayes_score_loo L bow_uniform_class_priors barrel query_wv bscores bscores_len
        loo_class
      = bow_naivebayes_score_loo L bow_uniform_class_priors barrel
          ⟨query_wv.entry.filter fun q => (bow_wi2dvf_dv barrel.wi2dvf q.wi).isSome⟩
          bscores bscores_len loo_class ∧
    bow_naivebayes_score_loo L bow_uniform_class_priors barrel
        ⟨query_wv.entry.filter fun q => (bow_wi2dvf_dv barrel.wi2dvf q.wi).isNone⟩
        bscores bscores_len loo_class
      = bow_naivebayes_score_loo L bow_uniform_class_priors barrel ⟨[]⟩ bscores bscores_len
          loo_class := by
  constructor
  · unfold bow_naivebayes_score_loo class_scores accumulate_scores
    simp only [word_loop_filter_known]
  · unfold bow_naivebayes_score_loo class_scores accumulate_scores
    cases init_scores L bow_uniform_class_priors
        barrel.method.params.score_with_log_probabilities loo_class barrel.cdocs with
    | error a => rfl
    | ok scores =>
      simp only [word_loop_unknown, word_loop]

/-! ## The option `normalize_scores` -/

theorem class_loop_set_normalize_scores (L : libm K) (b : bow_barrel K) (x : Bool)
    (dv : bow_dv K) (q : bow_we) (loo : Int) (cdocs : List (bow_cdoc K)) (ss : List K)
    (ci dvi : Nat) (r : K) :
    class_loop L (set_normalize_scores b x) dv q loo cdocs ss ci dvi r
      = class_loop L b dv q loo cdocs ss ci dvi r := by
  induction cdocs generalizing ss ci dvi r with
  | nil => simp [class_loop]
  | cons c cs ih =>
    cases ss with
    | nil => simp [class_loop]
    | cons s ss =>
      have h1 : ∀ cdoc de l, pr_w_c_of (set_normalize_scores b x) cdoc de l q
          = pr_w_c_of b cdoc de l q := fun _ _ _ => rfl
      have h2 : (set_normalize_scores b x).method.params.score_with_log_probabilities
          = b.method.params.score_with_log_probabilities := rfl
      rw [class_loop, class_loop]
      simp only [h1, h2, ih]

theorem word_loop_set_normalize_scores (L : libm K) (b : bow_barrel K) (x : Bool) (loo : Int)
    (qs : List bow_we) (scores : List K) :
    word_loop L (set_normalize_scores b x) loo qs scores = word_loop L b loo qs scores := by
  induction qs generalizing scores with
  | nil => rfl
  | cons q qs ih =>
    have h1 : (set_normalize_scores b x).wi2dvf = b.wi2dvf := rfl
    have h2 : (set_normalize_scores b x).method.params.score_with_log_probabilities
        = b.method.params.score_with_log_probabilities := rfl
    have h3 : (set_normalize_scores b x).cdocs = b.cdocs := rfl
    rw [word_loop, word_loop]
    simp only [h1, h2, h3, ih, class_loop_set_normalize_scores]

theorem normalize_scores_iff (vals out : List K) :
    normalize_scores vals = .ok out ↔
      (vals = [] ∨ vals.sum ≠ 0) ∧ out = vals.map fun v => v / vals.sum := by
  unfold normalize_scores
  rw [← List.sum_eq_foldl]
  by_cases hs : vals.sum = 0
  · cases vals with
    | nil => simp [divide_scores, eq_comm]
    | cons v vs => simp [divide_scores, fdiv, hs]
  · rw [divide_scores_eq _ hs]
    simp [hs, eq_comm]

theorem class_scores_uniform_empty (barrel : bow_barrel ℝ) (loo_class : Int)
    (hn : barrel.cdocs ≠ []) :
    finish_scores ⟨Real.exp, Real.log⟩ barrel.method.params.score_with_log_probabilities
        (List.replicate barrel.cdocs.length 1) = .ok (List.replicate barrel.cdocs.length 1) ∧
    class_scores ⟨Real.exp, Real.log⟩ true barrel ⟨[]⟩ loo_class
      = .ok (List.replicate barrel.cdocs.length (1 / (barrel.cdocs.length : ℝ))) := by
  have hpos : 0 < barrel.cdocs.length := List.length_pos.2 hn
  have hfin : finish_scores ⟨Real.exp, Real.log⟩
      barrel.method.params.score_with_log_probabilities (List.replicate barrel.cdocs.length 1)
        = .ok (List.replicate barrel.cdocs.length 1) := by
    unfold finish_scores
    cases barrel.method.params.score_with_log_probabilities with
    | false =>
      have hm := max_score_replicate barrel.cdocs.length hpos (1 : ℝ)
        (lt_trans (neg_lt_zero.2 dbl_max_pos) one_pos)
      simp only [if_true, hm, List.map_replicate, sub_self, Real.exp_zero]
    | true =>
      simp only [Bool.true_eq_false, if_false]
      rw [reciprocal_scores_eq _ (by
        intro a ha
        rw [List.eq_of_mem_replicate ha]
        exact one_ne_zero)]
      simp
  refine ⟨hfin, ?_⟩
  unfold class_scores accumulate_scores
  rw [init_scores_uniform]
  simp only [word_loop, hfin]
  exact normalize_scores_replicate_one _ hpos

/-- C14, as amended: the divide-by-sum step of lines 361-371 runs on every
call; the option `normalize_scores` of the model is never read.  The result of
`bow_naivebayes_score_loo` is the same for both values of the option, and the
per-class values are always the values left by lines 330-359 divided by their
sum. -/
theorem score_loo_always_normalizes (L : libm K) (bow_uniform_class_priors : Bool)
    (barrel : bow_barrel K) (query_wv : bow_wv) (bscores : List (Option (bow_score K)))
    (bscores_len : Nat) (loo_class : Int) (x : Bool) (out : List K) :
    bow_naivebayes_score_loo L bow_uniform_class_priors (set_normalize_scores barrel x)
        query_wv bscores bscores_len loo_class
      = bow_naivebayes_score_loo L bow_uniform_class_priors barrel query_wv bscores
          bscores_len loo_class ∧
    (class_scores L bow_uniform_class_priors (set_normalize_scores barrel x) query_wv loo_class
        = .ok out ↔
      ∃ acc vals,
        accumulate_scores L bow_uniform_class_priors barrel query_wv loo_class = .ok acc ∧
        finish_scores L barrel.method.params.score_with_log_probabilities acc = .ok vals ∧
        (vals = [] ∨ vals.sum ≠ 0) ∧ out = vals.map fun v => v / vals.sum) := by
  have hcs : class_scores L bow_uniform_class_priors (set_normalize_scores barrel x) query_wv
      loo_class = class_scores L bow_uniform_class_priors barrel query_wv loo_class := by
    have h2 : (set_normalize_scores barrel x).method.params.score_with_log_probabilities
        = barrel.method.params.score_with_log_probabilities := rfl
    have h3 : (set_normalize_scores barrel x).cdocs = barrel.cdocs := rfl
    unfold class_scores accumulate_scores
    simp only [h2, h3, word_loop_set_normalize_scores]
  constructor
  · unfold bow_naivebayes_score_loo
    rw [hcs]
  · rw [hcs]
    unfold class_scores
    cases hacc : accumulate_scores L bow_uniform_class_priors barrel query_wv loo_class with
    | error a => simp
    | ok acc =>
      simp only [Except.ok.injEq, exists_and_left, exists_eq_left']
      cases hfin : finish_scores L barrel.method.params.score_with_log_probabilities acc with
      | error a => simp
      | ok vals =>
        simp only [Except.ok.injEq, exists_eq_left', normalize_scores_iff]

/-- Counterexample to C14 as stated: a probability-mode model of two classes
with `normalize_scores` switched off, uniform priors, an empty query.  The
values before the division are `1` and `1`, yet the returned weights are
`1/2` and `1/2`: the best class does not have the weight `1`. -/
theorem score_loo_normalizes_when_disabled :
    (unnormalized_barrel : bow_barrel ℝ).method.params.normalize_scores = false ∧
    finish_scores ⟨Real.exp, Real.log⟩ false ([1, 1] : List ℝ) = .ok [1, 1] ∧
    bow_naivebayes_score_loo ⟨Real.exp, Real.log⟩ true (unnormalized_barrel : bow_barrel ℝ)
        ⟨[]⟩ (List.replicate 2 none) 2 (-1)
      = .ok (2, [some { di := 0, weight := 1 / 2 }, some { di := 1, weight := 1 / 2 }]) := by
  have h := class_scores_uniform_empty (unnormalized_barrel : bow_barrel ℝ) (-1)
    (by simp [unnormalized_barrel])
  refine ⟨rfl, h.1, ?_⟩
  unfold bow_naivebayes_score_loo
  rw [h.2]
  simp only
  rw [select_scores_eq _ 2 (by decide), List.length_replicate]
  unfold buffer_of
  rw [sorted_top_replicate]
  simp [unnormalized_barrel, List.range, List.range.loop]

/-! ## The merge cursor -/

theorem advance_dvi_below (entry : List (bow_de K)) (ci : Nat) (fuel dvi : Nat)
    (h : ∀ e ∈ entry.take dvi, e.di < ci) :
    ∀ e ∈ entry.take (advance_dvi entry ci fuel dvi), e.di < ci := by
  induction fuel generalizing dvi with
  | zero => exact h
  | succ fuel ih =>
    unfold advance_dvi
    cases h0 : entry[dvi]? with
    | none => exact h
    | some e0 =>
      simp only
      by_cases hlt : e0.di < ci
      · simp only [hlt, if_true]
        apply ih
        intro e he
        rw [List.take_succ, h0] at he
        rcases List.mem_append.1 he with h1 | h1
        · exact h e h1
        · simp at h1
          rw [h1]
          exact hlt
      · simp only [hlt, if_false]
        exact h

/-- When the cursor has passed only entries of smaller classes and the entry
list is strictly increasing by class index, the test of line 233 finds the
entry of the class exactly as an independent lookup does. -/
theorem entry_at_advance_eq_lookup (entry : List (bow_de K)) (ci dvi : Nat)
    (hs : entry.Pairwise fun a b => a.di < b.di)
    (h : ∀ e ∈ entry.take dvi, e.di < ci) :
    entry_at entry (advance_dvi entry ci entry.length dvi) ci = lookup_entry entry ci := by
  have hbelow := advance_dvi_below entry ci entry.length dvi h
  have hexit := advance_dvi_exit entry ci entry.length dvi (Nat.le_add_left _ _)
  generalize advance_dvi entry ci entry.length dvi = d at hbelow hexit
  unfold lookup_entry
  conv_rhs => rw [← List.take_append_drop d entry, List.find?_append]
  have hnone : (entry.take d).find? (fun e => decide (e.di = ci)) = none := by
    rw [List.find?_eq_none]
    intro x hx
    have := hbelow x hx
    simp only [decide_eq_true_eq]
    omega
  rw [hnone, Option.none_or]
  have hhead := List.head?_drop entry d
  have hsd : (entry.drop d).Pairwise fun a b => a.di < b.di := hs.sublist (List.drop_sublist _ _)
  unfold entry_at
  cases hd : entry.drop d with
  | nil =>
    rw [hd] at hhead
    simp only [List.head?_nil] at hhead
    rw [← hhead]
    rfl
  | cons e0 rest =>
    rw [hd] at hhead hsd
    simp only [List.head?_cons] at hhead
    rw [← hhead]
    simp only
    have hge : ¬ e0.di < ci := hexit e0 hhead.symm
    by_cases heq : e0.di = ci
    · simp [heq]
    · simp only [heq, if_false, List.find?_cons, decide_False]
      symm
      rw [List.find?_eq_none]
      intro x hx
      have := (List.pairwise_cons.1 hsd).1 x hx
      simp only [decide_eq_true_eq]
      omega

theorem cursor_at_below (entry : List (bow_de K)) (ci : Nat) :
    ∀ e ∈ entry.take (cursor_at entry ci), e.di < ci := by
  induction ci with
  | zero =>
    unfold cursor_at
    exact advance_dvi_below entry 0 entry.length 0 (by simp)
  | succ ci ih =>
    unfold cursor_at
    exact advance_dvi_below entry (ci + 1) entry.length _ fun e he => Nat.lt_succ_of_lt (ih e he)

theorem entry_at_cursor_eq_lookup (entry : List (bow_de K)) (ci : Nat)
    (hs : entry.Pairwise fun a b => a.di < b.di) :
    entry_at entry (cursor_at entry ci) ci = lookup_entry entry ci := by
  cases ci with
  | zero =>
    unfold cursor_at
    exact entry_at_advance_eq_lookup entry 0 0 hs (by simp)
  | succ ci =>
    unfold cursor_at
    exact entry_at_advance_eq_lookup entry (ci + 1) _ hs
      fun e he => Nat.lt_succ_of_lt (cursor_at_below entry ci e he)

theorem class_loop_eq_by_lookup (L : libm K) (barrel : bow_barrel K) (dv : bow_dv K)
    (q : bow_we) (loo : Int) (hs : dv.entry.Pairwise fun a b => a.di < b.di)
    (cdocs : List (bow_cdoc K)) (ss : List K) (ci dvi : Nat) (r : K)
    (h : ∀ e ∈ dv.entry.take dvi, e.di < ci) :
    class_loop L barrel dv q loo cdocs ss ci dvi r
      = class_loop_by_lookup L barrel dv q loo cdocs ss ci r := by
  induction cdocs generalizing ss ci dvi r with
  | nil => simp [class_loop, class_loop_by_lookup]
  | cons c cs ih =>
    cases ss with
    | nil => simp [class_loop, class_loop_by_lookup]
    | cons s ss =>
      have hnext : ∀ e ∈ dv.entry.take (advance_dvi dv.entry ci dv.entry.length dvi),
          e.di < ci + 1 := fun e he =>
        Nat.lt_succ_of_lt (advance_dvi_below dv.entry ci dv.entry.length dvi h e he)
      rw [class_loop, class_loop_by_lookup]
      simp only [entry_at_advance_eq_lookup dv.entry ci dvi hs h]
      split
      · split
        · rfl
        · split
          · rfl
          · rw [ih _ _ _ _ hnext]
      · rfl

theorem lookup_entry_some_iff (entry : List (bow_de K)) (ci : Nat) (e : bow_de K)
    (hs : entry.Pairwise fun a b => a.di < b.di) :
    lookup_entry entry ci = some e ↔ e ∈ entry ∧ e.di = ci := by
  unfold lookup_entry
  constructor
  · intro h
    have h1 := List.find?_some h
    exact ⟨List.mem_of_find?_eq_some h, by simpa using h1⟩
  · rintro ⟨hmem, hdi⟩
    induction entry with
    | nil => cases hmem
    | cons x xs ih =>
      obtain ⟨hx, hxs⟩ := List.pairwise_cons.1 hs
      rw [List.find?_cons]
      rcases List.mem_cons.1 hmem with rfl | h2
      · simp [hdi]
      · have : x.di ≠ ci := by
          have := hx e h2
          omega
        simp only [this, decide_False]
        exact ih hxs h2

/-- C18: for a word whose entry list is strictly increasing by class index, the
cursor of lines 230-233 (reset to `0` for the word, advanced while
`entry[dvi].di < ci`) finds, for every class index `ci`, the entry with
`di == ci` exactly when the list has one, and finds no entry otherwise; the
class loop driven by the cursor is the class loop in which every class looks
its entry up independently. -/
theorem merge_cursor_agrees_with_lookup (L : libm K) (barrel : bow_barrel K) (dv : bow_dv K)
    (q : bow_we) (loo_class : Int) (hs : dv.entry.Pairwise fun a b => a.di < b.di) :
    (∀ ci, entry_at dv.entry (cursor_at dv.entry ci) ci
      = dv.entry.find? fun e => decide (e.di = ci)) ∧
    (∀ ci e, entry_at dv.entry (cursor_at dv.entry ci) ci = some e ↔ e ∈ dv.entry ∧ e.di = ci) ∧
    (∀ ci, entry_at dv.entry (cursor_at dv.entry ci) ci = none ↔ ∀ e ∈ dv.entry, e.di ≠ ci) ∧
    (∀ cdocs ss rescaler,
      class_loop L barrel dv q loo_class cdocs ss 0 0 rescaler
        = class_loop_by_lookup L barrel dv q loo_class cdocs ss 0 rescaler) := by
  refine ⟨fun ci => entry_at_cursor_eq_lookup dv.entry ci hs, ?_, ?_, ?_⟩
  · intro ci e
    rw [entry_at_cursor_eq_lookup dv.entry ci hs]
    exact lookup_entry_some_iff dv.entry ci e hs
  · intro ci
    rw [entry_at_cursor_eq_lookup dv.entry ci hs]
    unfold lookup_entry
    rw [List.find?_eq_none]
    simp
  · intro cdocs ss r
    exact class_loop_eq_by_lookup L barrel dv q loo_class hs cdocs ss 0 0 r (by simp)

/-- Witness for C18: an entry list for the classes `0` and `2`; the cursor
finds the two entries and finds none for the class `1`. -/
theorem merge_cursor_agrees_with_lookup_witness :
    entry_at [(⟨0, 3, 0⟩ : bow_de ℚ), ⟨2, 5, 0⟩]
        (cursor_at [(⟨0, 3, 0⟩ : bow_de ℚ), ⟨2, 5, 0⟩] 0) 0 = some ⟨0, 3, 0⟩ ∧
    entry_at [(⟨0, 3, 0⟩ : bow_de ℚ), ⟨2, 5, 0⟩]
        (cursor_at [(⟨0, 3, 0⟩ : bow_de ℚ), ⟨2, 5, 0⟩] 1) 1 = none ∧
    entry_at [(⟨0, 3, 0⟩ : bow_de ℚ), ⟨2, 5, 0⟩]
        (cursor_at [(⟨0, 3, 0⟩ : bow_de ℚ), ⟨2, 5, 0⟩] 2) 2 = some ⟨2, 5, 0⟩ := by
  have h := (merge_cursor_agrees_with_lookup (⟨id, id⟩ : libm ℚ) two_class_barrel_weighted
    ⟨1, [⟨0, 3, 0⟩, ⟨2, 5, 0⟩]⟩ ⟨0, 1⟩ (-1) (by simp)).1
  exact ⟨(h 0).trans (by simp), (h 1).trans (by simp), (h 2).trans (by simp)⟩

/-! ## The checks on `pr_w_c` after the weights have been set -/

theorem count_in_nonneg (es : List (bow_de K)) (h : ∀ e ∈ es, 0 ≤ e.count) (ci : Nat) :
    0 ≤ count_in es ci := by
  unfold count_in
  apply List.sum_nonneg
  intro y hy
  obtain ⟨e, he, rfl⟩ := List.mem_map.1 hy
  exact h e (List.mem_filter.1 he).1

/-- The counts of a model on which `bow_naivebayes_set_weights` has run: the
vocabulary size is kept, every word count is non-negative and bounds the counts
of the entries of its class. -/
theorem set_weights_counts (nw : Nat) (b0 b : bow_barrel K)
    (hvoc : table_within_vocabulary nw b0) (hcount : ∀ e ∈ all_entries b0, 0 ≤ e.count)
    (hrun : bow_naivebayes_set_weights nw b0 = .ok b) :
    b.wi2dvf.num_words = b0.wi2dvf.num_words ∧
    ∀ ci cdoc, b.cdocs[ci]? = some cdoc →
      0 ≤ cdoc.word_count ∧
      ∀ e ∈ all_entries b, e.di = ci → 0 ≤ e.count ∧ e.count ≤ cdoc.word_count := by
  obtain ⟨-, -, hvalid, -, hb⟩ := (set_weights_iff nw b0 b hvoc).1 hrun
  have hall := all_entries_weighted b0 b0.wi2dvf.num_words
    (add_counts (all_entries b0) (reset_word_counts b0.cdocs)) b (by rw [hb])
  have hcd : b.cdocs = add_counts (all_entries b0) (reset_word_counts b0.cdocs) := by rw [hb]
  refine ⟨by rw [hb], ?_⟩
  intro ci cdoc hc
  have hwc : cdoc.word_count = count_in (all_entries b0) ci := by
    rw [hcd, getElem?_add_counts_reset] at hc
    cases h0 : b0.cdocs[ci]? with
    | none => simp [h0] at hc
    | some c0 =>
      simp only [h0, Option.map_some', Option.some.injEq] at hc
      rw [← hc]
  refine ⟨by rw [hwc]; exact count_in_nonneg _ hcount ci, ?_⟩
  intro e he hdi
  rw [hall] at he
  obtain ⟨e0, he0, rfl⟩ := List.mem_map.1 he
  have hdi0 : e0.di = ci := hdi
  refine ⟨hcount e0 he0, ?_⟩
  show e0.count ≤ cdoc.word_count
  rw [hwc, ← hdi0]
  exact count_le_count_in _ hcount e0 he0

theorem mem_all_entries_of_dv (b : bow_barrel K) (wi : Nat) (dv : bow_dv K)
    (hdv : bow_wi2dvf_dv b.wi2dvf wi = some dv) : ∀ e ∈ dv.entry, e ∈ all_entries b := by
  intro e he
  unfold all_entries
  rw [List.mem_flatMap]
  refine ⟨dv, ?_, he⟩
  rw [List.reduceOption_mem_iff]
  unfold bow_wi2dvf_dv at hdv
  cases hs : b.wi2dvf.entry[wi]? with
  | none => simp [hs] at hdv
  | some slot =>
    cases slot with
    | none => simp [hs] at hdv
    | some dv2 =>
      simp only [hs, Option.some.injEq] at hdv
      subst hdv
      exact List.mem_iff_getElem?.2 ⟨wi, hs⟩

theorem entry_at_some (entry : List (bow_de K)) (dvi ci : Nat) (e : bow_de K)
    (h : entry_at entry dvi ci = some e) : e ∈ entry ∧ e.di = ci := by
  unfold entry_at at h
  cases h0 : entry[dvi]? with
  | none => simp [h0] at h
  | some e0 =>
    simp only [h0] at h
    by_cases hd : e0.di = ci
    · simp only [hd, if_true, Option.some.injEq] at h
      subst h
      exact ⟨List.mem_iff_getElem?.2 ⟨dvi, h0⟩, hd⟩
    · simp [hd] at h

/-- Without leave-one-out, on a model with a vocabulary of at least one word
whose word count is non-negative and bounds the count of the entry, `pr_w_c` is
computed and lies in `(0, 1]`, with an entry and without one. -/
theorem pr_w_c_of_bounds (b : bow_barrel K) (cdoc : bow_cdoc K) (de : Option (bow_de K))
    (q : bow_we) (hV : 1 ≤ b.wi2dvf.num_words) (hwc : 0 ≤ cdoc.word_count)
    (hde : ∀ e, de = some e → 0 ≤ e.count ∧ e.count ≤ cdoc.word_count) :
    ∃ v, pr_w_c_of b cdoc de false q = .ok v ∧ 0 < v ∧ v ≤ 1 := by
  have hM : M_EST_M b cdoc = (if cdoc.word_count ≠ 0
      then (b.wi2dvf.num_words : K) / (cdoc.word_count : K) else 1) := rfl
  cases de with
  | none =>
    obtain ⟨h1, h2, h3, h4⟩ := m_estimate_bounds (K := K) b.wi2dvf.num_words cdoc.word_count 0
      hV (le_refl _) hwc
    simp only [Int.cast_zero, add_zero] at h3 h4
    refine ⟨_, ?_, h3, h4⟩
    rw [pr_w_c_of_iff]
    refine ⟨h1, ?_⟩
    simp only
    rw [assert_pr_w_c_fdiv_iff, hM]
    exact ⟨h2, rfl, h3, h4⟩
  | some e =>
    obtain ⟨hc1, hc2⟩ := hde e rfl
    obtain ⟨h1, h2, h3, h4⟩ := m_estimate_bounds (K := K) b.wi2dvf.num_words cdoc.word_count
      e.count hV hc1 hc2
    refine ⟨_, ?_, h3, h4⟩
    rw [pr_w_c_of_iff]
    refine ⟨h1, ?_⟩
    simp only
    rw [assert_pr_w_c_fdiv_iff, hM]
    exact ⟨h2, rfl, h3, h4⟩

theorem log_pr_tf_of_error (L : libm K) (lm : Bool) (pr : K) (q : bow_we) (a : Abort)
    (h : log_pr_tf_of L lm pr q = .error a) : a = .assertion 287 := by
  unfold log_pr_tf_of at h
  simp only at h
  split at h <;> split at h <;>
    first
    | (simp only [Except.error.injEq] at h; exact h.symm)
    | cases h

/-- When `pr_w_c` is computed for every class, the class loop is stopped by
none of the checks on `pr_w_c`. -/
theorem class_loop_pr_checks_pass (L : libm K) (b : bow_barrel K) (dv : bow_dv K) (q : bow_we)
    (line : Nat) (h225 : line ≠ 225) (h287 : line ≠ 287)
    (cdocs : List (bow_cdoc K)) (ss : List K) (ci dvi : Nat) (r : K)
    (hpr : ∀ j cdoc d, cdocs[j]? = some cdoc →
      ∃ v, pr_w_c_of b cdoc (entry_at dv.entry d (ci + j)) false q = .ok v) :
    class_loop L b dv q (-1) cdocs ss ci dvi r ≠ .error (.assertion line) := by
  induction cdocs generalizing ss ci dvi r with
  | nil => simp [class_loop]
  | cons c cs ih =>
    cases ss with
    | nil => simp [class_loop]
    | cons s ss =>
      have hdec : decide ((-1 : Int) = (ci : Int)) = false := by
        simp only [decide_eq_false_iff_not]
        omega
      obtain ⟨v, hv⟩ := hpr 0 c (advance_dvi dv.entry ci dv.entry.length dvi) (by simp)
      rw [Nat.add_zero] at hv
      have hnext : ∀ j cdoc d, cs[j]? = some cdoc →
          ∃ v, pr_w_c_of b cdoc (entry_at dv.entry d (ci + 1 + j)) false q = .ok v := by
        intro j cdoc d hj
        have := hpr (j + 1) cdoc d (by simpa using hj)
        have h2 : ci + (j + 1) = ci + 1 + j := by omega
        rw [h2] at this
        exact this
      rw [class_loop]
      simp only [hdec, hv]
      split
      · split
        · rename_i a ha
          intro h2
          rw [Except.error.injEq] at h2
          rw [h2] at ha
          have := log_pr_tf_of_error _ _ _ _ _ ha
          simp only [Abort.assertion.injEq] at this
          exact h287 this
        · split
          · rename_i a ha
            intro h2
            rw [Except.error.injEq] at h2
            rw [h2] at ha
            exact ih _ _ _ _ hnext ha
          · simp
      · simp only [ne_eq, Except.error.injEq, Abort.assertion.injEq]
        exact fun h => h225 h.symm

/-- C19: on a valid model on which `bow_naivebayes_set_weights` has run
(vocabulary of at least one word, no negative count), in a call without
leave-one-out class, the `pr_w_c` computed for every word of the word table
and every class, with an entry or without one, also for a class whose word
count is `0`, satisfies `0 < pr_w_c ≤ 1`; so the class loop is never stopped by
one of the checks `pr_w_c > 0 && pr_w_c <= 1` (lines 245, 252, 265, 271,
274). -/
theorem score_pr_w_c_in_range (nw : Nat) (b0 b : bow_barrel K)
    (hvoc : table_within_vocabulary nw b0) (hV : 1 ≤ b0.wi2dvf.num_words)
    (hcount : ∀ e ∈ all_entries b0, 0 ≤ e.count)
    (hrun : bow_naivebayes_set_weights nw b0 = .ok b) (L : libm K) (q : bow_we) :
    (∀ ci cdoc wi dv dvi, b.cdocs[ci]? = some cdoc → bow_wi2dvf_dv b.wi2dvf wi = some dv →
      ∃ v, pr_w_c_of b cdoc (entry_at dv.entry dvi ci) (decide ((-1 : Int) = (ci : Int))) q
          = .ok v ∧ 0 < v ∧ v ≤ 1) ∧
    (∀ wi dv ss rescaler line, bow_wi2dvf_dv b.wi2dvf wi = some dv →
      line ∈ [245, 252, 265, 271, 274] →
      class_loop L b dv q (-1) b.cdocs ss 0 0 rescaler ≠ .error (.assertion line)) := by
  obtain ⟨hVb, hcounts⟩ := set_weights_counts nw b0 b hvoc hcount hrun
  have hV' : 1 ≤ b.wi2dvf.num_words := by rw [hVb]; exact hV
  have key : ∀ ci cdoc wi dv dvi, b.cdocs[ci]? = some cdoc →
      bow_wi2dvf_dv b.wi2dvf wi = some dv →
      ∃ v, pr_w_c_of b cdoc (entry_at dv.entry dvi ci) false q = .ok v ∧ 0 < v ∧ v ≤ 1 := by
    intro ci cdoc wi dv dvi hc hdv
    obtain ⟨hwc, hent⟩ := hcounts ci cdoc hc
    apply pr_w_c_of_bounds b cdoc _ q hV' hwc
    intro e he
    obtain ⟨hmem, hdi⟩ := entry_at_some _ _ _ _ he
    exact hent e (mem_all_entries_of_dv b wi dv hdv e hmem) hdi
  constructor
  · intro ci cdoc wi dv dvi hc hdv
    have hdec : decide ((-1 : Int) = (ci : Int)) = false := by
      simp only [decide_eq_false_iff_not]
      omega
    rw [hdec]
    exact key ci cdoc wi dv dvi hc hdv
  · intro wi dv ss r line hdv hline
    apply class_loop_pr_checks_pass L b dv q line
    · intro h
      rw [h] at hline
      simp at hline
    · intro h
      rw [h] at hline
      simp at hline
    · intro j cdoc d hj
      rw [Nat.zero_add]
      obtain ⟨v, hv, -⟩ := key j cdoc wi dv d hj hdv
      exact ⟨v, hv⟩

/-- Witness for C19: the worked example, the word `w1` and the class `B`,
which has no entry for it: `pr_w_c` is computed and lies in `(0, 1]`. -/
theorem score_pr_w_c_in_range_witness :
    ∃ v, pr_w_c_of two_class_barrel_weighted ⟨.model, 1 / 2, 2⟩
        (entry_at [(⟨0, 3, 1 / 2⟩ : bow_de ℚ)] 1 1) (decide ((-1 : Int) = ((1 : Nat) : Int)))
        ⟨0, 1⟩ = .ok v ∧ 0 < v ∧ v ≤ 1 :=
  (score_pr_w_c_in_range 4 two_class_barrel two_class_barrel_weighted
    two_class_barrel_vocabulary (by decide) two_class_barrel_counts two_class_barrel_run
    (⟨id, id⟩ : libm ℚ) ⟨0, 1⟩).1 1 ⟨.model, 1 / 2, 2⟩ 0 ⟨1, [⟨0, 3, 1 / 2⟩]⟩ 1 rfl rfl

/-! ## Accesses to the result buffer -/

/-- C20: for every capacity `k ≥ 1` and every list of class scores, the
selection loop run on an unwritten buffer of `k` slots performs no read or
write outside the indices `0, …, k - 1` and no read of a slot that has not
been written: a run of the embedding stops with `index_out_of_bounds` at the
first access outside the buffer (the guard `bscores[num_scores-1]` with
`num_scores = 0` included) and with `uninitialised_read` at the first read of
an unwritten slot, and the loop stops with neither.  After every round the
buffer holds `num_scores ≤ k` written slots followed by unwritten ones.  With
`k = 0` and at least one class the guard does read outside the buffer. -/
theorem select_scores_buffer_safe (scores : List K) (k : Nat) (hk : 0 < k) :
    (∃ r, select_scores scores (List.replicate k none) k = .ok r) ∧
    select_scores scores (List.replicate k none) k ≠ .error .index_out_of_bounds ∧
    select_scores scores (List.replicate k none) k ≠ .error .uninitialised_read ∧
    (∀ m, ∃ bs : List (bow_score K),
      topk_loop k (scores.take m) 0 (0, List.replicate k none)
        = .ok (bs.length, bs.map some ++ List.replicate (k - bs.length) none) ∧
      bs.length ≤ k ∧ bs.length = min k (min m scores.length)) ∧
    (∀ (x : K) (xs : List K),
      select_scores (x :: xs) (List.replicate 0 none) 0 = .error .index_out_of_bounds) := by
  have h := select_scores_eq scores k hk
  refine ⟨⟨_, h⟩, ?_, ?_, ?_, ?_⟩
  · rw [h]
    simp
  · rw [h]
    simp
  · intro m
    have hm := select_scores_eq (scores.take m) k hk
    unfold select_scores at hm
    refine ⟨sorted_top k (scores.take m), ?_, ?_, ?_⟩
    · rw [hm]
      unfold buffer_of
      rw [length_sorted_top]
    · rw [length_sorted_top]
      exact Nat.min_le_left _ _
    · rw [length_sorted_top, List.length_take]
  · intro x xs
    simp [select_scores, topk_loop, topk_step, read_last]

/-- Witness for C20: two slots for the three scores `1/5, 1/2, 3/10`. -/
theorem select_scores_buffer_safe_witness :
    (∃ r, select_scores ([1 / 5, 1 / 2, 3 / 10] : List ℚ) (List.replicate 2 none) 2 = .ok r) ∧
    select_scores ([1 / 5, 1 / 2, 3 / 10] : List ℚ) (List.replicate 2 none) 2
      ≠ .error .index_out_of_bounds ∧
    select_scores ([1 / 5, 1 / 2, 3 / 10] : List ℚ) (List.replicate 2 none) 2
      ≠ .error .uninitialised_read :=
  ⟨(select_scores_buffer_safe ([1 / 5, 1 / 2, 3 / 10] : List ℚ) 2 (by decide)).1,
    (select_scores_buffer_safe ([1 / 5, 1 / 2, 3 / 10] : List ℚ) 2 (by decide)).2.1,
    (select_scores_buffer_safe ([1 / 5, 1 / 2, 3 / 10] : List ℚ) 2 (by decide)).2.2.1⟩

/-! ## One round of the class loop and of the word loop -/

theorem class_loop_cons_ok (L : libm K) (b : bow_barrel K) (dv : bow_dv K) (q : bow_we)
    (loo : Int) (c : bow_cdoc K) (cs : List (bow_cdoc K)) (s : K) (ss : List K) (ci dvi : Nat)
    (r : K) (out : List K) (r2 : K) :
    class_loop L b dv q loo (c :: cs) (s :: ss) ci dvi r = .ok (out, r2) ↔
      c.type = bow_doc_type.model ∧
      ∃ pr t ss1,
        pr_w_c_of b c (entry_at dv.entry (advance_dvi dv.entry ci dv.entry.length dvi) ci)
          (decide (loo = (ci : Int))) q = .ok pr ∧
        log_pr_tf_of L b.method.params.score_with_log_probabilities pr q = .ok t ∧
        class_loop L b dv q loo cs ss (ci + 1)
          (advance_dvi dv.entry ci dv.entry.length dvi)
          (if r > s + t then s + t else r) = .ok (ss1, r2) ∧
        out = (s + t) :: ss1 := by
  rw [class_loop]
  by_cases hc : c.type = bow_doc_type.model
  swap
  · simp [hc]
  simp only [hc, if_true, true_and]
  cases hpr : pr_w_c_of b c (entry_at dv.entry (advance_dvi dv.entry ci dv.entry.length dvi) ci)
      (decide (loo = (ci : Int))) q with
  | error a => simp
  | ok pr =>
    simp only [Except.ok.injEq, exists_and_left, exists_eq_left']
    cases ht : log_pr_tf_of L b.method.params.score_with_log_probabilities pr q with
    | error a => simp
    | ok t =>
      simp only [Except.ok.injEq, exists_eq_left']
      cases hrec : class_loop L b dv q loo cs ss (ci + 1)
          (advance_dvi dv.entry ci dv.entry.length dvi) (if r > s + t then s + t else r) with
      | error a => simp
      | ok res =>
        obtain ⟨ss1, r3⟩ := res
        simp only [Except.ok.injEq, Prod.mk.injEq]
        constructor
        · rintro ⟨rfl, rfl⟩
          exact ⟨ss1, ⟨rfl, rfl⟩, rfl⟩
        · rintro ⟨ss2, ⟨rfl, rfl⟩, rfl⟩
          exact ⟨rfl, rfl⟩

theorem class_loop_nil_scores (L : libm K) (b : bow_barrel K) (dv : bow_dv K) (q : bow_we)
    (loo : Int) (c : bow_cdoc K) (cs : List (bow_cdoc K)) (ci dvi : Nat) (r : K) :
    class_loop L b dv q loo (c :: cs) [] ci dvi r = .error .index_out_of_bounds := by
  rw [class_loop]

theorem class_loop_nil (L : libm K) (b : bow_barrel K) (dv : bow_dv K) (q : bow_we)
    (loo : Int) (ss : List K) (ci dvi : Nat) (r : K) :
    class_loop L b dv q loo [] ss ci dvi r = .ok ([], r) := by
  rw [class_loop]

theorem rescale_scores_iff (r : K) (ss out : List K) :
    rescale_scores r ss = .ok out ↔
      (∀ s ∈ ss, -DBL_MAX + 100000 < s + -r ∧ s + -r < DBL_MAX - 100000) ∧
      out = ss.map fun s => s + -r := by
  induction ss generalizing out with
  | nil => simp [rescale_scores, eq_comm]
  | cons s ss ih =>
    rw [rescale_scores]
    by_cases hb : -DBL_MAX + 100000 < s + -r ∧ s + -r < DBL_MAX - 100000
    · simp only [hb, and_self, if_true, List.forall_mem_cons, true_and, List.map_cons]
      cases hrec : rescale_scores r ss with
      | error a =>
        simp only [reduceCtorEq, false_iff]
        rintro ⟨hall, -⟩
        rw [(ih _).2 ⟨hall, rfl⟩] at hrec
        cases hrec
      | ok ss1 =>
        obtain ⟨hall, rfl⟩ := (ih ss1).1 hrec
        simp only [Except.ok.injEq]
        constructor
        · rintro rfl
          exact ⟨hall, rfl⟩
        · rintro ⟨-, rfl⟩
          rfl
    · simp only [hb, if_false, reduceCtorEq, List.forall_mem_cons, false_and, false_iff,
        not_false_eq_true]

theorem word_loop_cons_inv (L : libm K) (b : bow_barrel K) (loo : Int) (q : bow_we)
    (qs : List bow_we) (scores out : List K)
    (h : word_loop L b loo (q :: qs) scores = .ok out) :
    (bow_wi2dvf_dv b.wi2dvf q.wi = none ∧ word_loop L b loo qs scores = .ok out) ∨
    ∃ dv scores1 rescaler,
      bow_wi2dvf_dv b.wi2dvf q.wi = some dv ∧
      class_loop L b dv q loo b.cdocs scores 0 0 DBL_MAX = .ok (scores1, rescaler) ∧
      ((b.method.params.score_with_log_probabilities = false ∧ rescaler < 0 ∧
          ∃ scores2, rescale_scores rescaler scores1 = .ok scores2 ∧
            word_loop L b loo qs scores2 = .ok out) ∨
        (¬ (b.method.params.score_with_log_probabilities = false ∧ rescaler < 0) ∧
          word_loop L b loo qs scores1 = .ok out)) := by
  rw [word_loop] at h
  split at h
  · rename_i hdv
    exact Or.inl ⟨hdv, h⟩
  · rename_i dv hdv
    right
    split at h
    · cases h
    · rename_i scores1 rescaler hcl
      refine ⟨dv, scores1, rescaler, hdv, hcl, ?_⟩
      split at h
      · rename_i hm
        split at h
        · rename_i hr
          split at h
          · cases h
          · rename_i scores2 hrs
            exact Or.inl ⟨hm, hr, scores2, hrs, h⟩
        · rename_i hr
          exact Or.inr ⟨fun hh => hr hh.2, h⟩
      · rename_i hm
        exact Or.inr ⟨fun hh => hm hh.1, h⟩

/-! ## The accumulators stay above `-DBL_MAX` -/

theorem class_loop_rescaler_le (L : libm K) (b : bow_barrel K) (dv : bow_dv K) (q : bow_we)
    (loo : Int) (cdocs : List (bow_cdoc K)) (ss : List K) (ci dvi : Nat) (r : K)
    (out : List K) (r2 : K) (h : class_loop L b dv q loo cdocs ss ci dvi r = .ok (out, r2)) :
    r2 ≤ r ∧ ∀ s ∈ out, r2 ≤ s := by
  induction cdocs generalizing ss ci dvi r out with
  | nil =>
    rw [class_loop_nil, Except.ok.injEq, Prod.mk.injEq] at h
    obtain ⟨rfl, rfl⟩ := h
    exact ⟨le_refl _, by simp⟩
  | cons c cs ih =>
    cases ss with
    | nil =>
      rw [class_loop_nil_scores] at h
      cases h
    | cons s ss =>
      obtain ⟨-, pr, t, ss1, -, -, hrec, rfl⟩ := (class_loop_cons_ok _ _ _ _ _ _ _ _ _ _ _ _ _ _).1 h
      obtain ⟨h1, h2⟩ := ih _ _ _ _ _ hrec
      have h3 : (if r > s + t then s + t else r) ≤ r := by
        split
        · exact le_of_lt (by assumption)
        · exact le_refl _
      have h4 : (if r > s + t then s + t else r) ≤ s + t := by
        split
        · exact le_refl _
        · exact not_lt.1 (by assumption)
      refine ⟨le_trans h1 h3, ?_⟩
      intro x hx
      rcases List.mem_cons.1 hx with rfl | hx2
      · exact le_trans h1 h4
      · exact h2 x hx2

theorem init_scores_above (L : libm K) (u lm : Bool) (loo : Int) (cdocs : List (bow_cdoc K))
    (scores : List K) (h : init_scores L u lm loo cdocs = .ok scores) :
    ∀ s ∈ scores, -FLT_MAX + 100000 < s := by
  induction cdocs generalizing scores with
  | nil =>
    simp only [init_scores, Except.ok.injEq] at h
    subst h
    simp
  | cons c cs ih =>
    unfold init_scores at h
    simp only at h
    split at h
    · cases h
    · rename_i s hs
      split at h
      · rename_i hgt
        split at h
        · cases h
        · rename_i ss hss
          simp only [Except.ok.injEq] at h
          subst h
          intro x hx
          rcases List.mem_cons.1 hx with rfl | hx2
          · exact hgt
          · exact ih ss hss x hx2
      · cases h

theorem flt_max_le_dbl_max : -(DBL_MAX : K) ≤ -FLT_MAX + 100000 := by
  unfold DBL_MAX FLT_MAX
  norm_num

theorem word_loop_above (L : libm K) (b : bow_barrel K) (loo : Int)
    (hm : b.method.params.score_with_log_probabilities = false)
    (qs : List bow_we) (scores out : List K) (hs : ∀ s ∈ scores, -DBL_MAX < s)
    (h : word_loop L b loo qs scores = .ok out) : ∀ s ∈ out, -(DBL_MAX : K) < s := by
  induction qs generalizing scores with
  | nil =>
    simp only [word_loop, Except.ok.injEq] at h
    subst h
    exact hs
  | cons q qs ih =>
    rcases word_loop_cons_inv _ _ _ _ _ _ _ h with ⟨-, h2⟩ | ⟨dv, scores1, r, -, hcl, h2⟩
    · exact ih scores hs h2
    · rcases h2 with ⟨-, -, scores2, hrs, h3⟩ | ⟨hn, h3⟩
      · apply ih scores2 _ h3
        obtain ⟨hb, rfl⟩ := (rescale_scores_iff _ _ _).1 hrs
        intro x hx
        obtain ⟨y, hy, rfl⟩ := List.mem_map.1 hx
        have := (hb y hy).1
        linarith
      · apply ih scores1 _ h3
        have hr : 0 ≤ r := by
          by_contra hneg
          exact hn ⟨hm, not_le.1 hneg⟩
        intro x hx
        have := (class_loop_rescaler_le _ _ _ _ _ _ _ _ _ _ _ _ hcl).2 x hx
        have hd : (0 : K) < DBL_MAX := dbl_max_pos
        linarith

theorem accumulate_scores_above (L : libm K) (u : Bool) (b : bow_barrel K) (query_wv : bow_wv)
    (loo : Int) (hm : b.method.params.score_with_log_probabilities = false) (acc : List K)
    (h : accumulate_scores L u b query_wv loo = .ok acc) : ∀ a ∈ acc, -(DBL_MAX : K) < a := by
  unfold accumulate_scores at h
  split at h
  · cases h
  · rename_i scores hinit
    apply word_loop_above L b loo hm _ scores acc _ h
    intro s hs
    exact lt_of_le_of_lt flt_max_le_dbl_max (init_scores_above _ _ _ _ _ _ hinit s hs)

theorem foldl_max_spec (l : List K) (init : K) :
    init ≤ l.foldl (fun rescaler s => if s > rescaler then s else rescaler) init ∧
    (∀ a ∈ l, a ≤ l.foldl (fun rescaler s => if s > rescaler then s else rescaler) init) ∧
    (l.foldl (fun rescaler s => if s > rescaler then s else rescaler) init = init ∨
      l.foldl (fun rescaler s => if s > rescaler then s else rescaler) init ∈ l) := by
  induction l generalizing init with
  | nil => simp
  | cons x xs ih =>
    rw [List.foldl_cons]
    obtain ⟨h1, h2, h3⟩ := ih (if x > init then x else init)
    have hx : x ≤ (if x > init then x else init) := by
      split
      · exact le_refl _
      · exact not_lt.1 (by assumption)
    have hi : init ≤ (if x > init then x else init) := by
      split
      · exact le_of_lt (by assumption)
      · exact le_refl _
    refine ⟨le_trans hi h1, ?_, ?_⟩
    · intro a ha
      rcases List.mem_cons.1 ha with rfl | ha2
      · exact le_trans hx h1
      · exact h2 a ha2
    · rcases h3 with h3 | h3
      · rw [h3]
        by_cases hgt : x > init
        · rw [if_pos hgt]
          exact Or.inr (List.mem_cons_self _ _)
        · rw [if_neg hgt]
          exact Or.inl rfl
      · exact Or.inr (List.mem_cons_of_mem _ h3)

/-- On accumulators above `-DBL_MAX`, of which there is at least one, lines
337-340 compute the maximum. -/
theorem max_score_is_max (acc : List K) (hne : acc ≠ []) (h : ∀ a ∈ acc, -DBL_MAX < a) :
    max_score acc ∈ acc ∧ ∀ a ∈ acc, a ≤ max_score acc := by
  obtain ⟨-, h2, h3⟩ := foldl_max_spec acc (-DBL_MAX)
  refine ⟨?_, h2⟩
  rcases h3 with h3 | h3
  · obtain ⟨x, xs, rfl⟩ := List.exists_cons_of_ne_nil hne
    have hx := h x (List.mem_cons_self _ _)
    have := h2 x (List.mem_cons_self _ _)
    rw [h3] at this
    exact absurd hx (not_lt.2 this)
  · exact h3

theorem accumulate_scores_uniform_empty (L : libm K) (b : bow_barrel K) (loo : Int) :
    accumulate_scores L true b ⟨[]⟩ loo = .ok (List.replicate b.cdocs.length 1) := by
  unfold accumulate_scores
  rw [init_scores_uniform]
  rfl

/-- With the exact exponential, which is never `0`: in probability mode, for a
model with at least one class and the accumulators `acc` that the word loop
leaves, lines 337-340 find the maximum of `acc`; after the maximum is
subtracted and every accumulator is exponentiated, every class value lies in
`(0, 1]`, a class that attains the maximum has the value exactly `1`, the sum
of the values is at least `1`, and the normalisation does not divide by
zero. -/
theorem exact_exponential_values (bow_uniform_class_priors : Bool) (barrel : bow_barrel ℝ)
    (query_wv : bow_wv) (loo_class : Int) (acc : List ℝ) (hn : barrel.cdocs ≠ [])
    (hm : barrel.method.params.score_with_log_probabilities = false)
    (hacc : accumulate_scores ⟨Real.exp, Real.log⟩ bow_uniform_class_priors barrel query_wv
      loo_class = .ok acc) :
    (max_score acc ∈ acc ∧ ∀ a ∈ acc, a ≤ max_score acc) ∧
    finish_scores ⟨Real.exp, Real.log⟩ barrel.method.params.score_with_log_probabilities acc
      = .ok ((acc.map fun s => s - max_score acc).map Real.exp) ∧
    (∀ v ∈ (acc.map fun s => s - max_score acc).map Real.exp, 0 < v ∧ v ≤ 1) ∧
    (∀ (i : Nat) (a : ℝ), acc[i]? = some a → (∀ b ∈ acc, b ≤ a) →
      ((acc.map fun s => s - max_score acc).map Real.exp)[i]? = some 1) ∧
    1 ≤ ((acc.map fun s => s - max_score acc).map Real.exp).sum ∧
    ∃ out, class_scores ⟨Real.exp, Real.log⟩ bow_uniform_class_priors barrel query_wv loo_class
        = .ok out ∧
      out = ((acc.map fun s => s - max_score acc).map Real.exp).map fun v =>
        v / ((acc.map fun s => s - max_score acc).map Real.exp).sum := by
  have hlen := length_accumulate_scores _ _ barrel query_wv loo_class acc hacc
  have hne : acc ≠ [] := by
    intro h
    rw [h] at hlen
    exact hn (List.length_eq_zero.1 hlen.symm)
  have habove := accumulate_scores_above _ _ barrel query_wv loo_class hm acc hacc
  obtain ⟨hmem, hmax⟩ := max_score_is_max acc hne habove
  have hfin : finish_scores ⟨Real.exp, Real.log⟩
      barrel.method.params.score_with_log_probabilities acc
        = .ok ((acc.map fun s => s - max_score acc).map Real.exp) := by
    unfold finish_scores
    rw [hm]
    rfl
  have hvals : ∀ v ∈ (acc.map fun s => s - max_score acc).map Real.exp, 0 < v ∧ v ≤ 1 := by
    intro v hv
    obtain ⟨y, hy, rfl⟩ := List.mem_map.1 hv
    obtain ⟨a, ha, rfl⟩ := List.mem_map.1 hy
    refine ⟨Real.exp_pos _, Real.exp_le_one_iff.2 ?_⟩
    have := hmax a ha
    linarith
  have hone : (1 : ℝ) ∈ (acc.map fun s => s - max_score acc).map Real.exp := by
    refine List.mem_map.2 ⟨0, List.mem_map.2 ⟨max_score acc, hmem, sub_self _⟩, Real.exp_zero⟩
  have hsum : 1 ≤ ((acc.map fun s => s - max_score acc).map Real.exp).sum :=
    List.single_le_sum (fun x hx => le_of_lt (hvals x hx).1) 1 hone
  refine ⟨⟨hmem, hmax⟩, hfin, hvals, ?_, hsum, ?_⟩
  · intro i a hi ha
    have heq : a = max_score acc :=
      le_antisymm (hmax a (List.getElem?_mem hi)) (ha _ hmem)
    rw [List.getElem?_map, List.getElem?_map, hi]
    simp [heq]
  · refine ⟨_, ?_, rfl⟩
    unfold class_scores
    rw [hacc]
    simp only [hfin]
    exact normalize_scores_eq _ (ne_of_gt (lt_of_lt_of_le one_pos hsum))

/-- An example with the exact exponential: two classes, uniform priors, an
empty query; both values are `exp 0 = 1` and their sum is `2`. -/
theorem exact_exponential_example :
    finish_scores ⟨Real.exp, Real.log⟩
        (unnormalized_barrel : bow_barrel ℝ).method.params.score_with_log_probabilities
        (List.replicate (unnormalized_barrel : bow_barrel ℝ).cdocs.length 1)
      = .ok (((List.replicate (unnormalized_barrel : bow_barrel ℝ).cdocs.length (1 : ℝ)).map
          fun s => s - max_score
            (List.replicate (unnormalized_barrel : bow_barrel ℝ).cdocs.length (1 : ℝ))).map
          Real.exp) ∧
    1 ≤ (((List.replicate (unnormalized_barrel : bow_barrel ℝ).cdocs.length (1 : ℝ)).map
          fun s => s - max_score
            (List.replicate (unnormalized_barrel : bow_barrel ℝ).cdocs.length (1 : ℝ))).map
          Real.exp).sum :=
  ⟨(exact_exponential_values true (unnormalized_barrel : bow_barrel ℝ) ⟨[]⟩ (-1) _
      (by simp [unnormalized_barrel]) rfl (accumulate_scores_uniform_empty _ _ _)).2.1,
    (exact_exponential_values true (unnormalized_barrel : bow_barrel ℝ) ⟨[]⟩ (-1) _
      (by simp [unnormalized_barrel]) rfl (accumulate_scores_uniform_empty _ _ _)).2.2.2.2.1⟩

/-! ## Log mode: the accumulators are non-negative -/

theorem pr_w_c_of_ok_bounds (b : bow_barrel K) (cdoc : bow_cdoc K) (de : Option (bow_de K))
    (loo : Bool) (q : bow_we) (v : K) (h : pr_w_c_of b cdoc de loo q = .ok v) :
    0 < v ∧ v ≤ 1 := by
  obtain ⟨-, h2⟩ := (pr_w_c_of_iff b cdoc de loo q v).1 h
  cases de <;> cases loo <;> simp only at h2 <;>
    exact ((assert_pr_w_c_fdiv_iff _ _ _ _).1 h2).2.2

theorem min_pr_tf_bounds : (0 : K) < min_pr_tf ∧ (min_pr_tf : K) ≤ 1 := by
  unfold min_pr_tf FLT_MIN
  constructor
  · positivity
  · rw [div_mul_eq_mul_div, one_mul, div_le_one (by positivity)]
    norm_num

theorem log_term_nonneg (pr : ℝ) (q : bow_we) (t : ℝ) (hpr : 0 < pr ∧ pr ≤ 1)
    (hq : 0 ≤ q.count) (h : log_pr_tf_of ⟨Real.exp, Real.log⟩ true pr q = .ok t) : 0 ≤ t := by
  have hp1 : 0 < pr ^ q.count := zpow_pos hpr.1 _
  have hp2 : pr ^ q.count ≤ 1 := zpow_le_one₀ hpr.1 hpr.2 hq
  obtain ⟨hm1, hm2⟩ := min_pr_tf_bounds (K := ℝ)
  unfold log_pr_tf_of at h
  simp only at h
  have hb : 0 < (if pr ^ q.count < min_pr_tf then min_pr_tf else pr ^ q.count) ∧
      (if pr ^ q.count < min_pr_tf then min_pr_tf else pr ^ q.count) ≤ 1 := by
    split
    · exact ⟨hm1, hm2⟩
    · exact ⟨hp1, hp2⟩
  have hlog := Real.log_nonpos (le_of_lt hb.1) hb.2
  generalize (if pr ^ q.count < min_pr_tf then min_pr_tf else pr ^ q.count) = x at h hlog
  split at h
  · simp only [if_true, Except.ok.injEq] at h
    rw [← h]
    linarith
  · cases h

theorem class_loop_log_nonneg (b : bow_barrel ℝ) (dv : bow_dv ℝ) (q : bow_we) (loo : Int)
    (hm : b.method.params.score_with_log_probabilities = true) (hq : 0 ≤ q.count)
    (cdocs : List (bow_cdoc ℝ)) (ss : List ℝ) (ci dvi : Nat) (r : ℝ) (out : List ℝ) (r2 : ℝ)
    (hs : ∀ s ∈ ss, 0 ≤ s)
    (h : class_loop ⟨Real.exp, Real.log⟩ b dv q loo cdocs ss ci dvi r = .ok (out, r2)) :
    ∀ s ∈ out, 0 ≤ s := by
  induction cdocs generalizing ss ci dvi r out with
  | nil =>
    rw [class_loop_nil, Except.ok.injEq, Prod.mk.injEq] at h
    obtain ⟨rfl, -⟩ := h
    simp
  | cons c cs ih =>
    cases ss with
    | nil =>
      rw [class_loop_nil_scores] at h
      cases h
    | cons s ss =>
      obtain ⟨-, pr, t, ss1, hpr, ht, hrec, rfl⟩ :=
        (class_loop_cons_ok _ _ _ _ _ _ _ _ _ _ _ _ _ _).1 h
      rw [hm] at ht
      have ht0 := log_term_nonneg pr q t (pr_w_c_of_ok_bounds _ _ _ _ _ _ hpr) hq ht
      intro x hx
      rcases List.mem_cons.1 hx with rfl | hx2
      · have := hs s (List.mem_cons_self _ _)
        linarith
      · exact ih _ _ _ _ _ (fun y hy => hs y (List.mem_cons_of_mem _ hy)) hrec x hx2

theorem init_scores_log_nonneg (u : Bool) (loo : Int) (cdocs : List (bow_cdoc ℝ))
    (scores : List ℝ) (h : init_scores ⟨Real.exp, Real.log⟩ u true loo cdocs = .ok scores) :
    ∀ s ∈ scores, 0 ≤ s := by
  induction cdocs generalizing scores with
  | nil =>
    simp only [init_scores, Except.ok.injEq] at h
    subst h
    simp
  | cons c cs ih =>
    unfold init_scores at h
    simp only at h
    split at h
    · cases h
    · rename_i s hs
      have hs0 : 0 ≤ s := by
        split at hs
        · simp only [Except.ok.injEq] at hs
          rw [← hs]
          exact zero_le_one
        · split at hs
          · split at hs
            · rename_i hprior
              simp only [if_true, Except.ok.injEq] at hs
              rw [← hs]
              have := Real.log_nonpos (le_of_lt hprior.1) hprior.2
              linarith
            · cases hs
          · cases hs
      split at h
      · split at h
        · cases h
        · rename_i ss hss
          simp only [Except.ok.injEq] at h
          subst h
          intro x hx
          rcases List.mem_cons.1 hx with rfl | hx2
          · exact hs0
          · exact ih ss hss x hx2
      · cases h

theorem word_loop_log_nonneg (b : bow_barrel ℝ) (loo : Int)
    (hm : b.method.params.score_with_log_probabilities = true)
    (qs : List bow_we) (hq : ∀ q ∈ qs, 0 ≤ q.count) (scores out : List ℝ)
    (hs : ∀ s ∈ scores, 0 ≤ s)
    (h : word_loop ⟨Real.exp, Real.log⟩ b loo qs scores = .ok out) : ∀ s ∈ out, 0 ≤ s := by
  induction qs generalizing scores with
  | nil =>
    simp only [word_loop, Except.ok.injEq] at h
    subst h
    exact hs
  | cons q qs ih =>
    have hq2 : ∀ x ∈ qs, 0 ≤ x.count := fun x hx => hq x (List.mem_cons_of_mem _ hx)
    rcases word_loop_cons_inv _ _ _ _ _ _ _ h with ⟨-, h2⟩ | ⟨dv, scores1, r, -, hcl, h2⟩
    · exact ih hq2 scores hs h2
    · have h1 := class_loop_log_nonneg b dv q loo hm (hq q (List.mem_cons_self _ _)) _ _ _ _ _
        _ _ hs hcl
      rcases h2 with ⟨hf, -⟩ | ⟨-, h3⟩
      · rw [hm] at hf
        cases hf
      · exact ih hq2 scores1 h1 h3

theorem accumulate_scores_log_nonneg (u : Bool) (b : bow_barrel ℝ) (query_wv : bow_wv)
    (loo : Int) (hm : b.method.params.score_with_log_probabilities = true)
    (hq : ∀ q ∈ query_wv.entry, 0 ≤ q.count) (acc : List ℝ)
    (h : accumulate_scores ⟨Real.exp, Real.log⟩ u b query_wv loo = .ok acc) :
    ∀ a ∈ acc, 0 ≤ a := by
  unfold accumulate_scores at h
  rw [hm] at h
  split at h
  · cases h
  · rename_i scores hinit
    exact word_loop_log_nonneg b loo hm _ hq scores acc
      (init_scores_log_nonneg _ _ _ _ hinit) h

theorem reciprocal_scores_iff (xs out : List K) :
    reciprocal_scores xs = .ok out ↔ (∀ a ∈ xs, a ≠ 0) ∧ out = xs.map fun a => 1 / a := by
  induction xs generalizing out with
  | nil => simp [reciprocal_scores, eq_comm]
  | cons x xs ih =>
    rw [reciprocal_scores]
    by_cases hx : x = 0
    · simp [fdiv, hx]
    · simp only [fdiv, hx, if_false, List.forall_mem_cons, ne_eq, not_false_eq_true, true_and,
        List.map_cons]
      cases hrec : reciprocal_scores xs with
      | error a =>
        simp only [reduceCtorEq, false_iff]
        rintro ⟨hall, -⟩
        rw [(ih _).2 ⟨hall, rfl⟩] at hrec
        cases hrec
      | ok rs =>
        obtain ⟨hall, rfl⟩ := (ih rs).1 hrec
        simp only [Except.ok.injEq]
        constructor
        · rintro rfl
          exact ⟨hall, rfl⟩
        · rintro ⟨-, rfl⟩
          rfl

/-! ## Ranking in log mode -/

theorem sorted_top_pairwise (k : Nat) (scores : List K) :
    (sorted_top k scores).Pairwise score_before := by
  unfold sorted_top
  have h : ((indexed_scores 0 scores).insertionSort score_before).Pairwise score_before :=
    List.sorted_insertionSort _ _
  exact h.sublist (List.take_sublist _ _)

theorem mem_sorted_top (k : Nat) (scores : List K) (e : bow_score K)
    (h : e ∈ sorted_top k scores) : scores[e.di]? = some e.weight := by
  unfold sorted_top at h
  have h1 := (List.perm_insertionSort score_before _).mem_iff.1 (List.mem_of_mem_take h)
  obtain ⟨i, h2, h3⟩ := (mem_indexed_scores 0 scores e).1 h1
  rw [h3, Nat.zero_add]
  exact h2

theorem buffer_of_getElem? (k : Nat) (bs : List (bow_score K)) (i : Nat) (e : bow_score K)
    (h : (buffer_of k bs)[i]? = some (some e)) : bs[i]? = some e := by
  unfold buffer_of at h
  by_cases hi : i < bs.length
  · rw [List.getElem?_append_left (by simpa using hi), List.getElem?_map] at h
    cases h0 : bs[i]? with
    | none => simp [h0] at h
    | some x =>
      simp only [h0, Option.map_some', Option.some.injEq] at h
      rw [h]
  · rw [List.getElem?_append_right (by simpa using hi), List.getElem?_replicate] at h
    split at h <;> simp at h

/-- In log (cross-entropy) mode, for a query without negative counts and a call
whose reciprocal and normalisation steps complete: if the accumulated score of
the class `a` before the reciprocal step is lower than that of the class `b`,
the final score of `a` is strictly higher than that of `b`, and in the
returned list `a` stands before `b` whenever both are returned. -/
theorem entropy_order_of_run (bow_uniform_class_priors : Bool) (barrel : bow_barrel ℝ)
    (query_wv : bow_wv) (loo_class : Int) (acc out : List ℝ)
    (hm : barrel.method.params.score_with_log_probabilities = true)
    (hq : ∀ q ∈ query_wv.entry, 0 ≤ q.count)
    (hacc : accumulate_scores ⟨Real.exp, Real.log⟩ bow_uniform_class_priors barrel query_wv
      loo_class = .ok acc)
    (hout : class_scores ⟨Real.exp, Real.log⟩ bow_uniform_class_priors barrel query_wv
      loo_class = .ok out)
    (a b : Nat) (sa sb : ℝ) (ha : acc[a]? = some sa) (hb : acc[b]? = some sb) (hlt : sa < sb) :
    (∃ fa fb, out[a]? = some fa ∧ out[b]? = some fb ∧ fb < fa) ∧
    ∀ k, 0 < k → ∀ r,
      bow_naivebayes_score_loo ⟨Real.exp, Real.log⟩ bow_uniform_class_priors barrel query_wv
        (List.replicate k none) k loo_class = .ok r →
      ∀ (i j : Nat) (ea eb : bow_score ℝ), r.2[i]? = some (some ea) → r.2[j]? = some (some eb) →
        ea.di = a → eb.di = b → i < j := by
  have hnn := accumulate_scores_log_nonneg _ barrel query_wv loo_class hm hq acc hacc
  have hout2 := hout
  unfold class_scores at hout2
  rw [hacc] at hout2
  simp only [finish_scores, hm, Bool.true_eq_false, if_false] at hout2
  cases hrec : reciprocal_scores acc with
  | error e =>
    rw [hrec] at hout2
    cases hout2
  | ok vals =>
    rw [hrec] at hout2
    simp only at hout2
    obtain ⟨hnz, rfl⟩ := (reciprocal_scores_iff _ _).1 hrec
    obtain ⟨hsum, rfl⟩ := (normalize_scores_iff _ _).1 hout2
    have hpos : ∀ x ∈ acc, 0 < x := fun x hx =>
      lt_of_le_of_ne (hnn x hx) (Ne.symm (hnz x hx))
    have hsa : 0 < sa := hpos sa (List.getElem?_mem ha)
    have hsb : 0 < sb := hpos sb (List.getElem?_mem hb)
    have hne : acc ≠ [] := by
      intro h
      rw [h] at ha
      simp at ha
    have hS : 0 < (acc.map fun x => 1 / x).sum := by
      apply List.sum_pos
      · intro v hv
        obtain ⟨x, hx, rfl⟩ := List.mem_map.1 hv
        exact one_div_pos.2 (hpos x hx)
      · simpa using hne
    have hfa : ((acc.map fun x => 1 / x).map fun v => v / (acc.map fun x => 1 / x).sum)[a]?
        = some (1 / sa / (acc.map fun x => 1 / x).sum) := by
      rw [List.getElem?_map, List.getElem?_map, ha]
      rfl
    have hfb : ((acc.map fun x => 1 / x).map fun v => v / (acc.map fun x => 1 / x).sum)[b]?
        = some (1 / sb / (acc.map fun x => 1 / x).sum) := by
      rw [List.getElem?_map, List.getElem?_map, hb]
      rfl
    have hfin : 1 / sb / (acc.map fun x => 1 / x).sum < 1 / sa / (acc.map fun x => 1 / x).sum :=
      div_lt_div_of_pos_right (one_div_lt_one_div_of_lt hsa hlt) hS
    refine ⟨⟨_, _, hfa, hfb, hfin⟩, ?_⟩
    intro k hk r hr i j ea eb hi hj hda hdb
    unfold bow_naivebayes_score_loo at hr
    rw [hout] at hr
    simp only at hr
    rw [select_scores_eq _ k hk, Except.ok.injEq] at hr
    subst hr
    simp only at hi hj
    have hi2 := buffer_of_getElem? _ _ _ _ hi
    have hj2 := buffer_of_getElem? _ _ _ _ hj
    have hwa := mem_sorted_top _ _ _ (List.getElem?_mem hi2)
    have hwb := mem_sorted_top _ _ _ (List.getElem?_mem hj2)
    rw [hda, hfa, Option.some.injEq] at hwa
    rw [hdb, hfb, Option.some.injEq] at hwb
    by_contra hij
    have hle : j ≤ i := not_lt.1 hij
    rcases Nat.lt_or_eq_of_le hle with hji | hji
    · obtain ⟨hjl, hej⟩ := List.getElem?_eq_some.1 hj2
      obtain ⟨hil, hei⟩ := List.getElem?_eq_some.1 hi2
      have hrel := (List.pairwise_iff_getElem.1 (sorted_top_pairwise k _)) j i hjl hil hji
      rw [hej, hei] at hrel
      have := score_before_weight _ _ hrel
      rw [← hwa, ← hwb] at this
      exact absurd hfin (not_lt.2 this)
    · rw [hji, hi2, Option.some.injEq] at hj2
      rw [← hj2, ← hwa] at hwb
      exact absurd hfin (by rw [hwb]; exact lt_irrefl _)

theorem entropy_barrel_accumulate :
    accumulate_scores ⟨Real.exp, Real.log⟩ false (entropy_barrel : bow_barrel ℝ) ⟨[]⟩ (-1)
      = .ok [-Real.log (1 / 4), -Real.log (3 / 4)] := by
  have h1 : (0 : ℝ) < 1 / 4 ∧ (1 / 4 : ℝ) ≤ 1 := by norm_num
  have h2 : (0 : ℝ) < 3 / 4 ∧ (3 / 4 : ℝ) ≤ 1 := by norm_num
  have h3 : -(FLT_MAX : ℝ) + 100000 < -Real.log (1 / 4) := by
    have := Real.log_neg (by norm_num : (0 : ℝ) < 1 / 4) (by norm_num)
    have := flt_max_bound (K := ℝ)
    linarith
  have h4 : -(FLT_MAX : ℝ) + 100000 < -Real.log (3 / 4) := by
    have := Real.log_neg (by norm_num : (0 : ℝ) < 3 / 4) (by norm_num)
    have := flt_max_bound (K := ℝ)
    linarith
  simp only [accumulate_scores, init_scores, entropy_barrel, bow_method_crossentropy,
    bow_crossentropy_params, Bool.false_eq_true, if_false, if_true, h1, h2, h3, h4, and_self,
    word_loop]

/-- An example with an empty query: priors `1/4` and `3/4`.  The accumulator
of the class `1` is `-log (3/4)`, lower than `-log (1/4)` of the class `0`,
and the class `1` gets the higher final score. -/
theorem entropy_order_of_run_example :
    ∃ out fa fb,
      class_scores ⟨Real.exp, Real.log⟩ false (entropy_barrel : bow_barrel ℝ) ⟨[]⟩ (-1)
        = .ok out ∧
      out[1]? = some fa ∧ out[0]? = some fb ∧ fb < fa := by
  have hl1 := Real.log_neg (by norm_num : (0 : ℝ) < 1 / 4) (by norm_num)
  have hl2 := Real.log_neg (by norm_num : (0 : ℝ) < 3 / 4) (by norm_num)
  have hlt : -Real.log (3 / 4) < -Real.log (1 / 4) := by
    have := Real.log_lt_log (by norm_num : (0 : ℝ) < 1 / 4) (by norm_num : (1 / 4 : ℝ) < 3 / 4)
    linarith
  obtain ⟨out, hout, -, -⟩ := class_scores_sum_one false (entropy_barrel : bow_barrel ℝ) ⟨[]⟩
    (-1) _ (by simp [entropy_barrel]) entropy_barrel_accumulate (by
      intro _
      constructor
      · intro a ha
        simp only [List.mem_cons, List.mem_singleton, List.not_mem_nil, or_false] at ha
        rcases ha with rfl | rfl <;> linarith
      · have h1 : 0 < 1 / -Real.log (1 / 4) := one_div_pos.2 (by linarith)
        have h2 : 0 < 1 / -Real.log (3 / 4) := one_div_pos.2 (by linarith)
        simp only [List.map_cons, List.map_nil, List.sum_cons, List.sum_nil, add_zero]
        linarith)
  obtain ⟨fa, fb, h1, h2, h3⟩ := (entropy_order_of_run false
    (entropy_barrel : bow_barrel ℝ) ⟨[]⟩ (-1) _ out rfl (by simp) entropy_barrel_accumulate
    hout 1 0 (-Real.log (3 / 4)) (-Real.log (1 / 4)) rfl rfl hlt).1
  exact ⟨out, fa, fb, hout, h1, h2, h3⟩

/-! ## Probability mode: rescaling shifts every accumulator alike -/

theorem class_loop_shift (L : libm K) (b : bow_barrel K) (dv : bow_dv K) (q : bow_we)
    (loo : Int) (D : K) :
    ∀ (cs : List (bow_cdoc K)) (ss : List K) (ci dvi : Nat) (r : K) (out : List K) (r2 : K),
      class_loop L b dv q loo cs (ss.map fun s => s + D) ci dvi r = .ok (out, r2) →
      ∀ r1, ∃ out1 r3, class_loop L b dv q loo cs ss ci dvi r1 = .ok (out1, r3) ∧
        out = out1.map fun s => s + D := by
  intro cs
  induction cs with
  | nil =>
    intro ss ci dvi r out r2 h r1
    rw [class_loop_nil] at h
    simp only [Except.ok.injEq, Prod.mk.injEq] at h
    refine ⟨[], r1, class_loop_nil _ _ _ _ _ _ _ _ _, ?_⟩
    rw [← h.1]
    rfl
  | cons c cs ih =>
    intro ss ci dvi r out r2 h r1
    cases ss with
    | nil =>
      rw [List.map_nil, class_loop_nil_scores] at h
      cases h
    | cons s ss =>
      rw [List.map_cons, class_loop_cons_ok] at h
      obtain ⟨hc, pr, t, ss1, hpr, ht, hrec, rfl⟩ := h
      obtain ⟨out1, r3, h1, rfl⟩ := ih ss _ _ _ _ _ hrec (if r1 > s + t then s + t else r1)
      refine ⟨(s + t) :: out1, r3,
        (class_loop_cons_ok _ _ _ _ _ _ _ _ _ _ _ _ _ _).2 ⟨hc, pr, t, out1, hpr, ht, h1, rfl⟩, ?_⟩
      rw [List.map_cons, add_right_comm]

theorem word_loop_shift (L : libm K) (b : bow_barrel K) (loo : Int) :
    ∀ (qs : List bow_we) (sums : List K) (D : K) (out : List K),
      word_loop L b loo qs (sums.map fun s => s + D) = .ok out →
      ∃ sums1 D1, unrescaled_word_loop L b loo qs sums = .ok sums1 ∧
        out = sums1.map fun s => s + D1 := by
  intro qs
  induction qs with
  | nil =>
    intro sums D out h
    rw [word_loop] at h
    simp only [Except.ok.injEq] at h
    exact ⟨sums, D, by rw [unrescaled_word_loop], h.symm⟩
  | cons q qs ih =>
    intro sums D out h
    rcases word_loop_cons_inv _ _ _ _ _ _ _ h with ⟨hdv, h1⟩ | ⟨dv, scores1, rescaler, hdv, hcl, hrest⟩
    · obtain ⟨sums1, D1, h2, h3⟩ := ih _ _ _ h1
      refine ⟨sums1, D1, ?_, h3⟩
      rw [unrescaled_word_loop, hdv]
      exact h2
    · obtain ⟨out1, r3, hcl1, rfl⟩ := class_loop_shift _ _ _ _ _ _ _ _ _ _ _ _ _ hcl DBL_MAX
      have hstep : unrescaled_word_loop L b loo (q :: qs) sums
          = unrescaled_word_loop L b loo qs out1 := by
        rw [unrescaled_word_loop, hdv]
        simp only [hcl1]
      rcases hrest with ⟨-, -, scores2, hrs, hw⟩ | ⟨-, hw⟩
      · obtain ⟨-, rfl⟩ := (rescale_scores_iff _ _ _).1 hrs
        rw [List.map_map] at hw
        have hfun : ((fun s => s + -rescaler) ∘ fun s => s + D)
            = fun s : K => s + (D + -rescaler) := by
          funext s
          simp only [Function.comp, add_assoc]
        rw [hfun] at hw
        obtain ⟨sums1, D1, h2, h3⟩ := ih _ _ _ hw
        exact ⟨sums1, D1, hstep.trans h2, h3⟩
      · obtain ⟨sums1, D1, h2, h3⟩ := ih _ _ _ hw
        exact ⟨sums1, D1, hstep.trans h2, h3⟩

theorem accumulate_scores_shift (L : libm K) (u : Bool) (b : bow_barrel K) (query_wv : bow_wv)
    (loo : Int) (acc : List K) (h : accumulate_scores L u b query_wv loo = .ok acc) :
    ∃ sums D, unrescaled_accumulators L u b query_wv loo = .ok sums ∧
      acc = sums.map fun s => s + D := by
  unfold accumulate_scores at h
  unfold unrescaled_accumulators
  split at h
  · cases h
  · rename_i scores hinit
    have h0 : scores = scores.map fun s => s + 0 := by simp
    rw [h0] at h
    exact word_loop_shift _ _ _ _ _ _ _ h

theorem exp_shares_shift (sums : List ℝ) (D M : ℝ) :
    (((sums.map fun s => s + D).map fun s => s - M).map Real.exp).map
        (fun v => v / (((sums.map fun s => s + D).map fun s => s - M).map Real.exp).sum)
      = exp_shares ⟨Real.exp, Real.log⟩ sums := by
  have hvals : ((sums.map fun s => s + D).map fun s => s - M).map Real.exp
      = (sums.map Real.exp).map fun v => v * Real.exp (D - M) := by
    simp only [List.map_map]
    apply List.map_congr_left
    intro s _
    simp only [Function.comp]
    rw [← Real.exp_add]
    congr 1
    ring
  rw [hvals, List.sum_map_mul_right, List.map_map, List.map_map]
  unfold exp_shares
  apply List.map_congr_left
  intro s _
  have hid : List.map (fun v : ℝ => v) (sums.map Real.exp) = sums.map Real.exp := List.map_id _
  simp only [Function.comp, hid]
  exact mul_div_mul_right _ _ (Real.exp_ne_zero _)

/-- C15: in probability mode rescaling and the subtraction of the maximum do
not change the outcome.  Every rescale that passes its check adds the same
constant `-rescaler` to all accumulators, so the difference of any two of them
is kept; the accumulators that the code leaves are the un-rescaled sums `L_c`
shifted by one constant; and the final score of every class of a run that
returns is `exp (L_c) / sum_j exp (L_j)`. -/
theorem rescaling_preserves_outcome (bow_uniform_class_priors : Bool) (barrel : bow_barrel ℝ)
    (query_wv : bow_wv) (loo_class : Int) (out : List ℝ)
    (hm : barrel.method.params.score_with_log_probabilities = false)
    (hout : class_scores ⟨Real.exp, Real.log⟩ bow_uniform_class_priors barrel query_wv loo_class
      = .ok out) :
    (∀ (r : ℝ) (ss ss1 : List ℝ), rescale_scores r ss = .ok ss1 →
      ss1 = (ss.map fun s => s + -r) ∧
      ∀ (i j : Nat) (a b a1 b1 : ℝ), ss[i]? = some a → ss[j]? = some b →
        ss1[i]? = some a1 → ss1[j]? = some b1 → a1 - b1 = a - b) ∧
    ∃ sums, unrescaled_accumulators ⟨Real.exp, Real.log⟩ bow_uniform_class_priors barrel
        query_wv loo_class = .ok sums ∧
      (∃ D, accumulate_scores ⟨Real.exp, Real.log⟩ bow_uniform_class_priors barrel query_wv
        loo_class = .ok (sums.map fun s => s + D)) ∧
      out = exp_shares ⟨Real.exp, Real.log⟩ sums := by
  constructor
  · intro r ss ss1 h
    obtain ⟨-, rfl⟩ := (rescale_scores_iff _ _ _).1 h
    refine ⟨rfl, ?_⟩
    intro i j a b a1 b1 ha hb ha1 hb1
    rw [List.getElem?_map, ha] at ha1
    rw [List.getElem?_map, hb] at hb1
    simp only [Option.map_some', Option.some.injEq] at ha1 hb1
    rw [← ha1, ← hb1]
    ring
  · unfold class_scores at hout
    split at hout
    · cases hout
    · rename_i acc hacc
      obtain ⟨sums, D, hsums, rfl⟩ := accumulate_scores_shift _ _ _ _ _ _ hacc
      refine ⟨sums, hsums, ⟨D, hacc⟩, ?_⟩
      unfold finish_scores at hout
      rw [hm] at hout
      simp only [if_true] at hout
      obtain ⟨-, rfl⟩ := (normalize_scores_iff _ _).1 hout
      exact exp_shares_shift sums D _

theorem rescaled_barrel_pr (cdoc : bow_cdoc ℝ) (hw : cdoc.word_count = 0) (de : Option (bow_de ℝ))
    (hde : de = none) :
    pr_w_c_of (rescaled_barrel : bow_barrel ℝ) cdoc de false ⟨0, 1⟩ = .ok 1 := by
  subst hde
  simp [pr_w_c_of, M_EST_P, M_EST_M, fdiv, assert_pr_w_c, rescaled_barrel, hw]

theorem rescaled_barrel_term :
    log_pr_tf_of ⟨Real.exp, Real.log⟩
      (rescaled_barrel : bow_barrel ℝ).method.params.score_with_log_probabilities 1 ⟨0, 1⟩
      = .ok 0 := by
  have h1 : ¬ ((1 : ℝ) < min_pr_tf) := by
    unfold min_pr_tf FLT_MIN
    norm_num
  have h2 := flt_max_bound (K := ℝ)
  simp [log_pr_tf_of, rescaled_barrel, bow_method_naivebayes, bow_naivebayes_params, h1, h2]

theorem rescaled_barrel_class_loop (a c : ℝ) (hac : a ≤ c) (ha : a < DBL_MAX) :
    class_loop ⟨Real.exp, Real.log⟩ (rescaled_barrel : bow_barrel ℝ) ⟨1, []⟩ ⟨0, 1⟩ (-1)
      (rescaled_barrel : bow_barrel ℝ).cdocs [a, c] 0 0 DBL_MAX = .ok ([a + 0, c + 0], a + 0) := by
  have hcd : (rescaled_barrel : bow_barrel ℝ).cdocs
      = [⟨.model, 1 / 4, 0⟩, ⟨.model, 3 / 4, 0⟩] := rfl
  rw [hcd]
  refine (class_loop_cons_ok _ _ _ _ _ _ _ _ _ _ _ _ _ _).2
    ⟨rfl, 1, 0, [c + 0], rescaled_barrel_pr _ rfl _ rfl, rescaled_barrel_term, ?_, rfl⟩
  rw [if_pos (by rw [add_zero]; exact ha)]
  refine (class_loop_cons_ok _ _ _ _ _ _ _ _ _ _ _ _ _ _).2
    ⟨rfl, 1, 0, [], rescaled_barrel_pr _ rfl _ rfl, rescaled_barrel_term, ?_, rfl⟩
  rw [if_neg (by rw [add_zero, add_zero]; exact not_lt.2 hac), class_loop_nil]

theorem log_quarter_bounds :
    -3 ≤ Real.log (1 / 4) ∧ Real.log (1 / 4) < Real.log (3 / 4) ∧ Real.log (3 / 4) < 0 := by
  refine ⟨?_, Real.log_lt_log (by norm_num) (by norm_num),
    Real.log_neg (by norm_num) (by norm_num)⟩
  have := Real.one_sub_inv_le_log_of_pos (by norm_num : (0 : ℝ) < 1 / 4)
  norm_num at this
  norm_num
  linarith

theorem rescaled_barrel_accumulate :
    accumulate_scores ⟨Real.exp, Real.log⟩ false (rescaled_barrel : bow_barrel ℝ) ⟨[⟨0, 1⟩]⟩ (-1)
      = .ok [Real.log (1 / 4) + 0 + -(Real.log (1 / 4) + 0),
          Real.log (3 / 4) + 0 + -(Real.log (1 / 4) + 0)] := by
  obtain ⟨hb1, hb2, hb3⟩ := log_quarter_bounds
  have hF : (100003 : ℝ) < FLT_MAX := by
    unfold FLT_MAX
    norm_num
  have hD : (100003 : ℝ) < DBL_MAX := by
    unfold DBL_MAX
    norm_num
  have h1 : (0 : ℝ) < 1 / 4 ∧ (1 / 4 : ℝ) ≤ 1 := by norm_num
  have h2 : (0 : ℝ) < 3 / 4 ∧ (3 / 4 : ℝ) ≤ 1 := by norm_num
  have h3 : -(FLT_MAX : ℝ) + 100000 < Real.log (1 / 4) := by linarith
  have h4 : -(FLT_MAX : ℝ) + 100000 < Real.log (3 / 4) := by linarith
  have hinit : init_scores ⟨Real.exp, Real.log⟩ false
      (rescaled_barrel : bow_barrel ℝ).method.params.score_with_log_probabilities (-1)
      (rescaled_barrel : bow_barrel ℝ).cdocs = .ok [Real.log (1 / 4), Real.log (3 / 4)] := by
    simp only [init_scores, rescaled_barrel, bow_method_naivebayes, bow_naivebayes_params,
      Bool.false_eq_true, if_false, if_true, h1, h2, h3, h4, and_self]
  unfold accumulate_scores
  rw [hinit]
  have hdv : bow_wi2dvf_dv (rescaled_barrel : bow_barrel ℝ).wi2dvf (⟨0, 1⟩ : bow_we).wi
      = some ⟨1, []⟩ := rfl
  have hmode : (rescaled_barrel : bow_barrel ℝ).method.params.score_with_log_probabilities
      = false := rfl
  have hneg : Real.log (1 / 4) + 0 < 0 := by linarith
  have hres := (rescale_scores_iff (Real.log (1 / 4) + 0)
    [Real.log (1 / 4) + 0, Real.log (3 / 4) + 0] _).2 ⟨by
      intro s hs
      simp only [List.mem_cons, List.mem_singleton, List.not_mem_nil, or_false] at hs
      rcases hs with rfl | rfl <;> constructor <;> linarith, rfl⟩
  simp only [word_loop, hdv,
    rescaled_barrel_class_loop _ _ (le_of_lt hb2) (by linarith), hmode, if_true, hneg, hres,
    List.map_cons, List.map_nil]

theorem class_scores_of_accumulate (u : Bool) (barrel : bow_barrel ℝ) (query_wv : bow_wv)
    (loo : Int) (acc : List ℝ) (hn : acc ≠ [])
    (hm : barrel.method.params.score_with_log_probabilities = false)
    (hacc : accumulate_scores ⟨Real.exp, Real.log⟩ u barrel query_wv loo = .ok acc) :
    ∃ out, class_scores ⟨Real.exp, Real.log⟩ u barrel query_wv loo = .ok out := by
  have hpos : 0 < ((acc.map fun s => s - max_score acc).map Real.exp).sum := by
    obtain ⟨x, xs, rfl⟩ := List.exists_cons_of_ne_nil hn
    rw [List.map_cons, List.map_cons, List.sum_cons]
    exact add_pos_of_pos_of_nonneg (Real.exp_pos _) (List.sum_nonneg (by
      intro v hv
      obtain ⟨y, -, rfl⟩ := List.mem_map.1 hv
      exact le_of_lt (Real.exp_pos _)))
  refine ⟨((acc.map fun s => s - max_score acc).map Real.exp).map fun v =>
    v / ((acc.map fun s => s - max_score acc).map Real.exp).sum, ?_⟩
  unfold class_scores
  rw [hacc]
  simp only [finish_scores, hm, if_true]
  exact normalize_scores_eq _ (ne_of_gt hpos)

/-- Witness for C15: priors `1/4` and `3/4` and a query of one known word.  The
word loop rescales by `-log (1/4)`, and the scores that the run returns are
the shares `exp (L_c) / sum_j exp (L_j)` of the un-rescaled sums. -/
theorem rescaling_preserves_outcome_witness :
    accumulate_scores ⟨Real.exp, Real.log⟩ false (rescaled_barrel : bow_barrel ℝ) ⟨[⟨0, 1⟩]⟩ (-1)
      = .ok [Real.log (1 / 4) + 0 + -(Real.log (1 / 4) + 0),
          Real.log (3 / 4) + 0 + -(Real.log (1 / 4) + 0)] ∧
    ∃ out sums,
      class_scores ⟨Real.exp, Real.log⟩ false (rescaled_barrel : bow_barrel ℝ) ⟨[⟨0, 1⟩]⟩ (-1)
        = .ok out ∧
      unrescaled_accumulators ⟨Real.exp, Real.log⟩ false (rescaled_barrel : bow_barrel ℝ)
        ⟨[⟨0, 1⟩]⟩ (-1) = .ok sums ∧
      out = exp_shares ⟨Real.exp, Real.log⟩ sums := by
  refine ⟨rescaled_barrel_accumulate, ?_⟩
  obtain ⟨out, hout⟩ := class_scores_of_accumulate false (rescaled_barrel : bow_barrel ℝ)
    ⟨[⟨0, 1⟩]⟩ (-1) _ (by simp) rfl rescaled_barrel_accumulate
  obtain ⟨sums, h1, -, h2⟩ := (rescaling_preserves_outcome false
    (rescaled_barrel : bow_barrel ℝ) ⟨[⟨0, 1⟩]⟩ (-1) out rfl hout).2
  exact ⟨out, sums, hout, h1, h2⟩

/-! ## The word counts at the width of `int` -/

theorem int_wrap_add (x y : Int) : int_wrap (int_wrap x + y) = int_wrap (x + y) := by
  unfold int_wrap
  omega

theorem int_wrap_eq_self_iff (x : Int) :
    int_wrap x = x ↔ -2147483648 ≤ x ∧ x < 2147483648 := by
  unfold int_wrap
  omega

theorem int_wrap_range (x : Int) : -2147483648 ≤ int_wrap x ∧ int_wrap x < 2147483648 := by
  unfold int_wrap
  omega

theorem add_dv_counts_int32_wrap (es : List (bow_de K)) (cdocs : List (bow_cdoc K)) :
    add_dv_counts_int32 es (wrap_counts cdocs) = (add_dv_counts es cdocs).map wrap_counts := by
  induction es generalizing cdocs with
  | nil => rfl
  | cons e es ih =>
    rw [add_dv_counts_int32, add_dv_counts]
    simp only [bow_array_entry_at_index]
    have hget : (wrap_counts cdocs)[e.di]?
        = (cdocs[e.di]?).map fun c => { c with word_count := int_wrap c.word_count } := by
      unfold wrap_counts
      rw [List.getElem?_map]
    rw [hget]
    cases hc : cdocs[e.di]? with
    | none => rfl
    | some c =>
      simp only [Option.map_some']
      have hset : (wrap_counts cdocs).set e.di
            { c with word_count := int_wrap (int_wrap c.word_count + e.count) }
          = wrap_counts (cdocs.set e.di { c with word_count := c.word_count + e.count }) := by
        unfold wrap_counts
        rw [List.map_set, int_wrap_add]
      rw [hset, ih]

theorem count_words_int32_wrap (w : bow_wi2dvf K) (wis : List Nat) (cdocs : List (bow_cdoc K)) :
    count_words_int32 w wis (wrap_counts cdocs) = (count_words w wis cdocs).map wrap_counts := by
  induction wis generalizing cdocs with
  | nil => rfl
  | cons wi wis ih =>
    rw [count_words_int32, count_words]
    cases hdv : bow_wi2dvf_dv w wi with
    | none => exact ih cdocs
    | some dv =>
      simp only [add_dv_counts_int32_wrap]
      cases hadd : add_dv_counts dv.entry cdocs with
      | error a => rfl
      | ok cdocs1 => exact ih cdocs1

theorem wrap_counts_reset (cdocs : List (bow_cdoc K)) :
    wrap_counts (reset_word_counts cdocs) = reset_word_counts cdocs := by
  unfold wrap_counts reset_word_counts
  rw [List.map_map]
  rfl

theorem set_weights_int32_cdocs (nw : Nat) (b b1 : bow_barrel K)
    (h : bow_naivebayes_set_weights_int32 nw b = .ok b1) :
    count_words_int32 b.wi2dvf (List.range (min b.wi2dvf.size nw)) (reset_word_counts b.cdocs)
      = .ok b1.cdocs := by
  unfold bow_naivebayes_set_weights_int32 at h
  split at h
  · simp only at h
    split at h
    · cases h
    · split at h
      · cases h
      · rename_i cdocs1 hc
        split at h
        · cases h
        · simp only [Except.ok.injEq] at h
          rw [← h]
          exact hc
  · cases h

/-- At the width of `int`, a completed run leaves in every class record the
sum of the counts of the entries that name the class reduced modulo `2^32`;
it is the sum itself exactly when the sum is an `int`. -/
theorem set_weights_int32_word_count (nw : Nat) (b b1 : bow_barrel K)
    (hvoc : table_within_vocabulary nw b)
    (hrun : bow_naivebayes_set_weights_int32 nw b = .ok b1) :
    ∀ (ci : Nat) (c : bow_cdoc K), b.cdocs[ci]? = some c →
      b1.cdocs[ci]? = some { c with word_count := int_wrap (class_total b ci) } ∧
      (-2147483648 ≤ class_total b ci → class_total b ci < 2147483648 →
        b1.cdocs[ci]? = some { c with word_count := class_total b ci }) := by
  have h1 := set_weights_int32_cdocs nw b b1 hrun
  rw [← wrap_counts_reset, count_words_int32_wrap] at h1
  cases hex : count_words b.wi2dvf (List.range (min b.wi2dvf.size nw))
      (reset_word_counts b.cdocs) with
  | error a =>
    rw [hex] at h1
    cases h1
  | ok cdocs1 =>
    rw [hex] at h1
    have h2 : wrap_counts cdocs1 = b1.cdocs := by
      simpa [Except.map] using h1
    obtain ⟨-, rfl⟩ := (count_words_iff _ _ _ _).1 hex
    rw [visited_range nw b hvoc] at h2
    intro ci c hc
    have hget : b1.cdocs[ci]? = some { c with word_count := int_wrap (class_total b ci) } := by
      rw [← h2]
      unfold wrap_counts
      rw [List.getElem?_map, getElem?_add_counts_reset, hc]
      rfl
    refine ⟨hget, fun hlo hhi => ?_⟩
    rw [hget, (int_wrap_eq_self_iff _).2 ⟨hlo, hhi⟩]

/-- C2 at its failing input: a model of one class in which three words occur
`2000000000` times each.  Every entry names a class of the catalog and the
sum of the counts is `6000000000`, but line 90 adds `int`s: the run completes
and leaves the word count `1705032704`. -/
theorem set_weights_word_count_overflow :
    valid_class_indices overflow_barrel ∧
    class_total overflow_barrel 0 = 6000000000 ∧
    bow_naivebayes_set_weights_int32 3 overflow_barrel
      = .ok { method := bow_method_naivebayes
              cdocs := [⟨.model, 1, 1705032704⟩]
              wi2dvf :=
                { num_words := 3
                  entry := [some ⟨1, [⟨0, 2000000000, 2000000001 / 1705032707⟩]⟩,
                    some ⟨1, [⟨0, 2000000000, 2000000001 / 1705032707⟩]⟩,
                    some ⟨1, [⟨0, 2000000000, 2000000001 / 1705032707⟩]⟩] } } := by
  refine ⟨?_, ?_, ?_⟩
  · intro e he
    simp [all_entries, overflow_barrel, List.reduceOption] at he
    rw [he]
    decide
  · simp [class_total, count_in, all_entries, overflow_barrel, List.reduceOption]
  · simp [bow_naivebayes_set_weights_int32, overflow_barrel, bow_method_naivebayes,
      bow_wi2dvf.size, check_priors, count_words_int32, reset_word_counts, List.range,
      List.range.loop, bow_wi2dvf_dv, add_dv_counts_int32, bow_array_entry_at_index,
      weight_words_int32, set_dv_weights_int32, fdiv, int_wrap]

/-! ## Lookup without a result, and the terms of single words -/

theorem lookup_entry_none_iff (entry : List (bow_de K)) (ci : Nat) :
    lookup_entry entry ci = none ↔ ∀ e ∈ entry, e.di ≠ ci := by
  unfold lookup_entry
  rw [List.find?_eq_none]
  simp

theorem log_pr_tf_of_log_mode (L : libm K) (pr : K) (q : bow_we) (x : K)
    (hx : pr ^ q.count = x) (h1 : ¬ x < min_pr_tf) (h2 : -FLT_MAX + 100000 < L.log x) :
    log_pr_tf_of L true pr q = .ok (-L.log x) := by
  unfold log_pr_tf_of
  simp only [hx, h1, if_false, h2, if_true]

theorem two_word_barrel_pr_loo (cdoc : bow_cdoc ℝ) (hw : cdoc.word_count = 2)
    (de : Option (bow_de ℝ)) (hde : de = some ⟨0, 1, 1 / 2⟩) (loo : Bool) (hloo : loo = true) :
    pr_w_c_of (two_word_barrel : bow_barrel ℝ) cdoc de loo ⟨0, 1⟩ = .ok (1 / 4) := by
  subst hde hloo
  simp [pr_w_c_of, M_EST_P, M_EST_M, fdiv, assert_pr_w_c, two_word_barrel, hw]
  norm_num

theorem two_word_barrel_pr_none (cdoc : bow_cdoc ℝ) (hw : cdoc.word_count = 1)
    (de : Option (bow_de ℝ)) (hde : de = none) (loo : Bool) (hloo : loo = false)
    (q : bow_we) :
    pr_w_c_of (two_word_barrel : bow_barrel ℝ) cdoc de loo q = .ok (1 / 3) := by
  subst hde hloo
  simp [pr_w_c_of, M_EST_P, M_EST_M, fdiv, assert_pr_w_c, two_word_barrel, hw]
  norm_num

theorem log_above (x : ℝ) (hx : 0 < x) (hinv : x⁻¹ ≤ 2 ^ 127) :
    -(FLT_MAX : ℝ) + 100000 < Real.log x := by
  have h1 := Real.one_sub_inv_le_log_of_pos hx
  have h2 : -(FLT_MAX : ℝ) + 100000 < 1 - 2 ^ 127 := by
    unfold FLT_MAX
    norm_num
  linarith

theorem min_pr_tf_le (x : ℝ) (hx : 1 / 2 ^ 100 ≤ x) : ¬ x < min_pr_tf := by
  have h : (min_pr_tf : ℝ) ≤ 1 / 2 ^ 100 := by
    unfold min_pr_tf FLT_MIN
    norm_num
  exact not_lt.2 (le_trans h hx)

theorem two_word_barrel_loo_run :
    class_loop ⟨Real.exp, Real.log⟩ (two_word_barrel : bow_barrel ℝ) ⟨1, [⟨0, 1, 1 / 2⟩]⟩
        ⟨0, 1⟩ 0 (two_word_barrel : bow_barrel ℝ).cdocs [1, 1] 0 0 DBL_MAX
      = .ok ([1 + -Real.log (1 / 4), 1 + -Real.log (1 / 3)],
          if (if DBL_MAX > 1 + -Real.log (1 / 4) then 1 + -Real.log (1 / 4) else DBL_MAX)
              > 1 + -Real.log (1 / 3) then 1 + -Real.log (1 / 3)
          else (if DBL_MAX > 1 + -Real.log (1 / 4) then 1 + -Real.log (1 / 4) else DBL_MAX)) := by
  have hcd : (two_word_barrel : bow_barrel ℝ).cdocs
      = [⟨.model, 1 / 2, 2⟩, ⟨.model, 1 / 2, 1⟩] := rfl
  rw [hcd]
  have ht1 : log_pr_tf_of ⟨Real.exp, Real.log⟩
      (two_word_barrel : bow_barrel ℝ).method.params.score_with_log_probabilities (1 / 4)
      ⟨0, 1⟩ = .ok (-Real.log (1 / 4)) :=
    log_pr_tf_of_log_mode _ _ _ _ (zpow_one _) (min_pr_tf_le _ (by norm_num))
      (log_above _ (by norm_num) (by norm_num))
  have ht2 : log_pr_tf_of ⟨Real.exp, Real.log⟩
      (two_word_barrel : bow_barrel ℝ).method.params.score_with_log_probabilities (1 / 3)
      ⟨0, 1⟩ = .ok (-Real.log (1 / 3)) :=
    log_pr_tf_of_log_mode _ _ _ _ (zpow_one _) (min_pr_tf_le _ (by norm_num))
      (log_above _ (by norm_num) (by norm_num))
  exact (class_loop_cons_ok _ _ _ _ _ _ _ _ _ _ _ _ _ _).2
    ⟨rfl, 1 / 4, -Real.log (1 / 4), [1 + -Real.log (1 / 3)],
      two_word_barrel_pr_loo _ rfl _ rfl _ rfl, ht1,
      (class_loop_cons_ok _ _ _ _ _ _ _ _ _ _ _ _ _ _).2
        ⟨rfl, 1 / 3, -Real.log (1 / 3), [], two_word_barrel_pr_none _ rfl _ rfl _ rfl _, ht2,
          class_loop_nil _ _ _ _ _ _ _ _ _, rfl⟩, rfl⟩

/-! ## Log mode: the order of the final scores -/

theorem class_loop_at_cursor (L : libm K) (b : bow_barrel K) (dv : bow_dv K) (q : bow_we)
    (loo : Int) :
    ∀ (cdocs : List (bow_cdoc K)) (ss : List K) (ci dvi : Nat) (r : K) (out : List K) (r2 : K),
      advance_dvi dv.entry ci dv.entry.length dvi = cursor_at dv.entry ci →
      class_loop L b dv q loo cdocs ss ci dvi r = .ok (out, r2) →
      ∀ (j : Nat) (cdoc : bow_cdoc K), cdocs[j]? = some cdoc →
        ∃ s pr t, ss[j]? = some s ∧
          pr_w_c_of b cdoc (entry_at dv.entry (cursor_at dv.entry (ci + j)) (ci + j))
            (decide (loo = ((ci + j : Nat) : Int))) q = .ok pr ∧
          log_pr_tf_of L b.method.params.score_with_log_probabilities pr q = .ok t ∧
          out[j]? = some (s + t) := by
  intro cdocs
  induction cdocs with
  | nil =>
    intro ss ci dvi r out r2 _ _ j cdoc hj
    simp at hj
  | cons c cs ih =>
    intro ss ci dvi r out r2 hcur h j cdoc hj
    cases ss with
    | nil =>
      rw [class_loop_nil_scores] at h
      cases h
    | cons s ss =>
      rw [class_loop_cons_ok] at h
      obtain ⟨-, pr, t, ss1, hpr, ht, hrec, rfl⟩ := h
      rw [hcur] at hpr hrec
      cases j with
      | zero =>
        simp only [List.getElem?_cons_zero, Option.some.injEq] at hj
        subst hj
        exact ⟨s, pr, t, List.getElem?_cons_zero, hpr, ht, List.getElem?_cons_zero⟩
      | succ j =>
        rw [List.getElem?_cons_succ] at hj
        obtain ⟨s1, pr1, t1, h1, h2, h3, h4⟩ := ih ss _ _ _ _ _ (by rw [cursor_at]) hrec j cdoc
          hj
        have hidx : ci + 1 + j = ci + (j + 1) := by omega
        rw [hidx] at h2
        exact ⟨s1, pr1, t1, by rw [List.getElem?_cons_succ]; exact h1, h2, h3,
          by rw [List.getElem?_cons_succ]; exact h4⟩

/-- C9: in the class loop that `bow_naivebayes_score_loo` runs for a query
word `q` with the document vector `dv`, the term added to the accumulator of
every class `ci` is computed from a `pr_w_c` that depends on whether `ci` is
the leave-one-out class; the round of the word loop for `q` is this class loop
followed by the rescaling.  The constants are `m = M_EST_M = V /
classWordCount` (`1` when `classWordCount` is `0`) and `p = 1 / V`.  When
`loo_class = ci`, `pr_w_c` is `(m p + rawCount - q) / (m + classWordCount - q)`
if the test of line 233 finds an entry of the class and
`(m p) / (m + classWordCount - q)` if it finds none, `q` being the count of
the word in the query; for every other class it is
`(m p + rawCount) / (m + classWordCount)` with an entry and
`(m p) / (m + classWordCount)` without one.  For entries in increasing order
of class the test of line 233 finds the entry of the class exactly when the
document vector has one. -/
theorem class_loop_leave_one_out (L : libm K) (barrel : bow_barrel K) (q : bow_we)
    (dv : bow_dv K) (loo_class : Int) (scores out : List K) (rescaler : K)
    (hdv : bow_wi2dvf_dv barrel.wi2dvf q.wi = some dv)
    (hrun : class_loop L barrel dv q loo_class barrel.cdocs scores 0 0 DBL_MAX
      = .ok (out, rescaler))
    (ci : Nat) (cdoc : bow_cdoc K) (hc : barrel.cdocs[ci]? = some cdoc) :
    (word_loop L barrel loo_class [q] scores
      = if barrel.method.params.score_with_log_probabilities = false ∧ rescaler < 0 then
          rescale_scores rescaler out
        else .ok out) ∧
    M_EST_M barrel cdoc = (if cdoc.word_count = 0 then (1 : K)
      else (barrel.wi2dvf.num_words : K) / (cdoc.word_count : K)) ∧
    (∃ s pr t, scores[ci]? = some s ∧ out[ci]? = some (s + t) ∧
      log_pr_tf_of L barrel.method.params.score_with_log_probabilities pr q = .ok t ∧
      (loo_class = (ci : Int) →
        (∀ e, entry_at dv.entry (cursor_at dv.entry ci) ci = some e →
          pr = (M_EST_M barrel cdoc * (1 / (barrel.wi2dvf.num_words : K))
                + (e.count : K) - (q.count : K))
              / (M_EST_M barrel cdoc + (cdoc.word_count : K) - (q.count : K))) ∧
        (entry_at dv.entry (cursor_at dv.entry ci) ci = none →
          pr = (M_EST_M barrel cdoc * (1 / (barrel.wi2dvf.num_words : K)))
              / (M_EST_M barrel cdoc + (cdoc.word_count : K) - (q.count : K)))) ∧
      (loo_class ≠ (ci : Int) →
        (∀ e, entry_at dv.entry (cursor_at dv.entry ci) ci = some e →
          pr = (M_EST_M barrel cdoc * (1 / (barrel.wi2dvf.num_words : K)) + (e.count : K))
              / (M_EST_M barrel cdoc + (cdoc.word_count : K))) ∧
        (entry_at dv.entry (cursor_at dv.entry ci) ci = none →
          pr = (M_EST_M barrel cdoc * (1 / (barrel.wi2dvf.num_words : K)))
              / (M_EST_M barrel cdoc + (cdoc.word_count : K))))) ∧
    ((dv.entry.Pairwise fun x y => x.di < y.di) →
      (∀ e, entry_at dv.entry (cursor_at dv.entry ci) ci = some e ↔ e ∈ dv.entry ∧ e.di = ci) ∧
      (entry_at dv.entry (cursor_at dv.entry ci) ci = none ↔ ∀ e ∈ dv.entry, e.di ≠ ci)) := by
  obtain ⟨s, pr, t, h1, h2, h3, h4⟩ := class_loop_at_cursor L barrel dv q loo_class barrel.cdocs
    scores 0 0 DBL_MAX out rescaler (by rw [cursor_at]) hrun ci cdoc hc
  rw [Nat.zero_add] at h2
  obtain ⟨hM, -, hsome, hnone⟩ := pr_w_c_leave_one_out barrel cdoc q loo_class ci pr
  refine ⟨?_, hM, ⟨s, pr, t, h1, h4, h3, ?_, ?_⟩, ?_⟩
  · rw [word_loop, hdv]
    simp only [hrun]
    by_cases hmode : barrel.method.params.score_with_log_probabilities = false
    · by_cases hr : rescaler < 0
      · simp only [hmode, hr, and_self, if_true]
        cases rescale_scores rescaler out with
        | error a => rfl
        | ok scores2 => simp only [word_loop]
      · simp only [hmode, hr, and_false, if_false, if_true, word_loop]
    · simp only [hmode, false_and, if_false, word_loop, Bool.true_eq_false]
  · intro hloo
    constructor
    · intro e he
      rw [he] at h2
      have := ((hsome e).1 h2).2.1
      rw [if_pos hloo] at this
      exact this.2
    · intro hno
      rw [hno] at h2
      have := (hnone.1 h2).2.1
      rw [if_pos hloo] at this
      exact this.2
  · intro hloo
    constructor
    · intro e he
      rw [he] at h2
      have := ((hsome e).1 h2).2.1
      rw [if_neg hloo] at this
      exact this.2
    · intro hno
      rw [hno] at h2
      have := (hnone.1 h2).2.1
      rw [if_neg hloo] at this
      exact this.2
  · intro hs
    rw [entry_at_cursor_eq_lookup dv.entry ci hs]
    exact ⟨fun e => lookup_entry_some_iff dv.entry ci e hs, lookup_entry_none_iff dv.entry ci⟩

/-- Witness for C9: the model of two words, the query word `w0` with the count
`1`, and the class `A` left out.  The class `A` has the entry `w0 : 1` and the
word count `2`, so `m = 1`, `p = 1/2` and its `pr_w_c` is
`(1/2 + 1 - 1) / (1 + 2 - 1) = 1/4`; the class `B` has no entry and is not
left out, its `pr_w_c` is `(2 * 1/2) / (2 + 1) = 1/3`. -/
theorem class_loop_leave_one_out_witness :
    ∃ (out : List ℝ) (r : ℝ),
      class_loop ⟨Real.exp, Real.log⟩ (two_word_barrel : bow_barrel ℝ) ⟨1, [⟨0, 1, 1 / 2⟩]⟩
        ⟨0, 1⟩ 0 (two_word_barrel : bow_barrel ℝ).cdocs [1, 1] 0 0 DBL_MAX = .ok (out, r) ∧
      (∃ pr t : ℝ, out[0]? = some (1 + t) ∧
        log_pr_tf_of ⟨Real.exp, Real.log⟩ true pr ⟨0, 1⟩ = .ok t ∧ pr = 1 / 4) ∧
      (∃ pr t : ℝ, out[1]? = some (1 + t) ∧
        log_pr_tf_of ⟨Real.exp, Real.log⟩ true pr ⟨0, 1⟩ = .ok t ∧ pr = 1 / 3) := by
  refine ⟨_, _, two_word_barrel_loo_run, ?_, ?_⟩
  · obtain ⟨-, -, ⟨s, pr, t, h1, h2, h3, hloo, -⟩, -⟩ := class_loop_leave_one_out
      ⟨Real.exp, Real.log⟩ (two_word_barrel : bow_barrel ℝ) ⟨0, 1⟩ ⟨1, [⟨0, 1, 1 / 2⟩]⟩ 0
      [1, 1] _ _ rfl two_word_barrel_loo_run 0 ⟨.model, 1 / 2, 2⟩ rfl
    have hs : s = 1 := by simpa using h1.symm
    subst hs
    refine ⟨pr, t, h2, h3, ?_⟩
    rw [(hloo rfl).1 ⟨0, 1, 1 / 2⟩ rfl]
    simp [M_EST_M, two_word_barrel]
    norm_num
  · obtain ⟨-, -, ⟨s, pr, t, h1, h2, h3, -, hnot⟩, -⟩ := class_loop_leave_one_out
      ⟨Real.exp, Real.log⟩ (two_word_barrel : bow_barrel ℝ) ⟨0, 1⟩ ⟨1, [⟨0, 1, 1 / 2⟩]⟩ 0
      [1, 1] _ _ rfl two_word_barrel_loo_run 1 ⟨.model, 1 / 2, 1⟩ rfl
    have hs : s = 1 := by simpa using h1.symm
    subst hs
    refine ⟨pr, t, h2, h3, ?_⟩
    rw [(hnot (by decide)).2 rfl]
    simp [M_EST_M, two_word_barrel]
    norm_num

end Code

end NaiveBayes
